import Mathlib

/-!
Verification development for the telegraph-js content conversion engine
(src/utils.ts and src/templates.ts).  The HTML-like markup tokenizer, the
stack-based tree builder, the Markdown rewriting pipeline, the tree
serializers and the format dispatcher are embedded as executable Lean
functions over `List Char` / `String`, mirroring the JavaScript source
line by line (JS regexes are unfolded into explicit leftmost-match scans
with the same backtracking behaviour).

Recursive scanners are written with an explicit `Nat` fuel so that they
are structurally recursive and evaluate inside the kernel; each public
wrapper supplies fuel that provably suffices (one step always consumes at
least one character / one unit of size), and fuel-irrelevance lemmas let
the proofs treat the wrappers as the direct recursions.
-/

set_option maxRecDepth 100000
set_option linter.unusedVariables false

namespace Telegraph

/-- The double-quote character (named to keep literals readable). -/
def qmark : Char := Char.ofNat 34

/-- The single-quote character. -/
def squote : Char := Char.ofNat 39

/-- The backtick character. -/
def btick : Char := Char.ofNat 96

/-- JS `\w` character class: ASCII letters, digits and underscore. -/
def isWordChar (c : Char) : Bool := c.isAlpha || c.isDigit || c = '_'

/-- Characters admitted by the source's `[\w-]` tag/attribute-name class. -/
def isNameChar (c : Char) : Bool := isWordChar c || c = '-'

/-- Whitespace recognized by the host's `\s` class and `String.trim`
(ASCII whitespace plus NBSP, the Unicode space separators, LS/PS and BOM). -/
def isJsWs (c : Char) : Bool :=
  c = ' ' || c = '\t' || c = '\n' || c = '\r' || c.val = 0x0b || c.val = 0x0c ||
  c.val = 0xa0 || c.val = 0x1680 || (0x2000 ≤ c.val && c.val ≤ 0x200a) ||
  c.val = 0x2028 || c.val = 0x2029 || c.val = 0x202f || c.val = 0x205f ||
  c.val = 0x3000 || c.val = 0xfeff

/-- Host `String.prototype.trim` on a character list. -/
def jsTrim (cs : List Char) : List Char :=
  ((cs.dropWhile isJsWs).reverse.dropWhile isJsWs).reverse

/-- Host `String.prototype.trim`. -/
def jsTrimStr (s : String) : String := ⟨jsTrim s.data⟩

/-- Every suffix taken by `dropWhile` is no longer than the input. -/
theorem length_dropWhile_le {α : Type} (p : α → Bool) :
    ∀ l : List α, (l.dropWhile p).length ≤ l.length
  | [] => Nat.le_refl _
  | c :: rest => by
    rw [List.dropWhile_cons]
    split
    · exact Nat.le_succ_of_le (length_dropWhile_le p rest)
    · exact Nat.le_refl _

/-- Telegraph content node: a text leaf or a tagged element.  The source
emits the `attrs` / `children` fields only when non-empty and every
consumer treats a present-but-empty field like an absent one, so the
embedding identifies "absent" with the empty list. -/
inductive Node where
  | text (s : String)
  | element (tag : String) (attrs : List (String × String)) (children : List Node)
deriving Repr

compile_inductive% Node

/-- Fueled Boolean equality of node lists (spelled out because automatic
deriving does not handle the nested `List Node`; a single list-level
function keeps the recursion structural in the fuel). -/
def nlBeq : Nat → List Node → List Node → Bool
  | 0, _, _ => false
  | _ + 1, [], [] => true
  | f + 1, Node.text s :: as, Node.text t :: bs => s == t && nlBeq f as bs
  | f + 1, Node.element t1 a1 c1 :: as, Node.element t2 a2 c2 :: bs =>
    t1 == t2 && a1 == a2 && nlBeq f c1 c2 && nlBeq f as bs
  | _ + 1, _, _ => false

theorem nlBeq_correct :
    ∀ (f : Nat) (as bs : List Node), sizeOf as ≤ f → (nlBeq f as bs = true ↔ as = bs) := by
  intro f
  induction f using Nat.strong_induction_on with
  | _ f ih =>
    intro as bs ha
    match f, as with
    | 0, as => exact absurd ha (by cases as <;> simp)
    | fa + 1, [] =>
      cases bs <;> simp [nlBeq]
    | fa + 1, Node.text s :: as' =>
      have h1 : 1 + (1 + sizeOf s) + sizeOf as' ≤ fa + 1 := by simpa using ha
      match bs with
      | [] => simp [nlBeq]
      | Node.text t :: bs' =>
        have e2 := ih fa (by omega) as' bs' (by omega)
        simp [nlBeq, e2]
      | Node.element t2 a2 c2 :: bs' => simp [nlBeq]
    | fa + 1, Node.element t1 a1 c1 :: as' =>
      have h1 : 1 + (1 + sizeOf t1 + sizeOf a1 + sizeOf c1) + sizeOf as' ≤ fa + 1 := by
        simpa using ha
      match bs with
      | [] => simp [nlBeq]
      | Node.text t :: bs' => simp [nlBeq]
      | Node.element t2 a2 c2 :: bs' =>
        have e1 := ih fa (by omega) c1 c2 (by omega)
        have e2 := ih fa (by omega) as' bs' (by omega)
        simp only [nlBeq, Bool.and_eq_true, beq_iff_eq, e1, e2, List.cons.injEq,
          Node.element.injEq]
        tauto

instance : DecidableEq Node := fun a b =>
  decidable_of_iff (nlBeq (sizeOf [a]) [a] [b] = true)
    (by rw [nlBeq_correct _ _ _ (Nat.le_refl _)]; simp)

/-- Tokenizer events produced by the shared tag regex
`/<(\/?)([\w-]+)([^>]*)>|([^<]+)/g`: an opening tag with its raw attribute
text, a closing tag (raw attribute text is kept but ignored downstream),
or a text run. -/
inductive Tok where
  | text (s : String)
  | otag (name : String) (attrs : String)
  | ctag (name : String) (attrs : String)
deriving Repr, DecidableEq

/-- Match `([\w-]+)([^>]*)>` at a position (after `<` and the optional
`/`): a non-empty greedy name run (exact, since neither `>` nor any
attribute text's first character can extend it), then everything up to the
first `>`.  Returns the name, the raw attribute text, and the remainder
after `>`. -/
def matchTagCore (cs1 : List Char) : Option (List Char × List Char × List Char) :=
  if (cs1.takeWhile isNameChar).isEmpty then none
  else
    match (cs1.dropWhile isNameChar).dropWhile (fun c => c ≠ '>') with
    | _ :: rest2 =>
      some (cs1.takeWhile isNameChar, (cs1.dropWhile isNameChar).takeWhile (fun c => c ≠ '>'), rest2)
    | [] => none

/-- Match the tag alternative of the tokenizer regex at a position just
after `<`: optional `/`, then `matchTagCore`. -/
def matchTag (cs : List Char) : Option (Bool × List Char × List Char × List Char) :=
  if cs.head? = some '/' then (matchTagCore cs.tail).map (fun x => (true, x))
  else (matchTagCore cs).map (fun x => (false, x))

theorem matchTagCore_rest_length {cs1 : List Char} {n a r : List Char}
    (h : matchTagCore cs1 = some (n, a, r)) : r.length < cs1.length := by
  unfold matchTagCore at h
  split at h
  · exact absurd h (by simp)
  · split at h
    next x rest2 heq =>
      simp only [Option.some.injEq, Prod.mk.injEq] at h
      obtain ⟨-, -, hr⟩ := h
      subst hr
      have h1 : ((cs1.dropWhile isNameChar).dropWhile (fun c => c ≠ '>')).length = rest2.length + 1 := by
        rw [heq]; simp
      have h2 := length_dropWhile_le (fun c => c ≠ '>') (cs1.dropWhile isNameChar)
      have h3 := length_dropWhile_le isNameChar cs1
      omega
    · exact absurd h (by simp)

theorem matchTag_rest_length {cs : List Char} {b : Bool} {n a r : List Char}
    (h : matchTag cs = some (b, n, a, r)) : r.length < cs.length := by
  unfold matchTag at h
  split at h
  · match hc : matchTagCore cs.tail with
    | none => rw [hc] at h; exact absurd h (by simp)
    | some (n', a', r') =>
      rw [hc] at h
      simp only [Option.map_some', Option.some.injEq, Prod.mk.injEq] at h
      obtain ⟨-, -, -, rfl⟩ := h
      have h1 := matchTagCore_rest_length hc
      have h2 : cs.tail.length ≤ cs.length := by
        cases cs <;> simp
      omega
  · match hc : matchTagCore cs with
    | none => rw [hc] at h; exact absurd h (by simp)
    | some (n', a', r') =>
      rw [hc] at h
      simp only [Option.map_some', Option.some.injEq, Prod.mk.injEq] at h
      obtain ⟨-, -, -, rfl⟩ := h
      exact matchTagCore_rest_length hc

/-- Fueled tokenizer loop: the leftmost-match scan of the combined regex.
At a `<` it tries the tag alternative; on failure the regex engine
advances one position (so an unmatched `<` is silently dropped).
Elsewhere the text alternative takes the maximal run of non-`<`
characters. -/
def tokF : Nat → List Char → List Tok
  | 0, _ => []
  | _ + 1, [] => []
  | f + 1, c :: rest =>
    if c = '<' then
      match matchTag rest with
      | some (closing, name, attrs, rest2) =>
        (if closing then Tok.ctag ⟨name⟩ ⟨attrs⟩ else Tok.otag ⟨name⟩ ⟨attrs⟩) :: tokF f rest2
      | none => tokF f rest
    else
      Tok.text ⟨c :: rest.takeWhile (fun x => x ≠ '<')⟩ :: tokF f (rest.dropWhile (fun x => x ≠ '<'))

theorem tokF_nil : ∀ f, tokF f [] = [] := by
  intro f; cases f <;> rfl

theorem tokF_lt_some {rest : List Char} {closing : Bool} {name attrs rest2 : List Char}
    (hm : matchTag rest = some (closing, name, attrs, rest2)) (f : Nat) :
    tokF (f + 1) ('<' :: rest) =
      (if closing then Tok.ctag ⟨name⟩ ⟨attrs⟩ else Tok.otag ⟨name⟩ ⟨attrs⟩) :: tokF f rest2 := by
  simp [tokF, hm]

theorem tokF_lt_none {rest : List Char} (hm : matchTag rest = none) (f : Nat) :
    tokF (f + 1) ('<' :: rest) = tokF f rest := by
  simp [tokF, hm]

theorem tokF_text {c : Char} (hc : c ≠ '<') (rest : List Char) (f : Nat) :
    tokF (f + 1) (c :: rest) =
      Tok.text ⟨c :: rest.takeWhile (fun x => x ≠ '<')⟩ ::
        tokF f (rest.dropWhile (fun x => x ≠ '<')) := by
  simp [tokF, hc]

/-- The fuel does not matter once it covers the input length. -/
theorem tokF_irrel : ∀ (f f' : Nat) (cs : List Char), cs.length ≤ f → cs.length ≤ f' →
    tokF f cs = tokF f' cs := by
  intro f
  induction f using Nat.strong_induction_on with
  | _ f ih =>
    intro f' cs hf hf'
    match cs with
    | [] => rw [tokF_nil, tokF_nil]
    | c :: rest =>
      match f, f' with
      | fa + 1, fb + 1 =>
        simp only [List.length_cons] at hf hf'
        by_cases hc : c = '<'
        · subst hc
          match hm : matchTag rest with
          | some (closing, name, attrs, rest2) =>
            have hlen := matchTag_rest_length hm
            rw [tokF_lt_some hm, tokF_lt_some hm,
              ih fa (by omega) fb rest2 (by omega) (by omega)]
          | none =>
            rw [tokF_lt_none hm, tokF_lt_none hm]
            exact ih fa (by omega) fb rest (by omega) (by omega)
        · have := length_dropWhile_le (fun x => x ≠ '<') rest
          rw [tokF_text hc, tokF_text hc,
            ih fa (by omega) fb (rest.dropWhile (fun x => x ≠ '<')) (by omega) (by omega)]

/-- The tokenizer on a character list. -/
def tokenize (cs : List Char) : List Tok := tokF cs.length cs

/-- JS record assignment `attrs[k] = v`: an existing key keeps its
position and gets the new value, a fresh key is appended. -/
def recordSet (m : List (String × String)) (k v : String) : List (String × String) :=
  if m.any (fun p => p.1 = k) then m.map (fun p => if p.1 = k then (k, v) else p)
  else m ++ [(k, v)]

/-- Character test for the quoted-value class `[^"']`. -/
def notQuote (c : Char) : Bool := ¬(c = qmark ∨ c = squote)

/-- Match the attribute regex `([\w-]+)=["']([^"']*)["']` at one position:
a non-empty name run, `=`, either quote, a run free of both quote kinds,
and either quote again (the source accepts mismatched quotes). -/
def matchAttrAt (cs : List Char) : Option ((String × String) × List Char) :=
  if (cs.takeWhile isNameChar).isEmpty then none
  else
    match cs.dropWhile isNameChar with
    | e :: q :: rest =>
      if e = '=' ∧ (q = qmark ∨ q = squote) then
        match rest.dropWhile notQuote with
        | _ :: rest2 => some ((⟨cs.takeWhile isNameChar⟩, ⟨rest.takeWhile notQuote⟩), rest2)
        | [] => none
      else none
    | _ => none

theorem matchAttrAt_rest_length {cs : List Char} {kv : String × String} {r : List Char}
    (h : matchAttrAt cs = some (kv, r)) : r.length < cs.length := by
  unfold matchAttrAt at h
  split at h
  · exact absurd h (by simp)
  · split at h
    next e q rest heq =>
      split at h
      · split at h
        next x rest2 heq2 =>
          simp only [Option.some.injEq, Prod.mk.injEq] at h
          obtain ⟨-, hr⟩ := h
          subst hr
          have h1 : (rest.dropWhile notQuote).length = rest2.length + 1 := by
            rw [heq2]; simp
          have h2 := length_dropWhile_le notQuote rest
          have h3 : (e :: q :: rest).length ≤ cs.length := by
            rw [← heq]; exact length_dropWhile_le _ _
          simp at h3
          omega
        · exact absurd h (by simp)
      · exact absurd h (by simp)
    · exact absurd h (by simp)

/-- Fueled global scan of the attribute regex: leftmost matches collected
into the record; a failed position advances by one character. -/
def attrF : Nat → List Char → List (String × String) → List (String × String)
  | 0, _, acc => acc
  | _ + 1, [], acc => acc
  | f + 1, c :: rest, acc =>
    match matchAttrAt (c :: rest) with
    | some (kv, rest2) => attrF f rest2 (recordSet acc kv.1 kv.2)
    | none => attrF f rest acc

theorem attrF_nil : ∀ f acc, attrF f [] acc = acc := by
  intro f acc; cases f <;> rfl

theorem attrF_irrel : ∀ (f f' : Nat) (cs : List Char) acc, cs.length ≤ f → cs.length ≤ f' →
    attrF f cs acc = attrF f' cs acc := by
  intro f
  induction f using Nat.strong_induction_on with
  | _ f ih =>
    intro f' cs acc hf hf'
    match cs with
    | [] => rw [attrF_nil, attrF_nil]
    | c :: rest =>
      match f, f' with
      | fa + 1, fb + 1 =>
        simp only [attrF]
        simp only [List.length_cons] at hf hf'
        match hm : matchAttrAt (c :: rest) with
        | some (kv, rest2) =>
          have hlen := matchAttrAt_rest_length hm
          simp only [List.length_cons] at hlen
          exact ih fa (by omega) fb rest2 _ (by omega) (by omega)
        | none => exact ih fa (by omega) fb rest acc (by omega) (by omega)

/-- Attribute parsing of a raw attribute string (source lines 50-57). -/
def parseAttrs (s : String) : List (String × String) := attrF s.data.length s.data []

/-- The source's list of always-self-closing tags. -/
def voidTags : List String := ["br", "hr", "img"]

/-- Host `toLowerCase` (the source only ever applies it to `[\w-]+` names,
which are ASCII, where it agrees with `Char.toLower`). -/
def lowerStr (s : String) : String := ⟨s.data.map Char.toLower⟩

/-- An in-progress element frame on the open-element stack. -/
structure Frame where
  tag : String
  attrs : List (String × String)
  children : List Node
deriving Repr, DecidableEq

/-- Tree-builder state: finished root nodes plus the open-element stack
(head is the top / innermost frame).  The source's `current` pointer is
the head frame's children, or the root when the stack is empty. -/
structure BState where
  root : List Node
  stack : List Frame
deriving Repr, DecidableEq

/-- Finalize a frame into an element (the attrs/children fields are
emitted only when non-empty in the source; the embedding's lists carry
that convention directly). -/
def finishFrame (f : Frame) : Node := Node.element f.tag f.attrs f.children

/-- `current.push(n)`: append to the top frame's children, or to the root
when the stack is empty. -/
def pushNode (n : Node) (st : BState) : BState :=
  match st.stack with
  | [] => { st with root := st.root ++ [n] }
  | f :: fs => { st with stack := { f with children := f.children ++ [n] } :: fs }

/-- One step of `htmlToNodes`'s event loop (src/utils.ts lines 24-73):
text runs are pushed verbatim when non-empty; a close pops the top frame
(whatever its name) and is ignored on an empty stack; an open of a void
tag or with a `/` anywhere in the raw attribute text appends a childless
element, any other open pushes a frame. -/
def stepTok (st : BState) (t : Tok) : BState :=
  match t with
  | Tok.text s => if s.isEmpty then st else pushNode (Node.text s) st
  | Tok.ctag _ _ =>
    match st.stack with
    | [] => st
    | f :: fs => pushNode (finishFrame f) { st with stack := fs }
  | Tok.otag name attrString =>
    let tag := lowerStr name
    if tag ∈ voidTags ∨ attrString.data.contains '/' then
      pushNode (Node.element tag (parseAttrs attrString) []) st
    else
      { st with stack := ⟨tag, parseAttrs attrString, []⟩ :: st.stack }

/-- One step of `parseHtmlToNodes`'s event loop (src/templates.ts lines
356-402): identical to `stepTok` except that text runs are trimmed and
dropped when the trim is empty. -/
def stepTokTrim (st : BState) (t : Tok) : BState :=
  match t with
  | Tok.text s =>
    let tr := jsTrimStr s
    if tr.isEmpty then st else pushNode (Node.text tr) st
  | Tok.ctag _ _ =>
    match st.stack with
    | [] => st
    | f :: fs => pushNode (finishFrame f) { st with stack := fs }
  | Tok.otag name attrString =>
    let tag := lowerStr name
    if tag ∈ voidTags ∨ attrString.data.contains '/' then
      pushNode (Node.element tag (parseAttrs attrString) []) st
    else
      { st with stack := ⟨tag, parseAttrs attrString, []⟩ :: st.stack }

/-- Fueled end-of-input unwinding (source lines 77-89): every remaining
frame is finalized and appended to its parent, innermost first. -/
def unwF : Nat → BState → List Node
  | 0, st => st.root
  | f + 1, st =>
    match st.stack with
    | [] => st.root
    | fr :: fs => unwF f (pushNode (finishFrame fr) ⟨st.root, fs⟩)

theorem pushNode_stack_length (n : Node) (st : BState) :
    (pushNode n st).stack.length = st.stack.length := by
  unfold pushNode
  match st with
  | ⟨root, []⟩ => rfl
  | ⟨root, f :: fs⟩ => rfl

theorem unwF_irrel : ∀ (f f' : Nat) (st : BState), st.stack.length ≤ f →
    st.stack.length ≤ f' → unwF f st = unwF f' st := by
  intro f
  induction f using Nat.strong_induction_on with
  | _ f ih =>
    intro f' st hf hf'
    match st with
    | ⟨root, []⟩ => cases f <;> cases f' <;> rfl
    | ⟨root, fr :: fs⟩ =>
      match f, f' with
      | fa + 1, fb + 1 =>
        simp only [unwF]
        simp only [List.length_cons] at hf hf'
        have hl : (pushNode (finishFrame fr) ⟨root, fs⟩).stack.length = fs.length :=
          pushNode_stack_length _ _
        exact ih fa (by omega) fb _ (by omega) (by omega)

/-- End-of-input unwinding of a builder state. -/
def unwind (st : BState) : List Node := unwF st.stack.length st

/-- The fresh builder state. -/
def initState : BState := ⟨[], []⟩

/-- `htmlToNodes` (src/utils.ts lines 11-92). -/
def htmlToNodes (html : String) : List Node :=
  unwind ((tokenize html.data).foldl stepTok initState)

/-- `parseHtmlToNodes` (src/templates.ts lines 349-419), the duplicated
builder used for template-generated content. -/
def parseHtmlToNodes (html : String) : List Node :=
  unwind ((tokenize html.data).foldl stepTokTrim initState)

/-- Render the attribute record as the source does:
`' ' + entries.map(([k, v]) => k + '="' + v + '"').join(' ')`, and the
empty string when there are no attributes (absent field). -/
def attrsToHtml (attrs : List (String × String)) : String :=
  if attrs.isEmpty then ""
  else " " ++ String.intercalate " " (attrs.map (fun p => p.1 ++ "=\"" ++ p.2 ++ "\""))

/-- Render one element given its children's rendering
(src/utils.ts lines 359-380): void tags self-close, the rest get an
open/close pair. -/
def elementHtml (tag : String) (attrs : List (String × String)) (childrenHtml : String) : String :=
  if tag ∈ voidTags then "<" ++ tag ++ attrsToHtml attrs ++ "/>"
  else "<" ++ tag ++ attrsToHtml attrs ++ ">" ++ childrenHtml ++ "</" ++ tag ++ ">"

/-- Fueled recursion of `nodesToHtml` (src/utils.ts lines 388-398):
concatenate text leaves verbatim and rendered elements. -/
def htmlF : Nat → List Node → String
  | 0, _ => ""
  | _ + 1, [] => ""
  | f + 1, Node.text s :: ns => s ++ htmlF f ns
  | f + 1, Node.element t a c :: ns => elementHtml t a (htmlF f c) ++ htmlF f ns

theorem htmlF_irrel : ∀ (f f' : Nat) (ns : List Node), sizeOf ns ≤ f → sizeOf ns ≤ f' →
    htmlF f ns = htmlF f' ns := by
  intro f
  induction f using Nat.strong_induction_on with
  | _ f ih =>
    intro f' ns hf hf'
    match f, f', ns with
    | 0, _, ns => exact absurd hf (by cases ns <;> simp)
    | _ + 1, 0, ns => exact absurd hf' (by cases ns <;> simp)
    | fa + 1, fb + 1, [] => rfl
    | fa + 1, fb + 1, Node.text s :: ns =>
      have hsz : 1 + (1 + sizeOf s) + sizeOf ns ≤ fa + 1 := by simpa using hf
      have hsz' : 1 + (1 + sizeOf s) + sizeOf ns ≤ fb + 1 := by simpa using hf'
      simp only [htmlF]
      rw [ih fa (by omega) fb ns (by omega) (by omega)]
    | fa + 1, fb + 1, Node.element t a c :: ns =>
      have hsz : 1 + (1 + sizeOf t + sizeOf a + sizeOf c) + sizeOf ns ≤ fa + 1 := by
        simpa using hf
      have hsz' : 1 + (1 + sizeOf t + sizeOf a + sizeOf c) + sizeOf ns ≤ fb + 1 := by
        simpa using hf'
      simp only [htmlF]
      rw [ih fa (by omega) fb ns (by omega) (by omega),
        ih fa (by omega) fb c (by omega) (by omega)]

/-- `nodesToHtml` (src/utils.ts lines 388-398). -/
def nodesToHtml (ns : List Node) : String := htmlF (sizeOf ns) ns

/-- `node.attrs?.k || ''`. -/
def attrD (attrs : List (String × String)) (k : String) : String :=
  ((attrs.find? (fun p => p.1 = k)).map Prod.snd).getD ""

/-- One backtick as a string. -/
def btickStr : String := ⟨[btick]⟩

/-- A triple-backtick fence. -/
def fenceStr : String := ⟨[btick, btick, btick]⟩

/-- The per-tag Markdown mapping of `nodeElementToMarkdown`
(src/utils.ts lines 282-333), given the children's rendering. -/
def elementMd (tag : String) (attrs : List (String × String)) (cs : String) : String :=
  match tag with
  | "h3" => "\n# " ++ cs ++ "\n"
  | "h4" => "\n## " ++ cs ++ "\n"
  | "p" => "\n" ++ cs ++ "\n"
  | "b" => "**" ++ cs ++ "**"
  | "strong" => "**" ++ cs ++ "**"
  | "i" => "*" ++ cs ++ "*"
  | "em" => "*" ++ cs ++ "*"
  | "a" => "[" ++ cs ++ "](" ++ attrD attrs "href" ++ ")"
  | "img" => "![image](" ++ attrD attrs "src" ++ ")"
  | "ul" => "\n" ++ cs
  | "ol" => "\n" ++ cs
  | "li" => "- " ++ cs ++ "\n"
  | "blockquote" => "\n> " ++ cs ++ "\n"
  | "code" => btickStr ++ cs ++ btickStr
  | "pre" => "\n" ++ fenceStr ++ "\n" ++ cs ++ "\n" ++ fenceStr ++ "\n"
  | "br" => "\n"
  | "hr" => "\n---\n"
  | "s" => "~~" ++ cs ++ "~~"
  | "u" => "__" ++ cs ++ "__"
  | "figure" => cs
  | "figcaption" => ""
  | "aside" => "\n> " ++ cs ++ "\n"
  | "video" => "\n[video](" ++ attrD attrs "src" ++ ")\n"
  | "iframe" => "\n[iframe](" ++ attrD attrs "src" ++ ")\n"
  | _ => cs

/-- Fueled recursion of `nodesToMarkdown` (src/utils.ts lines 341-351). -/
def mdF : Nat → List Node → String
  | 0, _ => ""
  | _ + 1, [] => ""
  | f + 1, Node.text s :: ns => s ++ mdF f ns
  | f + 1, Node.element t a c :: ns => elementMd t a (mdF f c) ++ mdF f ns

/-- `nodesToMarkdown` (src/utils.ts lines 341-351). -/
def nodesToMarkdown (ns : List Node) : String := mdF (sizeOf ns) ns

/-- `nodeElementToMarkdown` (src/utils.ts lines 282-333) on the three
components of an element. -/
def nodeElementToMarkdown (tag : String) (attrs : List (String × String))
    (children : List Node) : String :=
  elementMd tag attrs (nodesToMarkdown children)

/-! ### The Markdown rewriting pipeline (src/utils.ts lines 101-226)

Each JS regex-replace pass is unfolded into a leftmost-match scan with the
same backtracking behaviour; the scans carry fuel bounded by the input
length. -/

/-- Split a character list at the first `` ``` `` fence: the part before
it and the part after it. -/
def splitTriple : List Char → Option (List Char × List Char)
  | c1 :: c2 :: c3 :: rest =>
    if c1 = btick ∧ c2 = btick ∧ c3 = btick then some ([], rest)
    else
      match splitTriple (c2 :: c3 :: rest) with
      | some (pre, post) => some (c1 :: pre, post)
      | none => none
  | _ => none

theorem splitTriple_length : ∀ {cs pre post : List Char},
    splitTriple cs = some (pre, post) → pre.length + 3 + post.length = cs.length := by
  intro cs
  induction cs with
  | nil => intro pre post h; exact absurd h (by simp [splitTriple])
  | cons c1 tl ih =>
    intro pre post h
    match tl with
    | [] => exact absurd h (by simp [splitTriple])
    | [c2] => exact absurd h (by simp [splitTriple])
    | c2 :: c3 :: rest =>
      rw [splitTriple] at h
      split at h
      · simp only [Option.some.injEq, Prod.mk.injEq] at h
        obtain ⟨rfl, rfl⟩ := h
        simp; omega
      · match hs : splitTriple (c2 :: c3 :: rest) with
        | some (pre', post') =>
          rw [hs] at h
          simp only [Option.some.injEq, Prod.mk.injEq] at h
          obtain ⟨rfl, rfl⟩ := h
          have := ih hs
          simp at this ⊢
          omega
        | none => rw [hs] at h; exact absurd h (by simp)

/-- Placeholder for the i-th extracted code block. -/
def cbToken (i : Nat) : List Char := ("__CODEBLOCK_" ++ toString i ++ "__").data

/-- Placeholder for the i-th extracted inline-code span. -/
def icToken (i : Nat) : List Char := ("__INLINECODE_" ++ toString i ++ "__").data

/-- Pass 1, `` /```([\s\S]*?)```/g ``: extract fenced code blocks into a
side table (contents trimmed), leaving placeholders.  A lone unmatched
fence makes the regex fail at that position and the engine advances one
character. -/
def cbF : Nat → List Char → List String → (List Char × List String)
  | 0, cs, blocks => (cs, blocks)
  | f + 1, c1 :: c2 :: c3 :: rest, blocks =>
    if c1 = btick ∧ c2 = btick ∧ c3 = btick then
      match splitTriple rest with
      | some (body, rest2) =>
        let res := cbF f rest2 (blocks ++ [⟨jsTrim body⟩])
        (cbToken blocks.length ++ res.1, res.2)
      | none =>
        let res := cbF f (c2 :: c3 :: rest) blocks
        (c1 :: res.1, res.2)
    else
      let res := cbF f (c2 :: c3 :: rest) blocks
      (c1 :: res.1, res.2)
  | _ + 1, cs, blocks => (cs, blocks)

/-- Pass 2, `` /`([^`]+)`/g ``: extract inline code spans. -/
def icF : Nat → List Char → List String → (List Char × List String)
  | 0, cs, codes => (cs, codes)
  | _ + 1, [], codes => ([], codes)
  | f + 1, c :: rest, codes =>
    if c = btick then
      match rest.dropWhile (fun x => x ≠ btick) with
      | _ :: rest2 =>
        if (rest.takeWhile (fun x => x ≠ btick)).isEmpty then
          let res := icF f rest codes
          (c :: res.1, res.2)
        else
          let res := icF f rest2 (codes ++ [⟨rest.takeWhile (fun x => x ≠ btick)⟩])
          (icToken codes.length ++ res.1, res.2)
      | [] =>
        let res := icF f rest codes
        (c :: res.1, res.2)
    else
      let res := icF f rest codes
      (c :: res.1, res.2)

/-- The `\s+(.+)$` suffix of the line-anchored patterns, with the greedy
`\s+`'s backtracking: normally the capture starts at the first
non-whitespace character and runs to the end of line; when only
whitespace remains, `\s+` gives back just enough for `.` (which cannot
match a newline) to take one character.  Returns the capture and the
remainder of the string after the match. -/
def wsDotPlus (cs : List Char) : Option (List Char × List Char) :=
  if (cs.takeWhile isJsWs).isEmpty then none
  else if (cs.dropWhile isJsWs).isEmpty then
    if 2 ≤ ((cs.takeWhile isJsWs).reverse.dropWhile (fun c => c = '\n')).reverse.length then
      some ((((cs.takeWhile isJsWs).reverse.dropWhile (fun c => c = '\n')).reverse).drop
          (((cs.takeWhile isJsWs).reverse.dropWhile (fun c => c = '\n')).reverse.length - 1),
        (cs.takeWhile isJsWs).drop
          ((cs.takeWhile isJsWs).reverse.dropWhile (fun c => c = '\n')).reverse.length)
    else none
  else
    some ((cs.dropWhile isJsWs).takeWhile (fun c => c ≠ '\n'),
      (cs.dropWhile isJsWs).dropWhile (fun c => c ≠ '\n'))

theorem takeWhile_length_add_dropWhile_length {α : Type} (p : α → Bool) (l : List α) :
    (l.takeWhile p).length + (l.dropWhile p).length = l.length := by
  induction l with
  | nil => rfl
  | cons x xs ih =>
    rw [List.takeWhile_cons, List.dropWhile_cons]
    by_cases h : p x = true
    · simp only [if_pos h, List.length_cons]
      omega
    · simp only [if_neg h, List.length_nil, List.length_cons]
      omega

theorem wsDotPlus_rest_length {cs cap rest : List Char}
    (h : wsDotPlus cs = some (cap, rest)) : rest.length < cs.length := by
  unfold wsDotPlus at h
  split at h
  · exact absurd h (by simp)
  next hw =>
    have htw := takeWhile_length_add_dropWhile_length isJsWs cs
    have hwlen : 1 ≤ (cs.takeWhile isJsWs).length := by
      cases hcs : cs.takeWhile isJsWs with
      | nil => rw [hcs] at hw; simp at hw
      | cons a b => simp
    split at h
    next hr =>
      split at h
      next hwr =>
        simp only [Option.some.injEq, Prod.mk.injEq] at h
        obtain ⟨-, rfl⟩ := h
        have hrl : (cs.dropWhile isJsWs).length = 0 := by
          rw [List.isEmpty_iff] at hr
          simp [hr]
        rw [List.length_drop]
        omega
      · exact absurd h (by simp)
    next hr =>
      simp only [Option.some.injEq, Prod.mk.injEq] at h
      obtain ⟨-, rfl⟩ := h
      have h2 := takeWhile_length_add_dropWhile_length (fun c => c ≠ '\n') (cs.dropWhile isJsWs)
      have h3 : 1 ≤ (cs.dropWhile isJsWs).length := by
        cases hcs : cs.dropWhile isJsWs with
        | nil => rw [hcs] at hr; simp at hr
        | cons a b => simp
      omega

/-- A line-anchored replace pass of shape `^PAT\s+(.+)$` with the `m`
flag: matches can begin only at a line start; the replacement is
`PRE capture POST`; a failed position advances one character.  The
Boolean tracks whether the scan position is at a line start. -/
def anchF (pat pre post : List Char) : Nat → Bool → List Char → List Char
  | 0, _, _ => []
  | _ + 1, _, [] => []
  | f + 1, atStart, c :: rest =>
    if atStart ∧ pat.isPrefixOf (c :: rest) then
      match wsDotPlus ((c :: rest).drop pat.length) with
      | some (cap, rest') => pre ++ cap ++ post ++ anchF pat pre post f false rest'
      | none => c :: anchF pat pre post f (c = '\n') rest
    else c :: anchF pat pre post f (c = '\n') rest

/-- Run an anchored pass over a whole string (the string start counts as
a line start). -/
def anchored (pat pre post : String) (cs : List Char) : List Char :=
  anchF pat.data pre.data post.data cs.length true cs

/-- The `^---+$` pass: a line of three or more hyphens becomes `<hr/>`. -/
def hrF : Nat → Bool → List Char → List Char
  | 0, _, _ => []
  | _ + 1, _, [] => []
  | f + 1, atStart, c :: rest =>
    if atStart ∧ 3 ≤ ((c :: rest).takeWhile (fun x => x = '-')).length then
      match (c :: rest).dropWhile (fun x => x = '-') with
      | [] => "<hr/>".data
      | c2 :: rest2 =>
        if c2 = '\n' then "<hr/>".data ++ hrF f false (c2 :: rest2)
        else c :: hrF f (c = '\n') rest
    else c :: hrF f (c = '\n') rest

/-- Match `\[([^\]]*)\]\(([^)]+)\)` (brackets then parens) at one
position, after any leading `!` was consumed by the caller.  For plain
links the bracket text must be non-empty (`[^\]]+`). -/
def mdLink (altMayBeEmpty : Bool) (cs : List Char) : Option (List Char × List Char × List Char) :=
  match cs with
  | '[' :: rest =>
    if (rest.takeWhile (fun c => c ≠ ']')).isEmpty ∧ ¬altMayBeEmpty then none
    else
      match rest.dropWhile (fun c => c ≠ ']') with
      | _ :: '(' :: rest2 =>
        if (rest2.takeWhile (fun c => c ≠ ')')).isEmpty then none
        else
          match rest2.dropWhile (fun c => c ≠ ')') with
          | _ :: rest3 =>
            some (rest.takeWhile (fun c => c ≠ ']'), rest2.takeWhile (fun c => c ≠ ')'), rest3)
          | [] => none
      | _ => none
  | _ => none

theorem mdLink_rest_length {b : Bool} {cs alt src rest3 : List Char}
    (h : mdLink b cs = some (alt, src, rest3)) : rest3.length < cs.length := by
  unfold mdLink at h
  split at h
  next rest =>
    split at h
    · exact absurd h (by simp)
    · split at h
      next x rest2 heq =>
        split at h
        · exact absurd h (by simp)
        · split at h
          next y rest3' heq2 =>
            simp only [Option.some.injEq, Prod.mk.injEq] at h
            obtain ⟨-, -, rfl⟩ := h
            have h1 : (rest2.dropWhile (fun c => c ≠ ')')).length = rest3'.length + 1 := by
              rw [heq2]; simp
            have h2 := takeWhile_length_add_dropWhile_length (fun c => c ≠ ')') rest2
            have h3 : (rest.dropWhile (fun c => c ≠ ']')).length = rest2.length + 2 := by
              rw [heq]; simp
            have h4 := takeWhile_length_add_dropWhile_length (fun c => c ≠ ']') rest
            simp only [List.length_cons]
            omega
          · exact absurd h (by simp)
      · exact absurd h (by simp)
  · exact absurd h (by simp)

/-- Replacement emitted for an image `![alt](src)`. -/
def figureHtml (alt src : List Char) : List Char :=
  "<figure><img src=\"".data ++ src ++ "\"/><figcaption>".data ++ alt ++
    "</figcaption></figure>".data

/-- The image pass `/!\[([^\]]*)\]\(([^)]+)\)/g`. -/
def imgF : Nat → List Char → List Char
  | 0, _ => []
  | _ + 1, [] => []
  | f + 1, c :: rest =>
    if c = '!' then
      match mdLink true rest with
      | some (alt, src, rest2) => figureHtml alt src ++ imgF f rest2
      | none => c :: imgF f rest
    else c :: imgF f rest

/-- Replacement emitted for a link `[text](url)`. -/
def anchorHtml (txt url : List Char) : List Char :=
  "<a href=\"".data ++ url ++ "\">".data ++ txt ++ "</a>".data

/-- The link pass `/\[([^\]]+)\]\(([^)]+)\)/g`. -/
def linkF : Nat → List Char → List Char
  | 0, _ => []
  | _ + 1, [] => []
  | f + 1, c :: rest =>
    match mdLink false (c :: rest) with
    | some (txt, url, rest2) => anchorHtml txt url ++ linkF f rest2
    | none => c :: linkF f rest

/-- The bold passes `/\*\*([^*]+)\*\*/g` and `/__([^_]+)__/g`,
parameterized by the delimiter character. -/
def boldF (d : Char) : Nat → List Char → List Char
  | 0, _ => []
  | _ + 1, [] => []
  | _ + 1, [c] => [c]
  | f + 1, c1 :: c2 :: rest =>
    if c1 = d ∧ c2 = d then
      if (rest.takeWhile (fun x => x ≠ d)).isEmpty then c1 :: boldF d f (c2 :: rest)
      else
        match rest.dropWhile (fun x => x ≠ d) with
        | e1 :: e2 :: rest2 =>
          if e2 = d then
            "<b>".data ++ rest.takeWhile (fun x => x ≠ d) ++ "</b>".data ++ boldF d f rest2
          else c1 :: boldF d f (c2 :: rest)
        | _ => c1 :: boldF d f (c2 :: rest)
    else c1 :: boldF d f (c2 :: rest)

/-- The italic passes `/(?<!\w)\*([^*]+)\*(?!\w)/g` and
`/(?<!\w)_([^_]+)_(?!\w)/g`.  The Boolean records whether the character
before the scan position (in the original string) is a word character,
for the lookbehind; after a match the previous character is the closing
delimiter itself. -/
def italF (d : Char) : Nat → Bool → List Char → List Char
  | 0, _, _ => []
  | _ + 1, _, [] => []
  | f + 1, prevWord, c :: rest =>
    if c = d ∧ ¬prevWord then
      if (rest.takeWhile (fun x => x ≠ d)).isEmpty then c :: italF d f (isWordChar c) rest
      else
        match rest.dropWhile (fun x => x ≠ d) with
        | _ :: rest2 =>
          if (rest2.head?.map isWordChar).getD false then c :: italF d f (isWordChar c) rest
          else
            "<i>".data ++ rest.takeWhile (fun x => x ≠ d) ++ "</i>".data ++
              italF d f (isWordChar d) rest2
        | [] => c :: italF d f (isWordChar c) rest
    else c :: italF d f (isWordChar c) rest

/-- Split on single newlines (JS `split('\n')`). -/
def splitNl : List Char → List (List Char)
  | [] => [[]]
  | c :: rest =>
    if c = '\n' then [] :: splitNl rest
    else
      match splitNl rest with
      | l :: ls => (c :: l) :: ls
      | [] => [[c]]

/-- Join lines with newlines (JS `join('\n')`). -/
def joinNl : List (List Char) → List Char
  | [] => []
  | [l] => l
  | l :: ls => l ++ '\n' :: joinNl ls

/-- `<li>` wrapper. -/
def liWrap (item : List Char) : List Char := "<li>".data ++ item ++ "</li>".data

/-- `<ul>` wrapper around accumulated items. -/
def ulWrap (buf : List (List Char)) : List Char := "<ul>".data ++ buf.flatten ++ "</ul>".data

/-- `<ol>` wrapper around accumulated items. -/
def olWrap (buf : List (List Char)) : List Char := "<ol>".data ++ buf.flatten ++ "</ol>".data

/-- Per-line match `/^[-*]\s+(.+)$/` (within a single line the remainder
after the capture is always empty). -/
def bulletItem (line : List Char) : Option (List Char) :=
  match line with
  | c :: rest => if c = '-' ∨ c = '*' then (wsDotPlus rest).map (fun p => p.1) else none
  | [] => none

/-- Per-line match `/^\d+\.\s+(.+)$/`. -/
def olItem (line : List Char) : Option (List Char) :=
  if (line.takeWhile Char.isDigit).isEmpty then none
  else
    match line.dropWhile Char.isDigit with
    | '.' :: rest => (wsDotPlus rest).map (fun p => p.1)
    | _ => none

/-- The unordered-list scan (source lines 143-168): consecutive bullet
lines accumulate into one `<ul>` flushed at the first non-bullet line or
at end of input.  The buffer being non-empty is exactly the source's
`inUl` flag. -/
def ulAccum : List (List Char) → List (List Char) → List (List Char)
  | [], buf => if buf.isEmpty then [] else [ulWrap buf]
  | line :: restL, buf =>
    match bulletItem line with
    | some item => ulAccum restL (buf ++ [liWrap item])
    | none =>
      if buf.isEmpty then line :: ulAccum restL []
      else ulWrap buf :: line :: ulAccum restL []

/-- The ordered-list scan (source lines 170-195), same algorithm with the
numbered-line pattern. -/
def olAccum : List (List Char) → List (List Char) → List (List Char)
  | [], buf => if buf.isEmpty then [] else [olWrap buf]
  | line :: restL, buf =>
    match olItem line with
    | some item => olAccum restL (buf ++ [liWrap item])
    | none =>
      if buf.isEmpty then line :: olAccum restL []
      else olWrap buf :: line :: olAccum restL []

/-- Decimal digits to a number (JS `parseInt` on a `\d+` capture). -/
def digitsToNat (ds : List Char) : Nat :=
  ds.foldl (fun a c => a * 10 + (c.toNat - 48)) 0

/-- The placeholder-restoring passes `/__CODEBLOCK_(\d+)__/g` and
`/__INLINECODE_(\d+)__/g`: an index beyond the side table reads as the
host's `undefined`, which the template literal renders as the string
`"undefined"` (no error is raised). -/
def restoreF (pat pre post : List Char) (table : List String) : Nat → List Char → List Char
  | 0, _ => []
  | _ + 1, [] => []
  | f + 1, c :: rest =>
    if pat.isPrefixOf (c :: rest) then
      if (((c :: rest).drop pat.length).takeWhile Char.isDigit).isEmpty then
        c :: restoreF pat pre post table f rest
      else
        match ((c :: rest).drop pat.length).drop
            (((c :: rest).drop pat.length).takeWhile Char.isDigit).length with
        | u1 :: u2 :: rest2 =>
          if u1 = '_' ∧ u2 = '_' then
            pre ++ ((table.get? (digitsToNat
              (((c :: rest).drop pat.length).takeWhile Char.isDigit))).getD "undefined").data ++
              post ++ restoreF pat pre post table f rest2
          else c :: restoreF pat pre post table f rest
        | _ => c :: restoreF pat pre post table f rest
    else c :: restoreF pat pre post table f rest

/-- Split on blank-line runs (JS `split(/\n\n+/)`): a maximal run of two
or more newlines separates chunks. -/
def paraF : Nat → List Char → List (List Char)
  | 0, _ => [[]]
  | _ + 1, [] => [[]]
  | f + 1, c :: rest =>
    if c = '\n' ∧ rest.head? = some '\n' then
      [] :: paraF f (rest.dropWhile (fun x => x = '\n'))
    else
      match paraF f rest with
      | l :: ls => (c :: l) :: ls
      | [] => [[c]]

/-- Paragraph wrapping (source lines 208-223): trim each chunk, keep it
as-is when it already looks like a complete element (starts with `<` and
ends with `>`), drop it when empty, otherwise wrap in `<p>`. -/
def paraWrap (chunk : List Char) : List Char :=
  if (jsTrim chunk).head? = some '<' ∧ (jsTrim chunk).getLast? = some '>' then jsTrim chunk
  else if (jsTrim chunk).isEmpty then []
  else "<p>".data ++ jsTrim chunk ++ "</p>".data

/-- `markdownToHtml` (src/utils.ts lines 101-226): the ordered pass
pipeline. -/
def markdownToHtml (markdown : String) : String :=
  let cs0 := markdown.data
  let r1 := cbF cs0.length cs0 []
  let r2 := icF r1.1.length r1.1 []
  let cs3 := anchored "####" "<h4>" "</h4>" r2.1
  let cs4 := anchored "###" "<h4>" "</h4>" cs3
  let cs5 := anchored "##" "<h4>" "</h4>" cs4
  let cs6 := anchored "#" "<h3>" "</h3>" cs5
  let cs7 := hrF cs6.length true cs6
  let cs8 := imgF cs7.length cs7
  let cs9 := linkF cs8.length cs8
  let cs10 := boldF '*' cs9.length cs9
  let cs11 := boldF '_' cs10.length cs10
  let cs12 := italF '*' cs11.length false cs11
  let cs13 := italF '_' cs12.length false cs12
  let cs14 := anchored ">" "<blockquote>" "</blockquote>" cs13
  let cs15 := joinNl (ulAccum (splitNl cs14) [])
  let cs16 := joinNl (olAccum (splitNl cs15) [])
  let cs17 := restoreF "__CODEBLOCK_".data "<pre>".data "</pre>".data r1.2 cs16.length cs16
  let cs18 := restoreF "__INLINECODE_".data "<code>".data "</code>".data r2.2 cs17.length cs17
  let chunks := paraF cs18.length cs18
  ⟨joinNl ((chunks.map paraWrap).filter (fun c => ¬c.isEmpty))⟩

/-! ### The format dispatcher and its JSON sniff (src/utils.ts 235-258)

`JSON.parse` is host functionality, not repository code.  Modelled from
the spec: "attempt to parse the string as a JSON value; if parsing
succeeds and the result is an array, return that array as the tree". -/

/-- JSON values as produced by the host parser.  Modelled from the spec:
a host float64 number is modelled exactly as the parsed
`mant * 10 ^ exp10`, kept unnormalized (no claim compares two different
spellings of one number), and `\uXXXX` escapes map through `Char.ofNat`
(lone surrogates fall to the null character; no claim exercises them). -/
inductive Jv where
  | null
  | bool (b : Bool)
  | num (mant : Int) (exp10 : Int)
  | str (s : String)
  | arr (elems : List Jv)
  | obj (fields : List (String × Jv))
deriving Repr

/-- Opening brace character. -/
def lbrace : Char := Char.ofNat 123

/-- Closing brace character. -/
def rbrace : Char := Char.ofNat 125

/-- JSON insignificant whitespace. -/
def jsSkipWs (cs : List Char) : List Char :=
  cs.dropWhile (fun c => c = ' ' ∨ c = '\t' ∨ c = '\n' ∨ c = '\r')

/-- Hexadecimal digit test. -/
def isHexDigitB (c : Char) : Bool :=
  c.isDigit || ('a' ≤ c ∧ c ≤ 'f') || ('A' ≤ c ∧ c ≤ 'F')

/-- Hexadecimal digit value. -/
def hexVal (c : Char) : Nat :=
  if c.isDigit then c.toNat - 48
  else if 'a' ≤ c ∧ c ≤ 'f' then c.toNat - 87
  else if 'A' ≤ c ∧ c ≤ 'F' then c.toNat - 55
  else 0

/-- Single-character JSON string escapes. -/
def escChar (c : Char) : Option Char :=
  if c = qmark then some qmark
  else if c = '\\' then some '\\'
  else if c = '/' then some '/'
  else if c = 'b' then some (Char.ofNat 8)
  else if c = 'f' then some (Char.ofNat 12)
  else if c = 'n' then some '\n'
  else if c = 'r' then some '\r'
  else if c = 't' then some '\t'
  else none

/-- JSON string body after the opening quote: content plus the remainder
after the closing quote.  Control characters are rejected. -/
def jstrF : Nat → List Char → Option (List Char × List Char)
  | 0, _ => none
  | _ + 1, [] => none
  | f + 1, c :: rest =>
    if c = qmark then some ([], rest)
    else if c = '\\' then
      match rest with
      | 'u' :: h1 :: h2 :: h3 :: h4 :: rest2 =>
        if isHexDigitB h1 ∧ isHexDigitB h2 ∧ isHexDigitB h3 ∧ isHexDigitB h4 then
          (jstrF f rest2).map (fun p =>
            (Char.ofNat (hexVal h1 * 4096 + hexVal h2 * 256 + hexVal h3 * 16 + hexVal h4) :: p.1,
              p.2))
        else none
      | e :: rest2 =>
        match escChar e with
        | some ch => (jstrF f rest2).map (fun p => (ch :: p.1, p.2))
        | none => none
      | [] => none
    else if c.val < 0x20 then none
    else (jstrF f rest).map (fun p => (c :: p.1, p.2))

/-- Exponent digits after `e`/`E` and an optional sign; yields the
mantissa/decimal-exponent pair. -/
def jnumDoExp (mant : Nat) (shift : Int) (sign : Int) (r : List Char) :
    Option ((Int × Int) × List Char) :=
  if (r.takeWhile Char.isDigit).isEmpty then none
  else
    some (((mant : Int), shift + sign * (digitsToNat (r.takeWhile Char.isDigit) : Int)),
      r.dropWhile Char.isDigit)

/-- Optional exponent part of a JSON number. -/
def jnumExp (mant : Nat) (shift : Int) (cs3 : List Char) : Option ((Int × Int) × List Char) :=
  match cs3 with
  | e :: r =>
    if e = 'e' ∨ e = 'E' then
      match r with
      | '+' :: r2 => jnumDoExp mant shift 1 r2
      | '-' :: r2 => jnumDoExp mant shift (-1) r2
      | _ => jnumDoExp mant shift 1 r
    else some (((mant : Int), shift), cs3)
  | [] => some (((mant : Int), shift), cs3)

/-- Optional fraction part of a JSON number. -/
def jnumFrac (ip : Nat) (cs2 : List Char) : Option ((Int × Int) × List Char) :=
  match cs2 with
  | '.' :: r =>
    if (r.takeWhile Char.isDigit).isEmpty then none
    else
      jnumExp (ip * 10 ^ (r.takeWhile Char.isDigit).length + digitsToNat (r.takeWhile Char.isDigit))
        (-((r.takeWhile Char.isDigit).length : Int)) (r.dropWhile Char.isDigit)
  | _ => jnumExp ip 0 cs2

/-- Unsigned JSON number (leading zeros are rejected as in the grammar). -/
def jnumPos (cs1 : List Char) : Option ((Int × Int) × List Char) :=
  if (cs1.takeWhile Char.isDigit).isEmpty then none
  else if 2 ≤ (cs1.takeWhile Char.isDigit).length ∧ cs1.head? = some '0' then none
  else jnumFrac (digitsToNat (cs1.takeWhile Char.isDigit)) (cs1.dropWhile Char.isDigit)

/-- JSON number with optional minus sign. -/
def jnum (cs : List Char) : Option ((Int × Int) × List Char) :=
  match cs with
  | '-' :: cs1 => (jnumPos cs1).map (fun p => ((-p.1.1, p.1.2), p.2))
  | _ => jnumPos cs

/-- Work items of the JSON parser (a value, or the tail of an array or
object after the first element), merged into one type so the fueled
recursion is structural. -/
inductive JReq where
  | val (cs : List Char)
  | arr (cs : List Char) (acc : List Jv)
  | obj (cs : List Char) (acc : List (String × Jv))

/-- The JSON grammar: values, array elements, object members. -/
def jrun : Nat → JReq → Option (Jv × List Char)
  | 0, _ => none
  | f + 1, JReq.val cs =>
    match jsSkipWs cs with
    | [] => none
    | c :: rest =>
      if c = 'n' then
        if "ull".data.isPrefixOf rest then some (Jv.null, rest.drop 3) else none
      else if c = 't' then
        if "rue".data.isPrefixOf rest then some (Jv.bool true, rest.drop 3) else none
      else if c = 'f' then
        if "alse".data.isPrefixOf rest then some (Jv.bool false, rest.drop 4) else none
      else if c = qmark then
        (jstrF rest.length rest).map (fun p => (Jv.str ⟨p.1⟩, p.2))
      else if c = '[' then
        match jsSkipWs rest with
        | ']' :: r2 => some (Jv.arr [], r2)
        | _ => jrun f (JReq.arr rest [])
      else if c = lbrace then
        match jsSkipWs rest with
        | r :: r2 => if r = rbrace then some (Jv.obj [], r2) else jrun f (JReq.obj rest [])
        | [] => none
      else (jnum (c :: rest)).map (fun p => (Jv.num p.1.1 p.1.2, p.2))
  | f + 1, JReq.arr cs acc =>
    match jrun f (JReq.val cs) with
    | some (v, r) =>
      match jsSkipWs r with
      | ',' :: r2 => jrun f (JReq.arr r2 (acc ++ [v]))
      | ']' :: r2 => some (Jv.arr (acc ++ [v]), r2)
      | _ => none
    | none => none
  | f + 1, JReq.obj cs acc =>
    match jsSkipWs cs with
    | c :: r =>
      if c = qmark then
        match jstrF r.length r with
        | some (k, r2) =>
          match jsSkipWs r2 with
          | c2 :: r3 =>
            if c2 = ':' then
              match jrun f (JReq.val r3) with
              | some (v, r4) =>
                match jsSkipWs r4 with
                | ',' :: r5 => jrun f (JReq.obj r5 (acc ++ [(⟨k⟩, v)]))
                | c3 :: r5 =>
                  if c3 = rbrace then some (Jv.obj (acc ++ [(⟨k⟩, v)]), r5) else none
                | [] => none
              | none => none
            else none
          | [] => none
        | none => none
      else none
    | [] => none

/-- Host `JSON.parse`, returning `none` where the host would throw (the
dispatcher's `try/catch` swallows that).  Each work item consumes input,
so double the input length is always enough fuel. -/
def jsonParse (s : String) : Option Jv :=
  match jrun (2 * s.data.length + 2) (JReq.val s.data) with
  | some (v, r) => if (jsSkipWs r).isEmpty then some v else none
  | none => none

/-- The runtime value of a content node, as the host sees it: text leaves
are strings, elements are objects with `tag` and the optional non-empty
`attrs`/`children` fields. -/
def jvF : Nat → List Node → List Jv
  | 0, _ => []
  | _ + 1, [] => []
  | f + 1, Node.text s :: ns => Jv.str s :: jvF f ns
  | f + 1, Node.element t a c :: ns =>
    Jv.obj ([("tag", Jv.str t)] ++
      (if a.isEmpty then [] else [("attrs", Jv.obj (a.map (fun p => (p.1, Jv.str p.2))))]) ++
      (if c.isEmpty then [] else [("children", Jv.arr (jvF f c))])) :: jvF f ns

/-- Injection of a content tree into host values. -/
def nodesToJv (ns : List Node) : List Jv := jvF (sizeOf ns) ns

/-- The `format` parameter of the dispatcher. -/
inductive Format where
  | html
  | markdown
deriving DecidableEq, Repr

/-- `parseContent` (src/utils.ts lines 235-258), with the runtime values
made explicit: a `Node[]` argument is returned as-is; a string is first
JSON-sniffed (any successfully parsed array is returned unchanged,
whatever it contains); otherwise Markdown input is rewritten and the
result — or the markup input itself — is parsed into a tree. -/
def parseContent (content : String ⊕ List Node) (format : Format) : List Jv :=
  match content with
  | Sum.inr nodes => nodesToJv nodes
  | Sum.inl s =>
    match jsonParse s with
    | some (Jv.arr xs) => xs
    | _ => nodesToJv (htmlToNodes (if format = Format.markdown then markdownToHtml s else s))

/-! ### Instrumented variants making the only fallible operations explicit

The JS builder pops with a non-null assertion (`stack.pop()!`) guarded by
a length check; the instrumented variants turn that assertion into an
explicit `Except` error so totality is a theorem about the guards, not an
artifact of the embedding. -/

/-- `stack.pop()` with the non-null assertion made explicit. -/
def popE : List Frame → Except String (Frame × List Frame)
  | [] => Except.error "pop on empty stack"
  | f :: fs => Except.ok (f, fs)

/-- `stepTok` with the guarded pop made fallible. -/
def stepTokE (st : BState) (t : Tok) : Except String BState :=
  match t with
  | Tok.text s => Except.ok (if s.isEmpty then st else pushNode (Node.text s) st)
  | Tok.ctag _ _ =>
    if 0 < st.stack.length then
      match popE st.stack with
      | Except.ok (f, fs) => Except.ok (pushNode (finishFrame f) ⟨st.root, fs⟩)
      | Except.error e => Except.error e
    else Except.ok st
  | Tok.otag name attrString =>
    if lowerStr name ∈ voidTags ∨ attrString.data.contains '/' then
      Except.ok (pushNode (Node.element (lowerStr name) (parseAttrs attrString) []) st)
    else Except.ok { st with stack := ⟨lowerStr name, parseAttrs attrString, []⟩ :: st.stack }

/-- The unwinding loop with the guarded pop made fallible. -/
def unwE : Nat → BState → Except String (List Node)
  | 0, st => Except.ok st.root
  | f + 1, st =>
    if 0 < st.stack.length then
      match popE st.stack with
      | Except.ok (fr, fs) => unwE f (pushNode (finishFrame fr) ⟨st.root, fs⟩)
      | Except.error e => Except.error e
    else Except.ok st.root

/-- `htmlToNodes` with every fallible operation explicit. -/
def htmlToNodesE (html : String) : Except String (List Node) := do
  let st ← (tokenize html.data).foldlM stepTokE initState
  unwE st.stack.length st

/-- `parseContent` with every fallible operation explicit (the JSON sniff
already models the host's throw as `none`, mirroring the source's
`try/catch`). -/
def parseContentE (content : String ⊕ List Node) (format : Format) :
    Except String (List Jv) :=
  match content with
  | Sum.inr nodes => Except.ok (nodesToJv nodes)
  | Sum.inl s =>
    match jsonParse s with
    | some (Jv.arr xs) => Except.ok xs
    | _ => (htmlToNodesE (if format = Format.markdown then markdownToHtml s else s)).map nodesToJv

/-! ### Shared lemmas -/

theorem takeWhile_append_sat {α : Type} {p : α → Bool} :
    ∀ {xs : List α} {y : α} (ys : List α), (∀ c ∈ xs, p c = true) → p y = false →
      ((xs ++ y :: ys).takeWhile p) = xs := by
  intro xs
  induction xs with
  | nil => intro y ys _ hy; simp [List.takeWhile_cons, hy]
  | cons x xs ih =>
    intro y ys hall hy
    have hx : p x = true := hall x (by simp)
    simp only [List.cons_append, List.takeWhile_cons, hx]
    rw [ih ys (fun c hc => hall c (by simp [hc])) hy]
    simp

theorem dropWhile_append_sat {α : Type} {p : α → Bool} :
    ∀ {xs : List α} {y : α} (ys : List α), (∀ c ∈ xs, p c = true) → p y = false →
      ((xs ++ y :: ys).dropWhile p) = y :: ys := by
  intro xs
  induction xs with
  | nil => intro y ys _ hy; simp [List.dropWhile_cons, hy]
  | cons x xs ih =>
    intro y ys hall hy
    have hx : p x = true := hall x (by simp)
    simp only [List.cons_append, List.dropWhile_cons, hx]
    rw [ih ys (fun c hc => hall c (by simp [hc])) hy]
    simp

theorem takeWhile_all_sat {α : Type} {p : α → Bool} :
    ∀ {xs : List α}, (∀ c ∈ xs, p c = true) → xs.takeWhile p = xs := by
  intro xs
  induction xs with
  | nil => intro; rfl
  | cons x xs ih =>
    intro hall
    simp only [List.takeWhile_cons, hall x (by simp)]
    rw [ih (fun c hc => hall c (by simp [hc]))]
    simp

/-- One tokenizer step at a matched tag, stated on the wrapper. -/
theorem tokenize_lt_some {rest : List Char} {closing : Bool} {name attrs rest2 : List Char}
    (hm : matchTag rest = some (closing, name, attrs, rest2)) :
    tokenize ('<' :: rest) =
      (if closing then Tok.ctag ⟨name⟩ ⟨attrs⟩ else Tok.otag ⟨name⟩ ⟨attrs⟩) :: tokenize rest2 := by
  have hlen := matchTag_rest_length hm
  unfold tokenize
  rw [List.length_cons, tokF_lt_some hm]
  congr 1
  exact tokF_irrel _ _ _ (by omega) (Nat.le_refl _)

/-- One tokenizer step at a failed tag position, stated on the wrapper. -/
theorem tokenize_lt_none {rest : List Char} (hm : matchTag rest = none) :
    tokenize ('<' :: rest) = tokenize rest := by
  unfold tokenize
  rw [List.length_cons, tokF_lt_none hm]

/-- One tokenizer step at a text run, stated on the wrapper. -/
theorem tokenize_text {c : Char} (hc : c ≠ '<') (rest : List Char) :
    tokenize (c :: rest) =
      Tok.text ⟨c :: rest.takeWhile (fun x => x ≠ '<')⟩ ::
        tokenize (rest.dropWhile (fun x => x ≠ '<')) := by
  unfold tokenize
  rw [List.length_cons, tokF_text hc]
  congr 1
  exact tokF_irrel _ _ _ (Nat.le_of_lt_succ (Nat.lt_succ_of_le (length_dropWhile_le _ _)))
    (Nat.le_refl _)

theorem tokenize_nil : tokenize [] = [] := rfl

/-! ### C9: list-ordering loss in Markdown serialization -/

/-- C9: `nodesToMarkdown` maps an `ol` element and a `ul` element with the
same items to the same Markdown (`\n` plus the items), and each `li` child
renders as a `- ` bullet line, so ordered/unordered information is not
recoverable from the Markdown output. -/
theorem C9_list_ordering_loss :
    (∀ (attrs attrs' : List (String × String)) (items : List Node),
      nodeElementToMarkdown "ol" attrs items = nodeElementToMarkdown "ul" attrs' items) ∧
    (∀ (attrs attrs' : List (String × String)) (items : List Node),
      nodeElementToMarkdown "ol" attrs items = "\n" ++ nodesToMarkdown items ∧
      nodeElementToMarkdown "ul" attrs' items = "\n" ++ nodesToMarkdown items) ∧
    (∀ (attrs : List (String × String)) (children : List Node),
      nodeElementToMarkdown "li" attrs children = "- " ++ nodesToMarkdown children ++ "\n") := by
  refine ⟨?_, ?_, ?_⟩
  · intro attrs attrs' items
    rfl
  · intro attrs attrs' items
    exact ⟨rfl, rfl⟩
  · intro attrs children
    rfl

/-! ### Builder invariants (for C6 and C10) -/

/-- `NForall p n`: the property `p` holds of every element of the tree
rooted at `n` (text leaves carry no element data). -/
inductive NForall (p : String → List (String × String) → List Node → Prop) : Node → Prop where
  | text (s : String) : NForall p (Node.text s)
  | element (t : String) (a : List (String × String)) (c : List Node) :
      p t a c → (∀ n ∈ c, NForall p n) → NForall p (Node.element t a c)

/-- Builder-state invariant: every finished node satisfies `pn` and every
open frame's tag satisfies `pt` with `pn`-children. -/
def BInv (pn : Node → Prop) (pt : String → Prop) (st : BState) : Prop :=
  (∀ m ∈ st.root, pn m) ∧ (∀ fr ∈ st.stack, pt fr.tag ∧ ∀ m ∈ fr.children, pn m)

theorem pushNode_nilstack (n : Node) (root : List Node) :
    pushNode n ⟨root, []⟩ = ⟨root ++ [n], []⟩ := rfl

theorem pushNode_consstack (n : Node) (root : List Node) (fr : Frame) (fs : List Frame) :
    pushNode n ⟨root, fr :: fs⟩ = ⟨root, ⟨fr.tag, fr.attrs, fr.children ++ [n]⟩ :: fs⟩ := rfl

theorem pushNode_BInv {pn : Node → Prop} {pt : String → Prop} {st : BState} {n : Node}
    (h : BInv pn pt st) (hn : pn n) : BInv pn pt (pushNode n st) := by
  obtain ⟨hr, hs⟩ := h
  match st with
  | ⟨root, []⟩ =>
    rw [pushNode_nilstack]
    refine ⟨?_, ?_⟩
    · intro m hm
      simp only [List.mem_append, List.mem_singleton] at hm
      rcases hm with hm | rfl
      · exact hr m hm
      · exact hn
    · intro g hg
      simp at hg
  | ⟨root, fr :: fs⟩ =>
    rw [pushNode_consstack]
    refine ⟨hr, ?_⟩
    intro g hg
    simp only [List.mem_cons] at hg
    rcases hg with rfl | hg
    · have := hs fr (by simp)
      refine ⟨this.1, ?_⟩
      intro m hm
      simp only [List.mem_append, List.mem_singleton] at hm
      rcases hm with hm | rfl
      · exact this.2 m hm
      · exact hn
    · exact hs g (by simp [hg])

theorem stepTok_BInv {pn : Node → Prop} {pt : String → Prop}
    (htext : ∀ s, pn (Node.text s))
    (helem : ∀ t a c, pt t → (∀ m ∈ c, pn m) → pn (Node.element t a c))
    (hvoid : ∀ name attrs : String,
      (lowerStr name ∈ voidTags ∨ attrs.data.contains '/' = true) →
      pn (Node.element (lowerStr name) (parseAttrs attrs) []))
    (hptag : ∀ name attrs : String,
      ¬(lowerStr name ∈ voidTags ∨ attrs.data.contains '/' = true) → pt (lowerStr name)) :
    ∀ (st : BState) (t : Tok), BInv pn pt st → BInv pn pt (stepTok st t) := by
  intro st t h
  match t with
  | Tok.text s =>
    simp only [stepTok]
    split
    · exact h
    · exact pushNode_BInv h (htext s)
  | Tok.ctag nm at_ =>
    simp only [stepTok]
    match hst : st.stack with
    | [] => exact h
    | fr :: fs =>
      have hfr := h.2 fr (by simp [hst])
      have hrest : BInv pn pt ⟨st.root, fs⟩ := by
        refine ⟨h.1, ?_⟩
        intro g hg
        exact h.2 g (by simp [hst, List.mem_cons]; right; exact hg)
      exact pushNode_BInv hrest (helem _ _ _ hfr.1 hfr.2)
  | Tok.otag name attrs =>
    simp only [stepTok]
    split
    next hcond =>
      exact pushNode_BInv h (hvoid name attrs hcond)
    next hcond =>
      refine ⟨h.1, ?_⟩
      intro g hg
      simp only [List.mem_cons] at hg
      rcases hg with rfl | hg
      · exact ⟨hptag name attrs hcond, by simp⟩
      · exact h.2 g hg

theorem foldl_BInv {pn : Node → Prop} {pt : String → Prop} {step : BState → Tok → BState}
    (hstep : ∀ st t, BInv pn pt st → BInv pn pt (step st t)) :
    ∀ (ts : List Tok) (st : BState), BInv pn pt st → BInv pn pt (ts.foldl step st) := by
  intro ts
  induction ts with
  | nil => intro st h; exact h
  | cons t ts ih => intro st h; exact ih _ (hstep st t h)

theorem unwF_BInv {pn : Node → Prop} {pt : String → Prop}
    (helem : ∀ t a c, pt t → (∀ m ∈ c, pn m) → pn (Node.element t a c)) :
    ∀ (f : Nat) (st : BState), BInv pn pt st → ∀ m ∈ unwF f st, pn m := by
  intro f
  induction f with
  | zero => intro st h; exact h.1
  | succ f ih =>
    intro st h
    match hst : st.stack with
    | [] =>
      simp only [unwF, hst]
      exact h.1
    | fr :: fs =>
      simp only [unwF, hst]
      apply ih
      have hfr := h.2 fr (by simp [hst])
      have hrest : BInv pn pt ⟨st.root, fs⟩ := by
        refine ⟨h.1, ?_⟩
        intro g hg
        exact h.2 g (by simp [hst, List.mem_cons]; right; exact hg)
      exact pushNode_BInv hrest (helem _ _ _ hfr.1 hfr.2)

theorem initState_BInv {pn : Node → Prop} {pt : String → Prop} : BInv pn pt initState :=
  ⟨by intro m hm; simp [initState] at hm, by intro g hg; simp [initState] at hg⟩

/-- Every element of a void tag (`br`, `hr`, `img`) is childless. -/
def voidChildless (t : String) (a : List (String × String)) (c : List Node) : Prop :=
  t ∈ voidTags → c = []

/-- Every element's tag is its own lowercasing. -/
def lowercased (t : String) (a : List (String × String)) (c : List Node) : Prop :=
  lowerStr t = t

theorem ofNat_toNat (n : Nat) (h : n.isValidChar) : (Char.ofNat n).toNat = n := by
  unfold Char.ofNat
  rw [dif_pos h]
  simp [Char.ofNatAux, Char.toNat, UInt32.toNat, UInt32.ofNatCore]

theorem toLower_idem (c : Char) : (c.toLower).toLower = c.toLower := by
  unfold Char.toLower
  by_cases h : c.toNat ≥ 65 ∧ c.toNat ≤ 90
  · rw [if_pos h]
    have hval : Nat.isValidChar (c.toNat + 32) := Or.inl (by omega)
    rw [if_neg]
    rw [ofNat_toNat _ hval]
    omega
  · rw [if_neg h, if_neg h]

theorem lowerStr_idem (s : String) : lowerStr (lowerStr s) = lowerStr s := by
  unfold lowerStr
  simp only [List.map_map]
  congr 1
  exact List.map_congr_left (fun c _ => toLower_idem c)

/-! ### C6: void-tag invariant -/

/-- C6: in every tree produced by the tree builder, an element whose tag
is `br`, `hr` or `img` never carries children (recursively); an open
token whose tag is void or whose raw attribute text contains a
self-close marker is appended immediately as a childless element; and
`htmlToNodes "<img src=\"x.jpg\"/>"` is exactly the childless `img`
element with its one attribute. -/
theorem C6_void_tag_invariant :
    (∀ html : String, ∀ n ∈ htmlToNodes html, NForall voidChildless n) ∧
    (∀ (st : BState) (name attrs : String),
      (lowerStr name ∈ voidTags ∨ attrs.data.contains '/' = true) →
      stepTok st (Tok.otag name attrs) =
        pushNode (Node.element (lowerStr name) (parseAttrs attrs) []) st) ∧
    htmlToNodes "<img src=\"x.jpg\"/>" = [Node.element "img" [("src", "x.jpg")] []] := by
  refine ⟨?_, ?_, by decide⟩
  · intro html
    have helem : ∀ t a c, ¬t ∈ voidTags → (∀ m ∈ c, NForall voidChildless m) →
        NForall voidChildless (Node.element t a c) := by
      intro t a c ht hc
      exact NForall.element t a c (fun hmem => absurd hmem ht) hc
    have hrun := @foldl_BInv (NForall voidChildless) (fun t => ¬t ∈ voidTags) stepTok
      (stepTok_BInv (fun s => NForall.text s) helem
        (fun name attrs hcond =>
          NForall.element _ _ _ (fun _ => rfl) (by intro n hn; simp at hn))
        (fun name attrs hcond ht => hcond (Or.inl ht)))
      (tokenize html.data) initState initState_BInv
    exact unwF_BInv helem _ _ hrun
  · intro st name attrs hcond
    simp only [stepTok]
    rw [if_pos hcond]

/-- Closed instance discharging C6's hypothesis-bearing conjunct at a
concrete state and token. -/
theorem C6_void_tag_invariant_witness :
    (lowerStr "a" ∈ voidTags ∨ ("href=\"/\"" : String).data.contains '/' = true) ∧
    stepTok initState (Tok.otag "a" "href=\"/\"") =
      pushNode (Node.element (lowerStr "a") (parseAttrs "href=\"/\"") []) initState :=
  ⟨by decide, C6_void_tag_invariant.2.1 initState "a" "href=\"/\"" (by decide)⟩

/-! ### C10: tag-name case normalization -/

/-- The trimming variant of a text token, as applied by
`parseHtmlToNodes` (identity on tag tokens). -/
def trimText : Tok → Tok
  | Tok.text s => Tok.text (jsTrimStr s)
  | t => t

theorem stepTokTrim_eq (st : BState) (t : Tok) :
    stepTokTrim st t = stepTok st (trimText t) := by
  cases t <;> rfl

/-- C10: both tree builders lowercase every tag name, so every element
tag in the output of `htmlToNodes` or `parseHtmlToNodes` equals its own
lowercasing (recursively), and the two case-variant inputs `"<B>hi</B>"`
and `"<b>hi</b>"` produce identical trees under both builders. -/
theorem C10_lowercase_tags :
    (∀ html : String, ∀ n ∈ htmlToNodes html, NForall lowercased n) ∧
    (∀ html : String, ∀ n ∈ parseHtmlToNodes html, NForall lowercased n) ∧
    htmlToNodes "<B>hi</B>" = htmlToNodes "<b>hi</b>" ∧
    parseHtmlToNodes "<B>hi</B>" = parseHtmlToNodes "<b>hi</b>" := by
  have helem : ∀ t a c, lowerStr t = t → (∀ m ∈ c, NForall lowercased m) →
      NForall lowercased (Node.element t a c) := by
    intro t a c ht hc
    exact NForall.element t a c ht hc
  have hstep := @stepTok_BInv (NForall lowercased) (fun t => lowerStr t = t)
    (fun s => NForall.text s)
    helem
    (fun name attrs hcond =>
      NForall.element _ _ _ (lowerStr_idem name) (by intro n hn; simp at hn))
    (fun name attrs hcond => lowerStr_idem name)
  refine ⟨?_, ?_, by decide, by decide⟩
  · intro html
    have hrun := foldl_BInv hstep (tokenize html.data) initState initState_BInv
    exact unwF_BInv helem _ _ hrun
  · intro html
    have hstep' : ∀ st t, BInv (NForall lowercased) (fun t => lowerStr t = t) st →
        BInv (NForall lowercased) (fun t => lowerStr t = t) (stepTokTrim st t) := by
      intro st t h
      rw [stepTokTrim_eq]
      exact hstep st (trimText t) h
    have hrun := foldl_BInv hstep' (tokenize html.data) initState initState_BInv
    exact unwF_BInv helem _ _ hrun

/-! ### C4: the format dispatcher's JSON sniff -/

/-- C4: any string the (spec-modelled) host JSON parser accepts as an
array is returned by `parseContent` as the tree itself, bypassing both
Markdown rewriting and markup parsing whatever the declared format; in
particular `"[1,2,3]"` returns the array `[1, 2, 3]` unchanged under
either format.  A string that is not valid JSON, or whose JSON value is
not an array, falls through to format-specific conversion. -/
theorem C4_json_sniff :
    (∀ (s : String) (format : Format) (xs : List Jv),
      jsonParse s = some (Jv.arr xs) → parseContent (Sum.inl s) format = xs) ∧
    (∀ format : Format,
      parseContent (Sum.inl "[1,2,3]") format = [Jv.num 1 0, Jv.num 2 0, Jv.num 3 0]) ∧
    (∀ (s : String) (format : Format), (∀ xs : List Jv, jsonParse s ≠ some (Jv.arr xs)) →
      parseContent (Sum.inl s) format =
        nodesToJv (htmlToNodes (if format = Format.markdown then markdownToHtml s else s))) := by
  refine ⟨?_, ?_, ?_⟩
  · intro s format xs h
    simp only [parseContent, h]
  · intro format
    cases format <;> rfl
  · intro s format h
    have hred : parseContent (Sum.inl s) format =
        (match jsonParse s with
          | some (Jv.arr xs) => xs
          | _ => nodesToJv (htmlToNodes
              (if format = Format.markdown then markdownToHtml s else s))) := rfl
    rw [hred]
    cases hj : jsonParse s with
    | none => rfl
    | some v =>
      cases v with
      | null => rfl
      | bool b => rfl
      | num m e => rfl
      | str t => rfl
      | arr xs => exact absurd hj (h xs)
      | obj o => rfl

/-- Closed instance discharging C4's hypothesis-bearing conjuncts: at the
concrete input `"[1,2,3]"` the sniff applies, and at the concrete markup
input `"<b>x</b>"` (not valid JSON) the dispatcher falls through to the
markup parser. -/
theorem C4_json_sniff_witness :
    jsonParse "[1,2,3]" = some (Jv.arr [Jv.num 1 0, Jv.num 2 0, Jv.num 3 0]) ∧
    parseContent (Sum.inl "[1,2,3]") Format.html = [Jv.num 1 0, Jv.num 2 0, Jv.num 3 0] ∧
    (∀ xs : List Jv, jsonParse "<b>x</b>" ≠ some (Jv.arr xs)) ∧
    parseContent (Sum.inl "<b>x</b>") Format.html = nodesToJv (htmlToNodes "<b>x</b>") :=
  ⟨rfl, C4_json_sniff.1 "[1,2,3]" Format.html _ rfl,
    fun xs h => by rw [show jsonParse "<b>x</b>" = none from rfl] at h; exact Option.noConfusion h,
    C4_json_sniff.2.2 "<b>x</b>" Format.html
      (fun xs h => by rw [show jsonParse "<b>x</b>" = none from rfl] at h; exact Option.noConfusion h)⟩

/-! ### C5: totality of the conversion functions -/

theorem stepTokE_ok (st : BState) (t : Tok) : stepTokE st t = Except.ok (stepTok st t) := by
  match t with
  | Tok.text s => rfl
  | Tok.ctag nm at_ =>
    match st, st.stack with
    | ⟨root, []⟩, _ => rfl
    | ⟨root, fr :: fs⟩, _ =>
      simp only [stepTokE, stepTok]
      rw [if_pos (by simp)]
      rfl
  | Tok.otag name attrs =>
    simp only [stepTokE, stepTok]
    split <;> rfl

theorem foldlM_stepTokE :
    ∀ (ts : List Tok) (st : BState),
      ts.foldlM stepTokE st = Except.ok (ts.foldl stepTok st) := by
  intro ts
  induction ts with
  | nil => intro st; rfl
  | cons t ts ih =>
    intro st
    rw [List.foldlM_cons, stepTokE_ok]
    simp only [List.foldl_cons]
    exact ih (stepTok st t)

theorem unwE_ok : ∀ (f : Nat) (st : BState), unwE f st = Except.ok (unwF f st) := by
  intro f
  induction f with
  | zero => intro st; rfl
  | succ f ih =>
    intro st
    match st, st.stack with
    | ⟨root, []⟩, _ => rfl
    | ⟨root, fr :: fs⟩, _ =>
      simp only [unwE, unwF]
      rw [if_pos (by simp)]
      exact ih _

/-- C5: every conversion is total.  The instrumented builders, in which
the source's guarded `stack.pop()!` assertions are explicit `Except`
errors, succeed on every input and return exactly what the plain
functions return; additionally, a stray restoration placeholder in
Markdown yields the host's `"undefined"` rendering rather than an error,
and a thoroughly malformed markup input still produces a tree (malformed
tags become text, an unmatched close is dropped, unterminated opens are
auto-closed, unparseable attributes are skipped). -/
theorem C5_totality :
    (∀ html : String, htmlToNodesE html = Except.ok (htmlToNodes html)) ∧
    (∀ (content : String ⊕ List Node) (format : Format),
      parseContentE content format = Except.ok (parseContent content format)) ∧
    markdownToHtml "__CODEBLOCK_7__" = "<pre>undefined</pre>" ∧
    htmlToNodes "</b><p>x<q y='><' z=>un<terminated" =
      [Node.element "p" []
        [Node.text "x",
          Node.element "q" [] [Node.text "' z=>un", Node.text "terminated"]]] := by
  have h1 : ∀ html : String, htmlToNodesE html = Except.ok (htmlToNodes html) := by
    intro html
    unfold htmlToNodesE htmlToNodes
    rw [foldlM_stepTokE]
    simp only [bind, Except.bind]
    rw [unwE_ok]
    rfl
  refine ⟨h1, ?_, by decide, by decide⟩
  intro content format
  match content with
  | Sum.inr nodes => rfl
  | Sum.inl s =>
    have hred : parseContent (Sum.inl s) format =
        (match jsonParse s with
          | some (Jv.arr xs) => xs
          | _ => nodesToJv (htmlToNodes
              (if format = Format.markdown then markdownToHtml s else s))) := rfl
    have hredE : parseContentE (Sum.inl s) format =
        (match jsonParse s with
          | some (Jv.arr xs) => Except.ok xs
          | _ => (htmlToNodesE
              (if format = Format.markdown then markdownToHtml s else s)).map nodesToJv) := rfl
    rw [hred, hredE]
    cases hj : jsonParse s with
    | none => rw [h1]; rfl
    | some v =>
      cases v with
      | null => rw [h1]; rfl
      | bool b => rw [h1]; rfl
      | num m e => rw [h1]; rfl
      | str t => rw [h1]; rfl
      | arr xs => rfl
      | obj o => rw [h1]; rfl

/-! ### C3: the two tree builders differ exactly in text trimming -/

/-- The token-level effect of `parseHtmlToNodes`'s text handling: trim
the run and drop it when the trim is empty; tag tokens are untouched. -/
def trimTok : Tok → Option Tok
  | Tok.text s => if (jsTrimStr s).isEmpty then none else some (Tok.text (jsTrimStr s))
  | t => some t

theorem foldl_trim_filterMap : ∀ (ts : List Tok) (st : BState),
    ts.foldl stepTokTrim st = (ts.filterMap trimTok).foldl stepTok st := by
  intro ts
  induction ts with
  | nil => intro st; rfl
  | cons t ts ih =>
    intro st
    match t with
    | Tok.text s =>
      by_cases he : (jsTrimStr s).isEmpty
      · have h1 : trimTok (Tok.text s) = none := by simp [trimTok, he]
        have h2 : stepTokTrim st (Tok.text s) = st := by simp [stepTokTrim, he]
        simp only [List.filterMap_cons, h1, List.foldl_cons, h2]
        exact ih st
      · have h1 : trimTok (Tok.text s) = some (Tok.text (jsTrimStr s)) := by simp [trimTok, he]
        have h2 : stepTokTrim st (Tok.text s) = stepTok st (Tok.text (jsTrimStr s)) := by
          simp [stepTokTrim, stepTok, he]
        simp only [List.filterMap_cons, h1, List.foldl_cons, h2]
        exact ih _
    | Tok.otag name attrs =>
      simp only [List.filterMap_cons, trimTok, List.foldl_cons]
      rw [show stepTokTrim st (Tok.otag name attrs) = stepTok st (Tok.otag name attrs) from rfl]
      exact ih _
    | Tok.ctag name attrs =>
      simp only [List.filterMap_cons, trimTok, List.foldl_cons]
      rw [show stepTokTrim st (Tok.ctag name attrs) = stepTok st (Tok.ctag name attrs) from rfl]
      exact ih _

theorem filterMap_trimTok_id : ∀ ts : List Tok,
    (∀ s : String, Tok.text s ∈ ts → s ≠ "" ∧ jsTrimStr s = s) →
    ts.filterMap trimTok = ts := by
  intro ts
  induction ts with
  | nil => intro; rfl
  | cons t ts ih =>
    intro hall
    have htl := ih (fun s hs => hall s (by simp [hs]))
    match t with
    | Tok.text s =>
      have hs := hall s (by simp)
      have hne : ¬(jsTrimStr s).isEmpty = true := by
        rw [hs.2]
        simp only [String.isEmpty_iff]
        exact hs.1
      have h1 : trimTok (Tok.text s) = some (Tok.text s) := by
        simp only [trimTok]
        rw [if_neg hne, hs.2]
      rw [List.filterMap_cons, h1, htl]
    | Tok.otag name attrs => simp only [List.filterMap_cons, trimTok, htl]
    | Tok.ctag name attrs => simp only [List.filterMap_cons, trimTok, htl]

/-- C3: on any markup input whose text runs are all non-empty and equal
to their own trim, the duplicated builders `htmlToNodes` and
`parseHtmlToNodes` produce identical trees; on general inputs they
disagree exactly in whitespace handling — `parseHtmlToNodes` equals the
verbatim builder run on the token stream with every text run trimmed and
the runs that become empty dropped. -/
theorem C3_builder_equivalence :
    (∀ html : String,
      (∀ s : String, Tok.text s ∈ tokenize html.data → s ≠ "" ∧ jsTrimStr s = s) →
      parseHtmlToNodes html = htmlToNodes html) ∧
    (∀ html : String,
      parseHtmlToNodes html =
        unwind (((tokenize html.data).filterMap trimTok).foldl stepTok initState)) := by
  constructor
  · intro html hall
    unfold parseHtmlToNodes htmlToNodes
    rw [foldl_trim_filterMap, filterMap_trimTok_id _ hall]
  · intro html
    unfold parseHtmlToNodes
    rw [foldl_trim_filterMap]

/-- Closed instance discharging C3's hypothesis at the concrete input
`"<p>hi</p>"`, whose only text run `"hi"` is non-empty and already
trimmed. -/
theorem C3_builder_equivalence_witness :
    (∀ s : String, Tok.text s ∈ tokenize "<p>hi</p>".data → s ≠ "" ∧ jsTrimStr s = s) ∧
    parseHtmlToNodes "<p>hi</p>" = htmlToNodes "<p>hi</p>" := by
  have hyp : ∀ s : String, Tok.text s ∈ tokenize "<p>hi</p>".data → s ≠ "" ∧ jsTrimStr s = s := by
    intro s hs
    rw [show tokenize "<p>hi</p>".data =
      [Tok.otag "p" "", Tok.text "hi", Tok.ctag "p" ""] from rfl] at hs
    simp only [List.mem_cons, List.not_mem_nil, or_false] at hs
    rcases hs with hs | hs | hs
    · exact absurd hs (by simp)
    · have : s = "hi" := by
        injection hs
      subst this
      exact ⟨by decide, by decide⟩
    · exact absurd hs (by simp)
  exact ⟨hyp, C3_builder_equivalence.1 "<p>hi</p>" hyp⟩

/-! ### C2: tree-builder stack discipline -/

theorem dropWhile_eq_nil_all {α : Type} {p : α → Bool} :
    ∀ {l : List α}, l.dropWhile p = [] → ∀ x ∈ l, p x = true := by
  intro l
  induction l with
  | nil => intro _ x hx; simp at hx
  | cons c cs ih =>
    intro h x hx
    rw [List.dropWhile_cons] at h
    by_cases hc : p c = true
    · rw [if_pos hc] at h
      rcases List.mem_cons.mp hx with rfl | hx
      · exact hc
      · exact ih h x hx
    · rw [if_neg hc] at h
      exact absurd h (by simp)

theorem stable_append {α : Type} {p : α → Bool} :
    ∀ {l : List α} (r : List α), l.dropWhile p ≠ [] →
      (l ++ r).takeWhile p = l.takeWhile p ∧ (l ++ r).dropWhile p = l.dropWhile p ++ r := by
  intro l
  induction l with
  | nil => intro r h; exact absurd rfl h
  | cons c cs ih =>
    intro r h
    by_cases hc : p c = true
    · rw [List.dropWhile_cons, if_pos hc] at h
      have := ih r h
      simp only [List.cons_append, List.takeWhile_cons, List.dropWhile_cons, hc, if_pos]
      rw [this.1, this.2]
      simp
    · simp only [List.cons_append, List.takeWhile_cons, List.dropWhile_cons, hc]
      simp

theorem matchTagCore_nil : matchTagCore [] = none := rfl

theorem matchTag_nil : matchTag [] = none := rfl

theorem matchTagCore_append {cs1 : List Char} {n a r2 : List Char} (R : List Char)
    (h : matchTagCore cs1 = some (n, a, r2)) :
    matchTagCore (cs1 ++ R) = some (n, a, r2 ++ R) := by
  unfold matchTagCore at h ⊢
  split at h
  · exact absurd h (by simp)
  next hne =>
    split at h
    next x rest2 heq =>
      simp only [Option.some.injEq, Prod.mk.injEq] at h
      obtain ⟨rfl, rfl, rfl⟩ := h
      have hd1 : cs1.dropWhile isNameChar ≠ [] := by
        intro hnil
        rw [hnil] at heq
        exact absurd heq (by simp)
      have hs1 := @stable_append Char isNameChar cs1 R hd1
      have hd2 : (cs1.dropWhile isNameChar).dropWhile (fun c => c ≠ '>') ≠ [] := by
        rw [heq]; simp
      have hs2 := @stable_append Char (fun c => decide (c ≠ '>')) (cs1.dropWhile isNameChar) R hd2
      rw [if_neg (by rw [hs1.1]; exact hne)]
      rw [hs1.2, hs2.2, heq]
      simp only [List.cons_append]
      rw [hs1.1, hs2.1]
    · exact absurd h (by simp)

theorem matchTag_append {rest : List Char} {b : Bool} {n a r2 : List Char} (R : List Char)
    (h : matchTag rest = some (b, n, a, r2)) :
    matchTag (rest ++ R) = some (b, n, a, r2 ++ R) := by
  match rest with
  | [] => rw [matchTag_nil] at h; exact absurd h (by simp)
  | r0 :: rest' =>
    unfold matchTag at h ⊢
    by_cases h0 : r0 = '/'
    · subst h0
      rw [if_pos (by simp)] at h ⊢
      rw [show ('/' :: rest').tail = rest' from rfl] at h
      rw [show (('/' :: rest') ++ R).tail = rest' ++ R from rfl]
      match hc : matchTagCore rest' with
      | none => rw [hc] at h; exact absurd h (by simp)
      | some (n', a', r2') =>
        rw [hc] at h
        simp only [Option.map_some', Option.some.injEq, Prod.mk.injEq] at h
        obtain ⟨rfl, rfl, rfl, rfl⟩ := h
        rw [matchTagCore_append R hc]
        rfl
    · rw [if_neg (by simp [h0])] at h ⊢
      match hc : matchTagCore (r0 :: rest') with
      | none => rw [hc] at h; exact absurd h (by simp)
      | some (n', a', r2') =>
        rw [hc] at h
        simp only [Option.map_some', Option.some.injEq, Prod.mk.injEq] at h
        obtain ⟨rfl, rfl, rfl, rfl⟩ := h
        rw [show (r0 :: rest') ++ R = (r0 :: rest') ++ R from rfl,
          matchTagCore_append R hc]
        rfl

/-- A conservative syntactic condition under which appending further
markup cannot change how a prefix tokenizes: every `<` in the input
begins a completed tag match. -/
def cleanScan : Nat → List Char → Bool
  | 0, cs => cs.isEmpty
  | _ + 1, [] => true
  | f + 1, c :: rest =>
    if c = '<' then
      match matchTag rest with
      | some (_, _, _, rest2) => cleanScan f rest2
      | none => false
    else cleanScan f (rest.dropWhile (fun x => x ≠ '<'))

theorem tokenize_append_of_clean :
    ∀ (f : Nat) (cs R : List Char), cs.length ≤ f → cleanScan f cs = true →
      (R = [] ∨ R.head? = some '<') →
      tokenize (cs ++ R) = tokenize cs ++ tokenize R := by
  intro f
  induction f with
  | zero =>
    intro cs R hf _ _
    have : cs = [] := by
      cases cs
      · rfl
      · simp at hf
    subst this
    simp [tokenize_nil]
  | succ f ih =>
    intro cs R hf hclean hR
    rcases hR with rfl | hR
    · simp [tokenize_nil]
    match cs with
    | [] => simp [tokenize_nil]
    | c :: rest =>
      simp only [List.length_cons] at hf
      by_cases hc : c = '<'
      · subst hc
        simp only [cleanScan, if_pos rfl] at hclean
        match hm : matchTag rest with
        | none => rw [hm] at hclean; simp at hclean
        | some (b, n, a, r2) =>
          rw [hm] at hclean
          simp only [if_true] at hclean
          have hlen := matchTag_rest_length hm
          have hma := matchTag_append R hm
          rw [List.cons_append, tokenize_lt_some hma, tokenize_lt_some hm,
            ih r2 R (by omega) hclean (Or.inr hR)]
          rfl
      · simp only [cleanScan, if_neg hc] at hclean
        match hR2 : R with
        | [] => exact absurd hR (by simp)
        | rc :: R' =>
          have hrc : rc = '<' := by
            simpa using hR
          subst hrc
          rw [List.cons_append, tokenize_text hc, tokenize_text hc]
          by_cases hdrop : rest.dropWhile (fun x => x ≠ '<') = []
          · have hall := dropWhile_eq_nil_all hdrop
            have ht1 : (rest ++ '<' :: R').takeWhile (fun x => x ≠ '<') = rest :=
              takeWhile_append_sat R' hall (by decide)
            have ht2 : rest.takeWhile (fun x => x ≠ '<') = rest := takeWhile_all_sat hall
            have hd1 : (rest ++ '<' :: R').dropWhile (fun x => x ≠ '<') = '<' :: R' :=
              dropWhile_append_sat R' hall (by decide)
            rw [ht1, ht2, hd1, hdrop, tokenize_nil]
            simp
          · have hs := @stable_append Char (fun x => decide (x ≠ '<')) rest ('<' :: R') hdrop
            rw [hs.1, hs.2]
            rw [ih (rest.dropWhile (fun x => x ≠ '<')) ('<' :: R')
              (by have := length_dropWhile_le (fun x => x ≠ '<') rest; omega) hclean
              (Or.inr rfl)]
            simp

/-- Tokenizing one well-formed close tag in front of any continuation. -/
theorem tokenize_close_tag (tag : String) (h1 : tag.data ≠ [])
    (h2 : tag.data.all isNameChar = true) (rest : List Char) :
    tokenize ('<' :: '/' :: (tag.data ++ '>' :: rest)) = Tok.ctag tag "" :: tokenize rest := by
  have hall : ∀ c ∈ tag.data, isNameChar c = true := by
    intro c hc
    exact List.all_eq_true.mp h2 c hc
  have hcore : matchTagCore (tag.data ++ '>' :: rest) = some (tag.data, [], rest) := by
    unfold matchTagCore
    rw [takeWhile_append_sat rest hall (by decide),
      dropWhile_append_sat rest hall (by decide)]
    rw [if_neg (by simpa using h1)]
    have hd : ('>' :: rest).dropWhile (fun c => c ≠ '>') = '>' :: rest := by
      rw [List.dropWhile_cons, if_neg (by simp)]
    have ht : ('>' :: rest).takeWhile (fun c => c ≠ '>') = [] := by
      rw [List.takeWhile_cons, if_neg (by simp)]
    rw [hd, ht]
  have hmt : matchTag ('/' :: (tag.data ++ '>' :: rest)) = some (true, tag.data, [], rest) := by
    unfold matchTag
    rw [if_pos (by simp)]
    rw [show ('/' :: (tag.data ++ '>' :: rest)).tail = tag.data ++ '>' :: rest from rfl, hcore]
    rfl
  rw [tokenize_lt_some hmt]
  rfl

/-- The characters of `k` copies of `</tag>`. -/
def closeChars (tag : String) (k : Nat) : List Char :=
  (List.replicate k ('<' :: '/' :: tag.data ++ ['>'])).flatten

/-- The string of `k` copies of `</tag>`. -/
def closeStr (tag : String) (k : Nat) : String := ⟨closeChars tag k⟩

theorem tokenize_closeChars (tag : String) (h1 : tag.data ≠ [])
    (h2 : tag.data.all isNameChar = true) :
    ∀ k, tokenize (closeChars tag k) = List.replicate k (Tok.ctag tag "") := by
  intro k
  induction k with
  | zero => rfl
  | succ k ih =>
    have hstep : closeChars tag (k + 1) = ('<' :: '/' :: tag.data ++ ['>']) ++ closeChars tag k := by
      unfold closeChars
      rw [List.replicate_succ, List.flatten_cons]
    have hassoc : ('<' :: '/' :: tag.data ++ ['>']) ++ closeChars tag k =
        '<' :: '/' :: (tag.data ++ '>' :: closeChars tag k) := by
      simp
    rw [hstep, hassoc, tokenize_close_tag tag h1 h2, ih, List.replicate_succ]

theorem foldl_closes (name attrs : String) :
    ∀ (k : Nat) (st : BState), st.stack.length = k →
      (List.replicate k (Tok.ctag name attrs)).foldl stepTok st = ⟨unwind st, []⟩ := by
  intro k
  induction k with
  | zero =>
    intro st hk
    match st with
    | ⟨root, stack⟩ =>
      have : stack = [] := List.length_eq_zero.mp hk
      subst this
      rfl
  | succ k ih =>
    intro st hk
    match st with
    | ⟨root, []⟩ => simp at hk
    | ⟨root, fr :: fs⟩ =>
      rw [List.replicate_succ, List.foldl_cons]
      have hstep : stepTok ⟨root, fr :: fs⟩ (Tok.ctag name attrs) =
          pushNode (finishFrame fr) ⟨root, fs⟩ := rfl
      rw [hstep]
      have hlen : (pushNode (finishFrame fr) ⟨root, fs⟩).stack.length = k := by
        rw [pushNode_stack_length]
        simpa using hk
      rw [ih _ hlen]
      have hunw : unwind ⟨root, fr :: fs⟩ = unwind (pushNode (finishFrame fr) ⟨root, fs⟩) := by
        unfold unwind
        rw [hlen]
        have : (BState.mk root (fr :: fs)).stack.length = k + 1 := by simpa using hk
        rw [this]
        rfl
      rw [hunw]

theorem unwind_nilstack (ns : List Node) : unwind ⟨ns, []⟩ = ns := rfl

/-- C2: stack discipline of the tree builder.  (i) A close event with an
empty open-element stack is ignored.  (ii) End-of-input unwinding is
exactly the processing of one close event per remaining frame (LIFO,
innermost first), leaving an empty stack.  (iii) Hence running any event
sequence equals running it followed by one close per unterminated open —
the tree of the input with `k` unterminated opens is the tree of its
well-formed completion, so every opened element appears exactly once and
nothing is lost or duplicated.  (iv) The same at the string level: for
any markup whose `<`s all begin completed tags, appending the `k`
missing close tags does not change the resulting tree. -/
theorem C2_stack_discipline :
    (∀ (st : BState) (name attrs : String), st.stack = [] →
      stepTok st (Tok.ctag name attrs) = st) ∧
    (∀ (st : BState) (name attrs : String),
      (List.replicate st.stack.length (Tok.ctag name attrs)).foldl stepTok st =
        ⟨unwind st, []⟩) ∧
    (∀ (ts : List Tok) (name attrs : String),
      unwind ((ts ++ List.replicate (ts.foldl stepTok initState).stack.length
          (Tok.ctag name attrs)).foldl stepTok initState) =
        unwind (ts.foldl stepTok initState)) ∧
    (∀ (html tag : String), cleanScan html.data.length html.data = true →
      tag.data ≠ [] → tag.data.all isNameChar = true →
      htmlToNodes (html ++ closeStr tag
          ((tokenize html.data).foldl stepTok initState).stack.length) = htmlToNodes html) := by
  have hb : ∀ (st : BState) (name attrs : String),
      (List.replicate st.stack.length (Tok.ctag name attrs)).foldl stepTok st =
        ⟨unwind st, []⟩ := fun st name attrs => foldl_closes name attrs _ st rfl
  have hc : ∀ (ts : List Tok) (name attrs : String),
      unwind ((ts ++ List.replicate (ts.foldl stepTok initState).stack.length
          (Tok.ctag name attrs)).foldl stepTok initState) =
        unwind (ts.foldl stepTok initState) := by
    intro ts name attrs
    rw [List.foldl_append, hb, unwind_nilstack]
  refine ⟨?_, hb, hc, ?_⟩
  · intro st name attrs h
    match st with
    | ⟨root, stack⟩ =>
      simp only at h
      subst h
      rfl
  · intro html tag hclean h1 h2
    unfold htmlToNodes
    have hdata : (html ++ closeStr tag
        ((tokenize html.data).foldl stepTok initState).stack.length).data =
        html.data ++ closeChars tag
          ((tokenize html.data).foldl stepTok initState).stack.length := by
      rw [String.data_append]
      rfl
    rw [hdata]
    have hhead : closeChars tag ((tokenize html.data).foldl stepTok initState).stack.length = []
        ∨ (closeChars tag
            ((tokenize html.data).foldl stepTok initState).stack.length).head? = some '<' := by
      match hk : ((tokenize html.data).foldl stepTok initState).stack.length with
      | 0 => exact Or.inl rfl
      | k + 1 =>
        right
        show ((List.replicate (k + 1) ('<' :: '/' :: tag.data ++ ['>'])).flatten).head? = _
        rw [List.replicate_succ, List.flatten_cons]
        rfl
    rw [tokenize_append_of_clean html.data.length html.data _ (Nat.le_refl _) hclean hhead]
    rw [tokenize_closeChars tag h1 h2]
    exact hc (tokenize html.data) tag ""

/-- Closed instance discharging C2's string-level hypotheses at the
concrete input `"<p><b>x"` (two unterminated opens): appending the two
missing close tags yields the same tree. -/
theorem C2_stack_discipline_witness :
    cleanScan "<p><b>x".data.length "<p><b>x".data = true ∧
    ("b" : String).data ≠ [] ∧
    ("b" : String).data.all isNameChar = true ∧
    htmlToNodes ("<p><b>x" ++ closeStr "b"
        ((tokenize "<p><b>x".data).foldl stepTok initState).stack.length) =
      htmlToNodes "<p><b>x" :=
  ⟨by decide, by decide, by decide,
    C2_stack_discipline.2.2.2 "<p><b>x" "b" (by decide) (by decide) (by decide)⟩

/-! ### C7: Markdown heading collapse

The heading claims are proved for arbitrary plain heading bodies: a
non-empty run of unaccented letters, digits and spaces not starting with
a space.  The supporting lemmas show each pass of the Markdown pipeline
other than the matching heading pass leaves such a line unchanged. -/

/-- The plain characters a heading body may consist of. -/
def plainChars : List Char :=
  "ABCDEFGHIJKLMNOPQRSTUVWXYZabcdefghijklmnopqrstuvwxyz0123456789 ".data

/-- Membership in the plain-character whitelist. -/
def plainChar (c : Char) : Bool := decide (c ∈ plainChars)

theorem plainChar_spec {c : Char} (h : plainChar c = true) :
    c ≠ '\n' ∧ c ≠ '-' ∧ c ≠ '!' ∧ c ≠ '[' ∧ c ≠ '*' ∧ c ≠ '_' ∧ c ≠ btick ∧
      c ≠ '<' ∧ c ≠ '>' ∧ c ≠ '#' := by
  have hall : ∀ x ∈ plainChars, x ≠ '\n' ∧ x ≠ '-' ∧ x ≠ '!' ∧ x ≠ '[' ∧ x ≠ '*' ∧ x ≠ '_' ∧
      x ≠ btick ∧ x ≠ '<' ∧ x ≠ '>' ∧ x ≠ '#' := by decide
  exact hall c (by simpa [plainChar] using h)

theorem plainChar_ws {c : Char} (h : plainChar c = true) (hs : c ≠ ' ') :
    isJsWs c = false := by
  have hall : ∀ x ∈ plainChars, x ≠ ' ' → isJsWs x = false := by decide
  exact hall c (by simpa [plainChar] using h) hs

theorem dropWhile_head_ne {p : Char → Bool} {cs : List Char} {c : Char}
    (hh : cs.head? = some c) (hc : p c = false) : cs.dropWhile p = cs := by
  match cs with
  | [] => simp at hh
  | x :: rest =>
    have : x = c := by simpa using hh
    subst this
    rw [List.dropWhile_cons, if_neg (by simp [hc])]

theorem takeWhile_head_ne {p : Char → Bool} {cs : List Char} {c : Char}
    (hh : cs.head? = some c) (hc : p c = false) : cs.takeWhile p = [] := by
  match cs with
  | [] => simp at hh
  | x :: rest =>
    have : x = c := by simpa using hh
    subst this
    rw [List.takeWhile_cons, if_neg (by simp [hc])]

/-- A list with non-whitespace first and last characters trims to
itself. -/
theorem jsTrim_id {cs : List Char} {c0 c1 : Char} (hh : cs.head? = some c0)
    (h0 : isJsWs c0 = false) (hl : cs.getLast? = some c1) (h1 : isJsWs c1 = false) :
    jsTrim cs = cs := by
  unfold jsTrim
  rw [dropWhile_head_ne hh h0]
  rw [dropWhile_head_ne (by rw [List.head?_reverse]; exact hl) h1]
  exact List.reverse_reverse cs

/-- A prefix recognizes itself in front of anything. -/
theorem isPrefixOf_append_self : ∀ (pat xs : List Char), pat.isPrefixOf (pat ++ xs) = true := by
  intro pat
  induction pat with
  | nil => intro xs; cases xs <;> rfl
  | cons p ps ih =>
    intro xs
    simp [List.isPrefixOf, ih]

theorem cbF_id {cs : List Char} (h : ∀ c ∈ cs, c ≠ btick) :
    ∀ (f : Nat) (blocks : List String), cbF f cs blocks = (cs, blocks) := by
  induction cs with
  | nil => intro f blocks; cases f <;> rfl
  | cons c1 rest ih =>
    intro f blocks
    match f, rest with
    | 0, _ => rfl
    | f + 1, [] => rfl
    | f + 1, [c2] => rfl
    | f + 1, c2 :: c3 :: rest3 =>
      have h1 : c1 ≠ btick := h c1 (by simp)
      rw [show cbF (f + 1) (c1 :: c2 :: c3 :: rest3) blocks =
          (c1 :: (cbF f (c2 :: c3 :: rest3) blocks).1, (cbF f (c2 :: c3 :: rest3) blocks).2) from by
        simp [cbF, h1]]
      rw [ih (fun c hc => h c (by simp [hc])) f blocks]

theorem icF_id {cs : List Char} (h : ∀ c ∈ cs, c ≠ btick) :
    ∀ (f : Nat) (codes : List String), icF f cs codes = (cs, codes) := by
  induction cs with
  | nil => intro f codes; cases f <;> rfl
  | cons c rest ih =>
    intro f codes
    match f with
    | 0 => rfl
    | f + 1 =>
      have h1 : c ≠ btick := h c (by simp)
      rw [show icF (f + 1) (c :: rest) codes =
          (c :: (icF f rest codes).1, (icF f rest codes).2) from by simp [icF, h1]]
      rw [ih (fun x hx => h x (by simp [hx])) f codes]

theorem anchF_nil (pat pre post : List Char) : ∀ (f : Nat) (b : Bool),
    anchF pat pre post f b [] = [] := by
  intro f b; cases f <;> rfl

/-- Away from a line start, a newline-free tail is copied unchanged. -/
theorem anchF_id_off {pat pre post : List Char} :
    ∀ {cs : List Char}, (∀ c ∈ cs, c ≠ '\n') → ∀ f : Nat, cs.length ≤ f →
      anchF pat pre post f false cs = cs := by
  intro cs
  induction cs with
  | nil => intro _ f _; exact anchF_nil pat pre post f false
  | cons c rest ih =>
    intro h f hf
    match f with
    | 0 => simp at hf
    | f + 1 =>
      have hc : c ≠ '\n' := h c (by simp)
      simp only [anchF]
      rw [if_neg (by simp)]
      rw [show (decide (c = '\n')) = false from by simp [hc]]
      rw [ih (fun x hx => h x (by simp [hx])) f (by simpa using hf)]

/-- At a line start where the pattern does not match, a newline-free
input is copied unchanged. -/
theorem anchF_id_start {pat pre post : List Char} {cs : List Char}
    (h : ∀ c ∈ cs, c ≠ '\n') (hnp : pat.isPrefixOf cs = false) (f : Nat)
    (hf : cs.length ≤ f) : anchF pat pre post f true cs = cs := by
  match f, cs with
  | f, [] => exact anchF_nil pat pre post f true
  | 0, c :: rest => simp at hf
  | f + 1, c :: rest =>
    have hc : c ≠ '\n' := h c (by simp)
    simp only [anchF]
    rw [if_neg (by simp [hnp])]
    rw [show (decide (c = '\n')) = false from by simp [hc]]
    rw [anchF_id_off (fun x hx => h x (by simp [hx])) f (by simpa using hf)]

theorem hrF_id {cs : List Char} (h : ∀ c ∈ cs, c ≠ '\n' ∧ c ≠ '-') :
    ∀ (f : Nat) (b : Bool), cs.length ≤ f → hrF f b cs = cs := by
  induction cs with
  | nil => intro f b _; cases f <;> rfl
  | cons c rest ih =>
    intro f b hf
    match f with
    | 0 => simp at hf
    | f + 1 =>
      have hc := h c (by simp)
      have htw : ((c :: rest).takeWhile (fun x => x = '-')).length = 0 := by
        rw [List.takeWhile_cons, if_neg (by simp [hc.2])]
        rfl
      simp only [hrF]
      rw [if_neg (by rw [htw]; omega)]
      rw [show (decide (c = '\n')) = false from by simp [hc.1]]
      rw [ih (fun x hx => h x (by simp [hx])) f false (by simpa using hf)]

theorem mdLink_not_bracket {b : Bool} {c : Char} {rest : List Char} (hc : c ≠ '[') :
    mdLink b (c :: rest) = none := by
  unfold mdLink
  split
  next r heq =>
    simp only [List.cons.injEq] at heq
    cases heq.1
    exact absurd rfl hc
  next => rfl

theorem imgF_id {cs : List Char} (h : ∀ c ∈ cs, c ≠ '!') :
    ∀ f : Nat, cs.length ≤ f → imgF f cs = cs := by
  induction cs with
  | nil => intro f _; cases f <;> rfl
  | cons c rest ih =>
    intro f hf
    match f with
    | 0 => simp at hf
    | f + 1 =>
      have hc : c ≠ '!' := h c (by simp)
      simp only [imgF]
      rw [if_neg (by simp [hc])]
      rw [ih (fun x hx => h x (by simp [hx])) f (by simpa using hf)]

theorem linkF_id {cs : List Char} (h : ∀ c ∈ cs, c ≠ '[') :
    ∀ f : Nat, cs.length ≤ f → linkF f cs = cs := by
  induction cs with
  | nil => intro f _; cases f <;> rfl
  | cons c rest ih =>
    intro f hf
    match f with
    | 0 => simp at hf
    | f + 1 =>
      have hc : c ≠ '[' := h c (by simp)
      simp only [linkF]
      rw [mdLink_not_bracket hc]
      rw [ih (fun x hx => h x (by simp [hx])) f (by simpa using hf)]

theorem boldF_id {d : Char} {cs : List Char} (h : ∀ c ∈ cs, c ≠ d) :
    ∀ f : Nat, cs.length ≤ f → boldF d f cs = cs := by
  induction cs with
  | nil => intro f _; cases f <;> rfl
  | cons c rest ih =>
    intro f hf
    match f, rest with
    | 0, _ => simp at hf
    | f + 1, [] => rfl
    | f + 1, c2 :: rest2 =>
      have hc : c ≠ d := h c (by simp)
      simp only [boldF]
      rw [if_neg (by simp [hc])]
      rw [ih (fun x hx => h x (by simp [hx])) f (by simpa using hf)]

theorem italF_id {d : Char} {cs : List Char} (h : ∀ c ∈ cs, c ≠ d) :
    ∀ (f : Nat) (b : Bool), cs.length ≤ f → italF d f b cs = cs := by
  induction cs with
  | nil => intro f b _; cases f <;> rfl
  | cons c rest ih =>
    intro f b hf
    match f with
    | 0 => simp at hf
    | f + 1 =>
      have hc : c ≠ d := h c (by simp)
      simp only [italF]
      rw [if_neg (by simp [hc])]
      rw [ih (fun x hx => h x (by simp [hx])) f (isWordChar c) (by simpa using hf)]

theorem restoreF_id {pat pre post : List Char} {table : List String} {cs : List Char}
    (hpat : pat.head? = some '_') (h : ∀ c ∈ cs, c ≠ '_') :
    ∀ f : Nat, cs.length ≤ f → restoreF pat pre post table f cs = cs := by
  induction cs with
  | nil => intro f _; cases f <;> rfl
  | cons c rest ih =>
    intro f hf
    match f with
    | 0 => simp at hf
    | f + 1 =>
      have hc : c ≠ '_' := h c (by simp)
      have hnp : pat.isPrefixOf (c :: rest) = false := by
        match pat, hpat with
        | p0 :: pat', hpat =>
          have hp : p0 = '_' := by simpa using hpat
          subst hp
          have hb : ('_' == c) = false := by simp [Ne.symm hc]
          simp [List.isPrefixOf, hb]
      simp only [restoreF]
      rw [if_neg (by simp [hnp])]
      rw [ih (fun x hx => h x (by simp [hx])) f (by simpa using hf)]

theorem splitNl_no_nl {cs : List Char} (h : ∀ c ∈ cs, c ≠ '\n') : splitNl cs = [cs] := by
  induction cs with
  | nil => rfl
  | cons c rest ih =>
    have hc : c ≠ '\n' := h c (by simp)
    simp only [splitNl]
    rw [if_neg hc, ih (fun x hx => h x (by simp [hx]))]

theorem paraF_no_nl {cs : List Char} (h : ∀ c ∈ cs, c ≠ '\n') :
    ∀ f : Nat, cs.length ≤ f → paraF f cs = [cs] := by
  induction cs with
  | nil => intro f _; cases f <;> rfl
  | cons c rest ih =>
    intro f hf
    match f with
    | 0 => simp at hf
    | f + 1 =>
      have hc : c ≠ '\n' := h c (by simp)
      simp only [paraF]
      rw [if_neg (by simp [hc])]
      rw [ih (fun x hx => h x (by simp [hx])) f (by simpa using hf)]

/-- Characters inert for every pass from the horizontal-rule pass on:
not a newline, hyphen, bang, opening bracket, star or underscore. -/
def passSafe (c : Char) : Bool :=
  ¬(c = '\n' ∨ c = '-' ∨ c = '!' ∨ c = '[' ∨ c = '*' ∨ c = '_')

theorem passSafe_spec {c : Char} (h : passSafe c = true) :
    c ≠ '\n' ∧ c ≠ '-' ∧ c ≠ '!' ∧ c ≠ '[' ∧ c ≠ '*' ∧ c ≠ '_' := by
  simpa [passSafe, not_or] using h

theorem plain_passSafe {c : Char} (h : plainChar c = true) : passSafe c = true := by
  have hall : ∀ x ∈ plainChars, passSafe x = true := by decide
  exact hall c (by simpa [plainChar] using h)

theorem head_mem {α : Type} {l : List α} {a : α} (h : l.head? = some a) : a ∈ l := by
  cases l with
  | nil => simp at h
  | cons x xs =>
    have hx : x = a := by simpa using h
    subst hx
    simp

theorem dropWhile_all_sat {α : Type} {p : α → Bool} :
    ∀ {xs : List α}, (∀ c ∈ xs, p c = true) → xs.dropWhile p = [] := by
  intro xs
  induction xs with
  | nil => intro _; rfl
  | cons x xs ih =>
    intro h
    rw [List.dropWhile_cons, if_pos (by simp [h x (by simp)])]
    exact ih (fun c hc => h c (by simp [hc]))

theorem getLast_append {l1 l2 : List Char} {c : Char} (h : l2.getLast? = some c) :
    (l1 ++ l2).getLast? = some c := by
  rw [← List.head?_reverse] at h ⊢
  rw [List.reverse_append]
  cases hrev : l2.reverse with
  | nil => rw [hrev] at h; simp at h
  | cons x r =>
    rw [hrev] at h
    simpa using h

theorem isPrefixOf_cons_ne {p q : Char} (ps : List Char) {rest : List Char} (h : p ≠ q) :
    (p :: ps).isPrefixOf (q :: rest) = false := by
  simp [List.isPrefixOf, h]

theorem isPrefixOf_cons_cons (p : Char) (ps rest : List Char) :
    (p :: ps).isPrefixOf (p :: rest) = ps.isPrefixOf rest := by
  simp [List.isPrefixOf]

theorem isPrefixOf_head_ne {p : Char} (ps : List Char) {cs : List Char} {c : Char}
    (hh : cs.head? = some c) (h : p ≠ c) : (p :: ps).isPrefixOf cs = false := by
  match cs with
  | [] => simp at hh
  | x :: r =>
    have hx : x = c := by simpa using hh
    subst hx
    exact isPrefixOf_cons_ne ps h

/-- The `\s+(.+)$` matcher on a single space followed by a newline-free
capture that starts with a non-whitespace character. -/
theorem wsDotPlus_space {A : List Char} {c0 : Char} (hh : A.head? = some c0)
    (h0 : isJsWs c0 = false) (hnl : ∀ c ∈ A, c ≠ '\n') :
    wsDotPlus (' ' :: A) = some (A, []) := by
  have hA : A ≠ [] := by intro h; rw [h] at hh; simp at hh
  have htwA : A.takeWhile isJsWs = [] := takeWhile_head_ne hh h0
  have hdwA : A.dropWhile isJsWs = A := dropWhile_head_ne hh h0
  have htw : (' ' :: A).takeWhile isJsWs = [' '] := by
    rw [List.takeWhile_cons, if_pos (by decide), htwA]
  have hdw : (' ' :: A).dropWhile isJsWs = A := by
    rw [List.dropWhile_cons, if_pos (by decide), hdwA]
  have htw2 : A.takeWhile (fun c => c ≠ '\n') = A :=
    takeWhile_all_sat (fun c hc => by simpa using hnl c hc)
  have hdw2 : A.dropWhile (fun c => c ≠ '\n') = [] :=
    dropWhile_all_sat (fun c hc => by simpa using hnl c hc)
  unfold wsDotPlus
  rw [htw, hdw]
  rw [if_neg (by simp)]
  rw [if_neg (by simp [hA])]
  rw [htw2, hdw2]

/-- A line-anchored pass at a matching line `PAT A` rewrites the whole
line to `PRE A POST`. -/
theorem anchF_match {pre post : List Char} (p0 : Char) (pat2 : List Char) {A : List Char}
    {c0 : Char} (hh : A.head? = some c0) (h0 : isJsWs c0 = false)
    (hnl : ∀ c ∈ A, c ≠ '\n') (f : Nat) :
    anchF (p0 :: pat2) pre post (f + 1) true ((p0 :: pat2) ++ ' ' :: A) = pre ++ A ++ post := by
  rw [show (p0 :: pat2) ++ ' ' :: A = p0 :: (pat2 ++ ' ' :: A) from rfl]
  simp only [anchF]
  rw [if_pos ⟨by trivial, isPrefixOf_append_self (p0 :: pat2) (' ' :: A)⟩]
  have hdrop : (p0 :: (pat2 ++ ' ' :: A)).drop (p0 :: pat2).length = ' ' :: A := by
    simp
  rw [hdrop, wsDotPlus_space hh h0 hnl]
  simp [anchF_nil]

/-- An anchored pass over a newline-free input whose pattern fails at the
start is the identity. -/
theorem anchored_id (pat pre post : String) {cs : List Char}
    (hnl : ∀ c ∈ cs, c ≠ '\n') (hnp : pat.data.isPrefixOf cs = false) :
    anchored pat pre post cs = cs := by
  unfold anchored
  exact anchF_id_start hnl hnp cs.length (Nat.le_refl _)

/-- An anchored pass over a single matching line. -/
theorem anchored_hit (pat pre post : String) {A : List Char} {c0 : Char}
    (hpat : pat.data ≠ []) (hh : A.head? = some c0) (h0 : isJsWs c0 = false)
    (hnl : ∀ c ∈ A, c ≠ '\n') :
    anchored pat pre post (pat.data ++ ' ' :: A) = pre.data ++ A ++ post.data := by
  unfold anchored
  obtain ⟨p0, pat2, hp⟩ : ∃ p0 pat2, pat.data = p0 :: pat2 := by
    cases hpd : pat.data with
    | nil => exact absurd hpd hpat
    | cons a b => exact ⟨a, b, rfl⟩
  rw [hp]
  have hlen : ((p0 :: pat2) ++ ' ' :: A).length = (pat2.length + A.length + 1) + 1 := by
    simp [List.length_append]
    omega
  rw [hlen]
  exact anchF_match p0 pat2 hh h0 hnl _

theorem bulletItem_head {cs : List Char} {c : Char} (hh : cs.head? = some c)
    (h1 : c ≠ '-') (h2 : c ≠ '*') : bulletItem cs = none := by
  match cs with
  | [] => simp at hh
  | x :: r =>
    have hx : x = c := by simpa using hh
    subst hx
    simp [bulletItem, h1, h2]

theorem ulAccum_single {l : List Char} (h : bulletItem l = none) : ulAccum [l] [] = [l] := by
  simp [ulAccum, h]

theorem olItem_head {cs : List Char} {c : Char} (hh : cs.head? = some c)
    (h : c.isDigit = false) : olItem cs = none := by
  match cs with
  | [] => simp [olItem]
  | x :: r =>
    have hx : x = c := by simpa using hh
    subst hx
    simp [olItem, List.takeWhile_cons, h]

theorem olAccum_single {l : List Char} (h : olItem l = none) : olAccum [l] [] = [l] := by
  simp [olAccum, h]

/-- The extraction and heading stages of `markdownToHtml`: the code-block
table, the inline-code table, and the text after the four heading
passes. -/
def mdStages (markdown : String) : List String × List String × List Char :=
  ((cbF markdown.data.length markdown.data []).2,
   (icF (cbF markdown.data.length markdown.data []).1.length
     (cbF markdown.data.length markdown.data []).1 []).2,
   anchored "#" "<h3>" "</h3>"
     (anchored "##" "<h4>" "</h4>"
       (anchored "###" "<h4>" "</h4>"
         (anchored "####" "<h4>" "</h4>"
           (icF (cbF markdown.data.length markdown.data []).1.length
             (cbF markdown.data.length markdown.data []).1 []).1))))

/-- The remaining stages of `markdownToHtml`, from the horizontal-rule
pass to the paragraph wrap, abstracted over the two placeholder tables. -/
def mdTail (cb ic : List String) (cs6 : List Char) : String :=
  let cs7 := hrF cs6.length true cs6
  let cs8 := imgF cs7.length cs7
  let cs9 := linkF cs8.length cs8
  let cs10 := boldF '*' cs9.length cs9
  let cs11 := boldF '_' cs10.length cs10
  let cs12 := italF '*' cs11.length false cs11
  let cs13 := italF '_' cs12.length false cs12
  let cs14 := anchored ">" "<blockquote>" "</blockquote>" cs13
  let cs15 := joinNl (ulAccum (splitNl cs14) [])
  let cs16 := joinNl (olAccum (splitNl cs15) [])
  let cs17 := restoreF "__CODEBLOCK_".data "<pre>".data "</pre>".data cb cs16.length cs16
  let cs18 := restoreF "__INLINECODE_".data "<code>".data "</code>".data ic cs17.length cs17
  let chunks := paraF cs18.length cs18
  ⟨joinNl ((chunks.map paraWrap).filter (fun c => ¬c.isEmpty))⟩

theorem markdownToHtml_split (md : String) :
    markdownToHtml md = mdTail (mdStages md).1 (mdStages md).2.1 (mdStages md).2.2 := rfl

theorem wrapped_safe {A : List Char} (hA : ∀ c ∈ A, passSafe c = true)
    {pre post : List Char} (hpre : ∀ c ∈ pre, passSafe c = true)
    (hpost : ∀ c ∈ post, passSafe c = true) :
    ∀ c ∈ pre ++ A ++ post, passSafe c = true := by
  intro c hc
  rcases List.mem_append.mp hc with h1 | h2
  · rcases List.mem_append.mp h1 with h1a | h1b
    · exact hpre c h1a
    · exact hA c h1b
  · exact hpost c h2

/-- Every pass from the horizontal-rule pass on leaves a single
pass-safe line that starts with `<` and ends with `>` unchanged. -/
theorem mdTail_id (W : List Char) (hsafe : ∀ c ∈ W, passSafe c = true)
    (hhead : W.head? = some '<') (hlast : W.getLast? = some '>') :
    mdTail [] [] W = ⟨W⟩ := by
  have hnl : ∀ c ∈ W, c ≠ '\n' := fun c hc => (passSafe_spec (hsafe c hc)).1
  have hdash : ∀ c ∈ W, c ≠ '-' := fun c hc => (passSafe_spec (hsafe c hc)).2.1
  have hbang : ∀ c ∈ W, c ≠ '!' := fun c hc => (passSafe_spec (hsafe c hc)).2.2.1
  have hbr : ∀ c ∈ W, c ≠ '[' := fun c hc => (passSafe_spec (hsafe c hc)).2.2.2.1
  have hstar : ∀ c ∈ W, c ≠ '*' := fun c hc => (passSafe_spec (hsafe c hc)).2.2.2.2.1
  have hus : ∀ c ∈ W, c ≠ '_' := fun c hc => (passSafe_spec (hsafe c hc)).2.2.2.2.2
  have e7 : hrF W.length true W = W :=
    hrF_id (fun c hc => ⟨hnl c hc, hdash c hc⟩) W.length true (Nat.le_refl _)
  have e8 : imgF W.length W = W := imgF_id hbang W.length (Nat.le_refl _)
  have e9 : linkF W.length W = W := linkF_id hbr W.length (Nat.le_refl _)
  have e10 : boldF '*' W.length W = W := boldF_id hstar W.length (Nat.le_refl _)
  have e11 : boldF '_' W.length W = W := boldF_id hus W.length (Nat.le_refl _)
  have e12 : italF '*' W.length false W = W := italF_id hstar W.length false (Nat.le_refl _)
  have e13 : italF '_' W.length false W = W := italF_id hus W.length false (Nat.le_refl _)
  have e14 : anchored ">" "<blockquote>" "</blockquote>" W = W :=
    anchored_id _ _ _ hnl (isPrefixOf_head_ne [] hhead (by decide))
  have e15 : splitNl W = [W] := splitNl_no_nl hnl
  have e15b : ulAccum [W] [] = [W] :=
    ulAccum_single (bulletItem_head hhead (by decide) (by decide))
  have e16b : olAccum [W] [] = [W] := olAccum_single (olItem_head hhead (by decide))
  have ejoin : ∀ l : List Char, joinNl [l] = l := fun l => rfl
  have e17 : restoreF "__CODEBLOCK_".data "<pre>".data "</pre>".data [] W.length W = W :=
    @restoreF_id "__CODEBLOCK_".data "<pre>".data "</pre>".data [] W rfl hus
      W.length (Nat.le_refl _)
  have e18 : restoreF "__INLINECODE_".data "<code>".data "</code>".data [] W.length W = W :=
    @restoreF_id "__INLINECODE_".data "<code>".data "</code>".data [] W rfl hus
      W.length (Nat.le_refl _)
  have e19 : paraF W.length W = [W] := paraF_no_nl hnl W.length (Nat.le_refl _)
  have hjs : jsTrim W = W := jsTrim_id hhead (by decide) hlast (by decide)
  have epw : paraWrap W = W := by
    unfold paraWrap
    rw [hjs]
    rw [if_pos ⟨hhead, hlast⟩]
  have hie : W.isEmpty = false := by
    cases W with
    | nil => simp at hhead
    | cons x r => rfl
  unfold mdTail
  simp only [e7, e8, e9, e10, e11, e12, e13, e14, e15, e15b, ejoin, e16b, e17, e18, e19,
    List.map_cons, List.map_nil, epw, List.filter_cons, List.filter_nil, hie]
  simp [ejoin]

/-- Tokenizing one well-formed open tag with no attribute text in front
of any continuation. -/
theorem tokenize_open_tag (tag : String) (h1 : tag.data ≠ [])
    (h2 : tag.data.all isNameChar = true) (rest : List Char) :
    tokenize ('<' :: (tag.data ++ '>' :: rest)) = Tok.otag tag "" :: tokenize rest := by
  have hall : ∀ c ∈ tag.data, isNameChar c = true := by
    intro c hc
    exact List.all_eq_true.mp h2 c hc
  have hcore : matchTagCore (tag.data ++ '>' :: rest) = some (tag.data, [], rest) := by
    unfold matchTagCore
    rw [takeWhile_append_sat rest hall (by decide),
      dropWhile_append_sat rest hall (by decide)]
    rw [if_neg (by simpa using h1)]
    have hd : ('>' :: rest).dropWhile (fun c => c ≠ '>') = '>' :: rest := by
      rw [List.dropWhile_cons, if_neg (by simp)]
    have ht : ('>' :: rest).takeWhile (fun c => c ≠ '>') = [] := by
      rw [List.takeWhile_cons, if_neg (by simp)]
    rw [hd, ht]
  have hmt : matchTag (tag.data ++ '>' :: rest) = some (false, tag.data, [], rest) := by
    unfold matchTag
    rw [if_neg ?hne, hcore]
    · rfl
    case hne =>
      intro hcontra
      obtain ⟨t0, ts, htd⟩ : ∃ t0 ts, tag.data = t0 :: ts := by
        cases hpd : tag.data with
        | nil => exact absurd hpd h1
        | cons a b => exact ⟨a, b, rfl⟩
      rw [htd] at hcontra
      have ht0 : t0 = '/' := by simpa using hcontra
      have hnm := hall t0 (by rw [htd]; simp)
      rw [ht0] at hnm
      exact absurd hnm (by decide)
  rw [tokenize_lt_some hmt]
  rfl

/-- Tokenizing `<TAG>A</TAG>` for a well-formed tag name and a nonempty
text body free of `<`. -/
theorem tokenize_wrapped (tg : String) (h1 : tg.data ≠ [])
    (h2 : tg.data.all isNameChar = true) (A : List Char) (c0 : Char)
    (hh : A.head? = some c0) (hlt : ∀ c ∈ A, c ≠ '<') :
    tokenize (('<' :: (tg.data ++ ('>' :: []))) ++ A ++
        ('<' :: ('/' :: (tg.data ++ ('>' :: []))))) =
      [Tok.otag tg "", Tok.text ⟨A⟩, Tok.ctag tg ""] := by
  obtain ⟨A2, rfl⟩ : ∃ A2, A = c0 :: A2 := by
    cases A with
    | nil => simp at hh
    | cons a as => exact ⟨as, by rw [show a = c0 from by simpa using hh]⟩
  have hc0 : c0 ≠ '<' := hlt c0 (by simp)
  have hshape : ('<' :: (tg.data ++ ('>' :: []))) ++ (c0 :: A2) ++
      ('<' :: ('/' :: (tg.data ++ ('>' :: [])))) =
      '<' :: (tg.data ++ ('>' :: (c0 :: (A2 ++
        ('<' :: ('/' :: (tg.data ++ ('>' :: [])))))))) := by
    simp
  rw [hshape, tokenize_open_tag tg h1 h2]
  rw [tokenize_text hc0]
  have hallA2 : ∀ c ∈ A2, (fun x => decide (x ≠ '<')) c = true := by
    intro c hc
    simpa using hlt c (by simp [hc])
  rw [takeWhile_append_sat ('/' :: (tg.data ++ ('>' :: []))) hallA2 (by decide)]
  rw [dropWhile_append_sat ('/' :: (tg.data ++ ('>' :: []))) hallA2 (by decide)]
  rw [tokenize_close_tag tg h1 h2 [], tokenize_nil]

/-- Running the builder over the three tokens of one wrapped heading. -/
theorem foldl_heading (tg : String) (hv : ¬lowerStr tg ∈ voidTags) (A : List Char)
    (hA : A ≠ []) :
    [Tok.otag tg "", Tok.text ⟨A⟩, Tok.ctag tg ""].foldl stepTok initState =
      ⟨[Node.element (lowerStr tg) [] [Node.text ⟨A⟩]], []⟩ := by
  have hpa : parseAttrs "" = [] := rfl
  have hne : (⟨A⟩ : String).isEmpty = false := by
    rw [Bool.eq_false_iff]
    intro h
    exact hA (congrArg String.data ((String.isEmpty_iff _).mp h))
  have s1 : stepTok initState (Tok.otag tg "") = ⟨[], [⟨lowerStr tg, [], []⟩]⟩ := by
    simp only [stepTok]
    rw [if_neg (by simp [hv])]
    rw [hpa]
    rfl
  have s2 : stepTok ⟨[], [⟨lowerStr tg, [], []⟩]⟩ (Tok.text ⟨A⟩) =
      ⟨[], [⟨lowerStr tg, [], [Node.text ⟨A⟩]⟩]⟩ := by
    simp only [stepTok]
    rw [if_neg (by simp [hne])]
    rfl
  have s3 : stepTok ⟨[], [⟨lowerStr tg, [], [Node.text ⟨A⟩]⟩]⟩ (Tok.ctag tg "") =
      ⟨[Node.element (lowerStr tg) [] [Node.text ⟨A⟩]], []⟩ := rfl
  rw [List.foldl_cons, List.foldl_cons, List.foldl_cons, List.foldl_nil, s1, s2, s3]

/-- Parsing `<TAG>A</TAG>` yields the single element with the text
child. -/
theorem htmlToNodes_wrapped (tg : String) (h1 : tg.data ≠ [])
    (h2 : tg.data.all isNameChar = true) (hv : ¬lowerStr tg ∈ voidTags)
    (A : List Char) (c0 : Char) (hh : A.head? = some c0) (hlt : ∀ c ∈ A, c ≠ '<') :
    htmlToNodes ⟨('<' :: (tg.data ++ ('>' :: []))) ++ A ++
        ('<' :: ('/' :: (tg.data ++ ('>' :: []))))⟩ =
      [Node.element (lowerStr tg) [] [Node.text ⟨A⟩]] := by
  have hA : A ≠ [] := by intro h; rw [h] at hh; simp at hh
  unfold htmlToNodes
  rw [show (⟨('<' :: (tg.data ++ ('>' :: []))) ++ A ++
      ('<' :: ('/' :: (tg.data ++ ('>' :: []))))⟩ : String).data =
      ('<' :: (tg.data ++ ('>' :: []))) ++ A ++
      ('<' :: ('/' :: (tg.data ++ ('>' :: [])))) from rfl]
  rw [tokenize_wrapped tg h1 h2 A c0 hh hlt]
  rw [foldl_heading tg hv A hA]
  exact unwind_nilstack _

theorem all_cons {p : Char → Prop} {c : Char} {l : List Char} (hc : p c)
    (hl : ∀ x ∈ l, p x) : ∀ x ∈ c :: l, p x := by
  intro x hx
  rcases List.mem_cons.mp hx with rfl | hx
  · exact hc
  · exact hl x hx

/-- Heading stages on a level-1 heading line. -/
theorem mdStages_h1 (A : String) {c0 : Char} (hh : A.data.head? = some c0)
    (hplain : ∀ c ∈ A.data, plainChar c = true) (hs : c0 ≠ ' ') :
    mdStages ("# " ++ A) = ([], [], "<h3>".data ++ A.data ++ "</h3>".data) := by
  have h0 : isJsWs c0 = false := plainChar_ws (hplain c0 (head_mem hh)) hs
  have hnlA : ∀ c ∈ A.data, c ≠ '\n' := fun c hc => (plainChar_spec (hplain c hc)).1
  have hbtA : ∀ c ∈ A.data, c ≠ btick :=
    fun c hc => (plainChar_spec (hplain c hc)).2.2.2.2.2.2.1
  have hdata : ("# " ++ A).data = '#' :: ' ' :: A.data := rfl
  have hbt : ∀ c ∈ '#' :: ' ' :: A.data, c ≠ btick :=
    all_cons (by decide) (all_cons (by decide) hbtA)
  have hnl0 : ∀ c ∈ '#' :: ' ' :: A.data, c ≠ '\n' :=
    all_cons (by decide) (all_cons (by decide) hnlA)
  have ecb : cbF ('#' :: ' ' :: A.data).length ('#' :: ' ' :: A.data) [] =
      ('#' :: ' ' :: A.data, []) := cbF_id hbt _ []
  have eic : icF ('#' :: ' ' :: A.data).length ('#' :: ' ' :: A.data) [] =
      ('#' :: ' ' :: A.data, []) := icF_id hbt _ []
  have hp4 : "####".data.isPrefixOf ('#' :: ' ' :: A.data) = false := by
    rw [show "####".data = '#' :: '#' :: '#' :: '#' :: ([] : List Char) from rfl,
      isPrefixOf_cons_cons]
    exact isPrefixOf_cons_ne _ (by decide)
  have hp3 : "###".data.isPrefixOf ('#' :: ' ' :: A.data) = false := by
    rw [show "###".data = '#' :: '#' :: '#' :: ([] : List Char) from rfl, isPrefixOf_cons_cons]
    exact isPrefixOf_cons_ne _ (by decide)
  have hp2 : "##".data.isPrefixOf ('#' :: ' ' :: A.data) = false := by
    rw [show "##".data = '#' :: '#' :: ([] : List Char) from rfl, isPrefixOf_cons_cons]
    exact isPrefixOf_cons_ne _ (by decide)
  have ea4 : anchored "####" "<h4>" "</h4>" ('#' :: ' ' :: A.data) = '#' :: ' ' :: A.data :=
    anchored_id _ _ _ hnl0 hp4
  have ea3 : anchored "###" "<h4>" "</h4>" ('#' :: ' ' :: A.data) = '#' :: ' ' :: A.data :=
    anchored_id _ _ _ hnl0 hp3
  have ea2 : anchored "##" "<h4>" "</h4>" ('#' :: ' ' :: A.data) = '#' :: ' ' :: A.data :=
    anchored_id _ _ _ hnl0 hp2
  have ea1 : anchored "#" "<h3>" "</h3>" ('#' :: ' ' :: A.data) =
      "<h3>".data ++ A.data ++ "</h3>".data :=
    anchored_hit "#" "<h3>" "</h3>" (by decide) hh h0 hnlA
  unfold mdStages
  rw [hdata]
  simp only [ecb, eic, ea4, ea3, ea2, ea1]

/-- Heading stages on a level-2 heading line. -/
theorem mdStages_h2 (A : String) {c0 : Char} (hh : A.data.head? = some c0)
    (hplain : ∀ c ∈ A.data, plainChar c = true) (hs : c0 ≠ ' ') :
    mdStages ("## " ++ A) = ([], [], "<h4>".data ++ A.data ++ "</h4>".data) := by
  have h0 : isJsWs c0 = false := plainChar_ws (hplain c0 (head_mem hh)) hs
  have hnlA : ∀ c ∈ A.data, c ≠ '\n' := fun c hc => (plainChar_spec (hplain c hc)).1
  have hbtA : ∀ c ∈ A.data, c ≠ btick :=
    fun c hc => (plainChar_spec (hplain c hc)).2.2.2.2.2.2.1
  have hsafeA : ∀ c ∈ A.data, passSafe c = true := fun c hc => plain_passSafe (hplain c hc)
  have hdata : ("## " ++ A).data = '#' :: '#' :: ' ' :: A.data := rfl
  have hbt : ∀ c ∈ '#' :: '#' :: ' ' :: A.data, c ≠ btick :=
    all_cons (by decide) (all_cons (by decide) (all_cons (by decide) hbtA))
  have hnl0 : ∀ c ∈ '#' :: '#' :: ' ' :: A.data, c ≠ '\n' :=
    all_cons (by decide) (all_cons (by decide) (all_cons (by decide) hnlA))
  have ecb : cbF ('#' :: '#' :: ' ' :: A.data).length ('#' :: '#' :: ' ' :: A.data) [] =
      ('#' :: '#' :: ' ' :: A.data, []) := cbF_id hbt _ []
  have eic : icF ('#' :: '#' :: ' ' :: A.data).length ('#' :: '#' :: ' ' :: A.data) [] =
      ('#' :: '#' :: ' ' :: A.data, []) := icF_id hbt _ []
  have hp4 : "####".data.isPrefixOf ('#' :: '#' :: ' ' :: A.data) = false := by
    rw [show "####".data = '#' :: '#' :: '#' :: '#' :: ([] : List Char) from rfl,
      isPrefixOf_cons_cons, isPrefixOf_cons_cons]
    exact isPrefixOf_cons_ne _ (by decide)
  have hp3 : "###".data.isPrefixOf ('#' :: '#' :: ' ' :: A.data) = false := by
    rw [show "###".data = '#' :: '#' :: '#' :: ([] : List Char) from rfl,
      isPrefixOf_cons_cons, isPrefixOf_cons_cons]
    exact isPrefixOf_cons_ne _ (by decide)
  have ea4 : anchored "####" "<h4>" "</h4>" ('#' :: '#' :: ' ' :: A.data) =
      '#' :: '#' :: ' ' :: A.data := anchored_id _ _ _ hnl0 hp4
  have ea3 : anchored "###" "<h4>" "</h4>" ('#' :: '#' :: ' ' :: A.data) =
      '#' :: '#' :: ' ' :: A.data := anchored_id _ _ _ hnl0 hp3
  have ea2 : anchored "##" "<h4>" "</h4>" ('#' :: '#' :: ' ' :: A.data) =
      "<h4>".data ++ A.data ++ "</h4>".data :=
    anchored_hit "##" "<h4>" "</h4>" (by decide) hh h0 hnlA
  have hsafeW : ∀ c ∈ "<h4>".data ++ A.data ++ "</h4>".data, passSafe c = true :=
    wrapped_safe hsafeA (by decide) (by decide)
  have hnlW : ∀ c ∈ "<h4>".data ++ A.data ++ "</h4>".data, c ≠ '\n' :=
    fun c hc => (passSafe_spec (hsafeW c hc)).1
  have hWhead : ("<h4>".data ++ A.data ++ "</h4>".data).head? = some '<' := rfl
  have hp1W : "#".data.isPrefixOf ("<h4>".data ++ A.data ++ "</h4>".data) = false := by
    rw [show "#".data = '#' :: ([] : List Char) from rfl]
    exact isPrefixOf_head_ne _ hWhead (by decide)
  have ea1 : anchored "#" "<h3>" "</h3>" ("<h4>".data ++ A.data ++ "</h4>".data) =
      "<h4>".data ++ A.data ++ "</h4>".data := anchored_id _ _ _ hnlW hp1W
  unfold mdStages
  rw [hdata]
  simp only [ecb, eic, ea4, ea3, ea2, ea1]

/-- Heading stages on a level-3 heading line. -/
theorem mdStages_h3 (A : String) {c0 : Char} (hh : A.data.head? = some c0)
    (hplain : ∀ c ∈ A.data, plainChar c = true) (hs : c0 ≠ ' ') :
    mdStages ("### " ++ A) = ([], [], "<h4>".data ++ A.data ++ "</h4>".data) := by
  have h0 : isJsWs c0 = false := plainChar_ws (hplain c0 (head_mem hh)) hs
  have hnlA : ∀ c ∈ A.data, c ≠ '\n' := fun c hc => (plainChar_spec (hplain c hc)).1
  have hbtA : ∀ c ∈ A.data, c ≠ btick :=
    fun c hc => (plainChar_spec (hplain c hc)).2.2.2.2.2.2.1
  have hsafeA : ∀ c ∈ A.data, passSafe c = true := fun c hc => plain_passSafe (hplain c hc)
  have hdata : ("### " ++ A).data = '#' :: '#' :: '#' :: ' ' :: A.data := rfl
  have hbt : ∀ c ∈ '#' :: '#' :: '#' :: ' ' :: A.data, c ≠ btick :=
    all_cons (by decide)
      (all_cons (by decide) (all_cons (by decide) (all_cons (by decide) hbtA)))
  have hnl0 : ∀ c ∈ '#' :: '#' :: '#' :: ' ' :: A.data, c ≠ '\n' :=
    all_cons (by decide)
      (all_cons (by decide) (all_cons (by decide) (all_cons (by decide) hnlA)))
  have ecb : cbF ('#' :: '#' :: '#' :: ' ' :: A.data).length
      ('#' :: '#' :: '#' :: ' ' :: A.data) [] =
      ('#' :: '#' :: '#' :: ' ' :: A.data, []) := cbF_id hbt _ []
  have eic : icF ('#' :: '#' :: '#' :: ' ' :: A.data).length
      ('#' :: '#' :: '#' :: ' ' :: A.data) [] =
      ('#' :: '#' :: '#' :: ' ' :: A.data, []) := icF_id hbt _ []
  have hp4 : "####".data.isPrefixOf ('#' :: '#' :: '#' :: ' ' :: A.data) = false := by
    rw [show "####".data = '#' :: '#' :: '#' :: '#' :: ([] : List Char) from rfl,
      isPrefixOf_cons_cons, isPrefixOf_cons_cons, isPrefixOf_cons_cons]
    exact isPrefixOf_cons_ne _ (by decide)
  have ea4 : anchored "####" "<h4>" "</h4>" ('#' :: '#' :: '#' :: ' ' :: A.data) =
      '#' :: '#' :: '#' :: ' ' :: A.data := anchored_id _ _ _ hnl0 hp4
  have ea3 : anchored "###" "<h4>" "</h4>" ('#' :: '#' :: '#' :: ' ' :: A.data) =
      "<h4>".data ++ A.data ++ "</h4>".data :=
    anchored_hit "###" "<h4>" "</h4>" (by decide) hh h0 hnlA
  have hsafeW : ∀ c ∈ "<h4>".data ++ A.data ++ "</h4>".data, passSafe c = true :=
    wrapped_safe hsafeA (by decide) (by decide)
  have hnlW : ∀ c ∈ "<h4>".data ++ A.data ++ "</h4>".data, c ≠ '\n' :=
    fun c hc => (passSafe_spec (hsafeW c hc)).1
  have hWhead : ("<h4>".data ++ A.data ++ "</h4>".data).head? = some '<' := rfl
  have hp2W : "##".data.isPrefixOf ("<h4>".data ++ A.data ++ "</h4>".data) = false := by
    rw [show "##".data = '#' :: '#' :: ([] : List Char) from rfl]
    exact isPrefixOf_head_ne _ hWhead (by decide)
  have hp1W : "#".data.isPrefixOf ("<h4>".data ++ A.data ++ "</h4>".data) = false := by
    rw [show "#".data = '#' :: ([] : List Char) from rfl]
    exact isPrefixOf_head_ne _ hWhead (by decide)
  have ea2 : anchored "##" "<h4>" "</h4>" ("<h4>".data ++ A.data ++ "</h4>".data) =
      "<h4>".data ++ A.data ++ "</h4>".data := anchored_id _ _ _ hnlW hp2W
  have ea1 : anchored "#" "<h3>" "</h3>" ("<h4>".data ++ A.data ++ "</h4>".data) =
      "<h4>".data ++ A.data ++ "</h4>".data := anchored_id _ _ _ hnlW hp1W
  unfold mdStages
  rw [hdata]
  simp only [ecb, eic, ea4, ea3, ea2, ea1]

/-- Heading stages on a level-4 heading line. -/
theorem mdStages_h4 (A : String) {c0 : Char} (hh : A.data.head? = some c0)
    (hplain : ∀ c ∈ A.data, plainChar c = true) (hs : c0 ≠ ' ') :
    mdStages ("#### " ++ A) = ([], [], "<h4>".data ++ A.data ++ "</h4>".data) := by
  have h0 : isJsWs c0 = false := plainChar_ws (hplain c0 (head_mem hh)) hs
  have hnlA : ∀ c ∈ A.data, c ≠ '\n' := fun c hc => (plainChar_spec (hplain c hc)).1
  have hbtA : ∀ c ∈ A.data, c ≠ btick :=
    fun c hc => (plainChar_spec (hplain c hc)).2.2.2.2.2.2.1
  have hsafeA : ∀ c ∈ A.data, passSafe c = true := fun c hc => plain_passSafe (hplain c hc)
  have hdata : ("#### " ++ A).data = '#' :: '#' :: '#' :: '#' :: ' ' :: A.data := rfl
  have hbt : ∀ c ∈ '#' :: '#' :: '#' :: '#' :: ' ' :: A.data, c ≠ btick :=
    all_cons (by decide) (all_cons (by decide)
      (all_cons (by decide) (all_cons (by decide) (all_cons (by decide) hbtA))))
  have ecb : cbF ('#' :: '#' :: '#' :: '#' :: ' ' :: A.data).length
      ('#' :: '#' :: '#' :: '#' :: ' ' :: A.data) [] =
      ('#' :: '#' :: '#' :: '#' :: ' ' :: A.data, []) := cbF_id hbt _ []
  have eic : icF ('#' :: '#' :: '#' :: '#' :: ' ' :: A.data).length
      ('#' :: '#' :: '#' :: '#' :: ' ' :: A.data) [] =
      ('#' :: '#' :: '#' :: '#' :: ' ' :: A.data, []) := icF_id hbt _ []
  have ea4 : anchored "####" "<h4>" "</h4>" ('#' :: '#' :: '#' :: '#' :: ' ' :: A.data) =
      "<h4>".data ++ A.data ++ "</h4>".data :=
    anchored_hit "####" "<h4>" "</h4>" (by decide) hh h0 hnlA
  have hsafeW : ∀ c ∈ "<h4>".data ++ A.data ++ "</h4>".data, passSafe c = true :=
    wrapped_safe hsafeA (by decide) (by decide)
  have hnlW : ∀ c ∈ "<h4>".data ++ A.data ++ "</h4>".data, c ≠ '\n' :=
    fun c hc => (passSafe_spec (hsafeW c hc)).1
  have hWhead : ("<h4>".data ++ A.data ++ "</h4>".data).head? = some '<' := rfl
  have hp3W : "###".data.isPrefixOf ("<h4>".data ++ A.data ++ "</h4>".data) = false := by
    rw [show "###".data = '#' :: '#' :: '#' :: ([] : List Char) from rfl]
    exact isPrefixOf_head_ne _ hWhead (by decide)
  have hp2W : "##".data.isPrefixOf ("<h4>".data ++ A.data ++ "</h4>".data) = false := by
    rw [show "##".data = '#' :: '#' :: ([] : List Char) from rfl]
    exact isPrefixOf_head_ne _ hWhead (by decide)
  have hp1W : "#".data.isPrefixOf ("<h4>".data ++ A.data ++ "</h4>".data) = false := by
    rw [show "#".data = '#' :: ([] : List Char) from rfl]
    exact isPrefixOf_head_ne _ hWhead (by decide)
  have ea3 : anchored "###" "<h4>" "</h4>" ("<h4>".data ++ A.data ++ "</h4>".data) =
      "<h4>".data ++ A.data ++ "</h4>".data := anchored_id _ _ _ hnlW hp3W
  have ea2 : anchored "##" "<h4>" "</h4>" ("<h4>".data ++ A.data ++ "</h4>".data) =
      "<h4>".data ++ A.data ++ "</h4>".data := anchored_id _ _ _ hnlW hp2W
  have ea1 : anchored "#" "<h3>" "</h3>" ("<h4>".data ++ A.data ++ "</h4>".data) =
      "<h4>".data ++ A.data ++ "</h4>".data := anchored_id _ _ _ hnlW hp1W
  unfold mdStages
  rw [hdata]
  simp only [ecb, eic, ea4, ea3, ea2, ea1]

/-! ### C7: Markdown heading collapse -/

/-- C7: for a heading body `A` (nonempty, of unaccented letters, digits
and spaces, not starting with a space), `markdownToHtml` maps `"# A"` to
`"<h3>A</h3>"` and `"## A"`, `"### A"`, `"#### A"` all to
`"<h4>A</h4>"`; parsing those outputs yields a single `h3` element for
level 1 and a single `h4` element for levels 2, 3 and 4, each with the
text child `A`. -/
theorem C7_heading_collapse (A : String) (hne : A.data ≠ [])
    (hplain : A.data.all plainChar = true) (hsp : A.data.head? ≠ some ' ') :
    (markdownToHtml ("# " ++ A) = "<h3>" ++ A ++ "</h3>" ∧
      htmlToNodes (markdownToHtml ("# " ++ A)) = [Node.element "h3" [] [Node.text A]]) ∧
    (markdownToHtml ("## " ++ A) = "<h4>" ++ A ++ "</h4>" ∧
      htmlToNodes (markdownToHtml ("## " ++ A)) = [Node.element "h4" [] [Node.text A]]) ∧
    (markdownToHtml ("### " ++ A) = "<h4>" ++ A ++ "</h4>" ∧
      htmlToNodes (markdownToHtml ("### " ++ A)) = [Node.element "h4" [] [Node.text A]]) ∧
    (markdownToHtml ("#### " ++ A) = "<h4>" ++ A ++ "</h4>" ∧
      htmlToNodes (markdownToHtml ("#### " ++ A)) = [Node.element "h4" [] [Node.text A]]) := by
  obtain ⟨c0, hh⟩ : ∃ c0, A.data.head? = some c0 := by
    cases hd : A.data with
    | nil => exact absurd hd hne
    | cons a l => exact ⟨a, rfl⟩
  have hplainA : ∀ c ∈ A.data, plainChar c = true := fun c hc => List.all_eq_true.mp hplain c hc
  have hs : c0 ≠ ' ' := by intro h; rw [h] at hh; exact hsp hh
  have hsafeA : ∀ c ∈ A.data, passSafe c = true := fun c hc => plain_passSafe (hplainA c hc)
  have hltA : ∀ c ∈ A.data, c ≠ '<' :=
    fun c hc => (plainChar_spec (hplainA c hc)).2.2.2.2.2.2.2.1
  have hsafeW3 : ∀ c ∈ "<h3>".data ++ A.data ++ "</h3>".data, passSafe c = true :=
    wrapped_safe hsafeA (by decide) (by decide)
  have hsafeW4 : ∀ c ∈ "<h4>".data ++ A.data ++ "</h4>".data, passSafe c = true :=
    wrapped_safe hsafeA (by decide) (by decide)
  have hW3last : ("<h3>".data ++ A.data ++ "</h3>".data).getLast? = some '>' :=
    getLast_append (by decide)
  have hW4last : ("<h4>".data ++ A.data ++ "</h4>".data).getLast? = some '>' :=
    getLast_append (by decide)
  have hm1 : markdownToHtml ("# " ++ A) = ⟨"<h3>".data ++ A.data ++ "</h3>".data⟩ := by
    rw [markdownToHtml_split, mdStages_h1 A hh hplainA hs]
    exact mdTail_id _ hsafeW3 rfl hW3last
  have hm2 : markdownToHtml ("## " ++ A) = ⟨"<h4>".data ++ A.data ++ "</h4>".data⟩ := by
    rw [markdownToHtml_split, mdStages_h2 A hh hplainA hs]
    exact mdTail_id _ hsafeW4 rfl hW4last
  have hm3 : markdownToHtml ("### " ++ A) = ⟨"<h4>".data ++ A.data ++ "</h4>".data⟩ := by
    rw [markdownToHtml_split, mdStages_h3 A hh hplainA hs]
    exact mdTail_id _ hsafeW4 rfl hW4last
  have hm4 : markdownToHtml ("#### " ++ A) = ⟨"<h4>".data ++ A.data ++ "</h4>".data⟩ := by
    rw [markdownToHtml_split, mdStages_h4 A hh hplainA hs]
    exact mdTail_id _ hsafeW4 rfl hW4last
  have ht3 : htmlToNodes ⟨"<h3>".data ++ A.data ++ "</h3>".data⟩ =
      [Node.element "h3" [] [Node.text A]] :=
    htmlToNodes_wrapped "h3" (by decide) (by decide) (by decide) A.data c0 hh hltA
  have ht4 : htmlToNodes ⟨"<h4>".data ++ A.data ++ "</h4>".data⟩ =
      [Node.element "h4" [] [Node.text A]] :=
    htmlToNodes_wrapped "h4" (by decide) (by decide) (by decide) A.data c0 hh hltA
  refine ⟨⟨hm1, ?_⟩, ⟨hm2, ?_⟩, ⟨hm3, ?_⟩, ⟨hm4, ?_⟩⟩
  · rw [hm1]; exact ht3
  · rw [hm2]; exact ht4
  · rw [hm3]; exact ht4
  · rw [hm4]; exact ht4

/-- Closed instance of C7 at the one-character heading body `"A"`. -/
theorem C7_heading_collapse_witness :
    ("A" : String).data ≠ [] ∧ ("A" : String).data.all plainChar = true ∧
    ("A" : String).data.head? ≠ some ' ' ∧
    htmlToNodes (markdownToHtml ("# " ++ "A")) = [Node.element "h3" [] [Node.text "A"]] ∧
    htmlToNodes (markdownToHtml ("## " ++ "A")) = [Node.element "h4" [] [Node.text "A"]] :=
  ⟨by decide, by decide, by decide,
   (C7_heading_collapse "A" (by decide) (by decide) (by decide)).1.2,
   (C7_heading_collapse "A" (by decide) (by decide) (by decide)).2.1.2⟩

/-! ### C8: the literal parsing scenario -/

/-- C8: `htmlToNodes` applied to the exact input
`"<p>Hello <b>world</b>!</p>"` returns exactly one `p` element whose
children are the text leaf `"Hello "` (trailing space preserved), a `b`
element containing `"world"`, and the text leaf `"!"`. -/
theorem C8_literal_scenario :
    htmlToNodes "<p>Hello <b>world</b>!</p>" =
      [Node.element "p" []
        [Node.text "Hello ", Node.element "b" [] [Node.text "world"], Node.text "!"]] := by
  decide

/-! ### C1: the markup round trip

The round trip fails on real attribute values (any `/` in the raw
attribute text of a non-void open tag makes the reparse treat it as
self-closing), so C1 is settled by a counterexample plus an amended
theorem: the round trip holds for every tree built from a token stream in
the well-formed grammar `WfToks` below. -/

/-- Characters of one rendered attribute, `KEY="VALUE"`. -/
def segChars (p : String × String) : List Char :=
  p.1.data ++ '=' :: qmark :: (p.2.data ++ [qmark])

/-- Characters of a rendered attribute record: a leading space and
space-separated `KEY="VALUE"` segments. -/
def attrChars : List (String × String) → List Char
  | [] => []
  | p :: ps => ' ' :: (segChars p ++ attrChars ps)

theorem intercalate_go_data (l : List String) : ∀ (acc s : String),
    (String.intercalate.go acc s l).data =
      acc.data ++ (l.map (fun x => s.data ++ x.data)).flatten := by
  induction l with
  | nil => intro acc s; simp [String.intercalate.go]
  | cons a as ih =>
    intro acc s
    rw [String.intercalate.go, ih]
    simp

theorem seg_data (q : String × String) : (q.1 ++ "=\"" ++ q.2 ++ "\"").data = segChars q := by
  show (q.1.data ++ ('=' :: qmark :: []) ++ q.2.data ++ [qmark]) = segChars q
  simp [segChars, qmark]

theorem attrsToHtml_data (a : List (String × String)) : (attrsToHtml a).data = attrChars a := by
  match a with
  | [] => rfl
  | p :: ps =>
    show ' ' :: (String.intercalate.go (p.1 ++ "=\"" ++ p.2 ++ "\"") " "
        (ps.map fun q => q.1 ++ "=\"" ++ q.2 ++ "\"")).data = attrChars (p :: ps)
    rw [intercalate_go_data, seg_data]
    have htail : ∀ qs : List (String × String),
        ((qs.map (fun q => q.1 ++ "=\"" ++ q.2 ++ "\"")).map
          (fun x => (" " : String).data ++ x.data)).flatten = attrChars qs := by
      intro qs
      induction qs with
      | nil => rfl
      | cons q qs ihq =>
        simp only [List.map_cons, List.flatten_cons, ihq, seg_data]
        simp [attrChars]
    rw [htail]
    rfl

/-- A good attribute entry: a nonempty name-character key and a value
free of quotes, `>` and `/`. -/
def goodAttr (p : String × String) : Prop :=
  p.1.data ≠ [] ∧ (∀ c ∈ p.1.data, isNameChar c = true) ∧
    (∀ c ∈ p.2.data, c ≠ qmark ∧ c ≠ squote ∧ c ≠ '>' ∧ c ≠ '/')

instance (p : String × String) : Decidable (goodAttr p) := by
  unfold goodAttr
  infer_instance

/-- A good attribute record: good entries with pairwise distinct keys. -/
def goodAttrs (a : List (String × String)) : Prop :=
  (∀ p ∈ a, goodAttr p) ∧ a.Pairwise (fun p q => p.1 ≠ q.1)

instance (a : List (String × String)) : Decidable (goodAttrs a) := by
  unfold goodAttrs
  infer_instance

theorem matchAttrAt_head {c : Char} {rest : List Char} (h : isNameChar c = false) :
    matchAttrAt (c :: rest) = none := by
  have ht : (c :: rest).takeWhile isNameChar = [] := by
    rw [List.takeWhile_cons, if_neg (by simp [h])]
  unfold matchAttrAt
  rw [ht]
  rfl

theorem matchAttrAt_seg {k v : String} (hk : k.data ≠ [])
    (hkn : ∀ c ∈ k.data, isNameChar c = true)
    (hv : ∀ c ∈ v.data, notQuote c = true) (Y : List Char) :
    matchAttrAt (segChars (k, v) ++ Y) = some ((k, v), Y) := by
  have hshape : segChars (k, v) ++ Y = k.data ++ '=' :: qmark :: (v.data ++ qmark :: Y) := by
    simp [segChars]
  rw [hshape]
  have ht1 : (k.data ++ '=' :: qmark :: (v.data ++ qmark :: Y)).takeWhile isNameChar = k.data :=
    takeWhile_append_sat _ hkn (by decide)
  have hd1 : (k.data ++ '=' :: qmark :: (v.data ++ qmark :: Y)).dropWhile isNameChar =
      '=' :: qmark :: (v.data ++ qmark :: Y) :=
    dropWhile_append_sat _ hkn (by decide)
  have ht2 : (v.data ++ qmark :: Y).takeWhile notQuote = v.data :=
    takeWhile_append_sat _ hv (by decide)
  have hd2 : (v.data ++ qmark :: Y).dropWhile notQuote = qmark :: Y :=
    dropWhile_append_sat _ hv (by decide)
  have hkE : k.data.isEmpty = false := by
    cases hk2 : k.data with
    | nil => exact absurd hk2 hk
    | cons a b => rfl
  simp only [matchAttrAt, ht1, hd1, ht2, hd2, hkE, Bool.false_eq_true, if_false]
  rw [if_pos ⟨by trivial, Or.inl (by trivial)⟩]

theorem recordSet_fresh {acc : List (String × String)} {k v : String}
    (h : ∀ p ∈ acc, p.1 ≠ k) : recordSet acc k v = acc ++ [(k, v)] := by
  unfold recordSet
  rw [if_neg]
  simp only [List.any_eq_true, not_exists, not_and]
  intro p hp
  simpa using h p hp

theorem attrF_render :
    ∀ (a acc : List (String × String)) (J : List Char) (f : Nat),
      (∀ p ∈ a, goodAttr p) → a.Pairwise (fun p q => p.1 ≠ q.1) →
      (∀ p ∈ acc, ∀ q ∈ a, p.1 ≠ q.1) → (J = [] ∨ J = ['/']) →
      (attrChars a ++ J).length ≤ f →
      attrF f (attrChars a ++ J) acc = acc ++ a := by
  intro a
  induction a with
  | nil =>
    intro acc J f _ _ _ hJ hf
    rcases hJ with rfl | rfl
    · rw [show attrChars [] ++ [] = [] from rfl, attrF_nil]
      simp
    · rw [show attrChars [] ++ ['/'] = ['/'] from rfl]
      rw [show attrChars [] ++ ['/'] = ['/'] from rfl] at hf
      match f, hf with
      | 0, hf => exact absurd hf (by simp)
      | f + 1, _ =>
        simp only [attrF]
        rw [show matchAttrAt ('/' :: []) = none from by decide, attrF_nil]
        simp
  | cons p ps ih =>
    intro acc J f hgood hpw hfresh hJ hf
    have hgp := hgood p (by simp)
    obtain ⟨k0, ktail, hk1⟩ : ∃ k0 ktail, p.1.data = k0 :: ktail := by
      cases hpd : p.1.data with
      | nil => exact absurd hpd hgp.1
      | cons a b => exact ⟨a, b, rfl⟩
    have hshape : attrChars (p :: ps) ++ J = ' ' :: (segChars p ++ (attrChars ps ++ J)) := by
      simp [attrChars]
    rw [hshape] at hf ⊢
    match f, hf with
    | 0, hf => exact absurd hf (by simp)
    | f1 + 1, hf =>
      simp only [attrF]
      rw [matchAttrAt_head (by decide)]
      have hlen1 : (segChars p ++ (attrChars ps ++ J)).length ≤ f1 := by
        simpa using hf
      match f1, hlen1 with
      | 0, hlen1 => exact absurd hlen1 (by simp [segChars])
      | f2 + 1, hlen1 =>
        have hvq : ∀ c ∈ p.2.data, notQuote c = true := by
          intro c hc
          have := hgp.2.2 c hc
          simp [notQuote, this.1, this.2.1]
        have hm : matchAttrAt (segChars p ++ (attrChars ps ++ J)) =
            some (p, attrChars ps ++ J) :=
          matchAttrAt_seg hgp.1 hgp.2.1 hvq (attrChars ps ++ J)
        have hshape2 : segChars p ++ (attrChars ps ++ J) =
            k0 :: (ktail ++ '=' :: qmark :: (p.2.data ++ qmark :: (attrChars ps ++ J))) := by
          simp [segChars, hk1]
        rw [hshape2] at hm ⊢
        simp only [attrF, hm]
        have hrs : recordSet acc p.1 p.2 = acc ++ [(p.1, p.2)] :=
          recordSet_fresh (fun q hq => hfresh q hq p (by simp))
        have hrs2 : recordSet acc p.1 p.2 = acc ++ [p] := by
          rw [hrs]
        rw [hrs2]
        have hpw2 := List.pairwise_cons.mp hpw
        have hfresh2 : ∀ x ∈ acc ++ [p], ∀ q ∈ ps, x.1 ≠ q.1 := by
          intro x hx q hq
          rcases List.mem_append.mp hx with hx | hx
          · exact hfresh x hx q (by simp [hq])
          · have hxp : x = p := by simpa using hx
            subst hxp
            exact hpw2.1 q hq
        have hlen2 : (attrChars ps ++ J).length ≤ f2 := by
          have hlen1b : (segChars p).length + (attrChars ps ++ J).length ≤ f2 + 1 := by
            simpa [List.length_append] using hlen1
          have hseglen : 3 ≤ (segChars p).length := by
            simp [segChars]
            omega
          omega
        have hihr := ih (acc ++ [p]) J f2 (fun q hq => hgood q (by simp [hq])) hpw2.2
          hfresh2 hJ hlen2
        rw [hihr]
        simp

theorem parseAttrs_render {a : List (String × String)} (h : goodAttrs a) :
    parseAttrs (attrsToHtml a) = a := by
  unfold parseAttrs
  rw [attrsToHtml_data]
  have := attrF_render a [] [] (attrChars a).length h.1 h.2 (by simp) (Or.inl rfl)
    (by simp)
  simpa using this

theorem parseAttrs_render_slash {a : List (String × String)} (h : goodAttrs a) :
    parseAttrs ⟨attrChars a ++ ['/']⟩ = a := by
  unfold parseAttrs
  have := attrF_render a [] ['/'] (attrChars a ++ ['/']).length h.1 h.2 (by simp)
    (Or.inr rfl) (Nat.le_refl _)
  simpa using this

theorem contains_false {x : Char} : ∀ {l : List Char}, (∀ c ∈ l, c ≠ x) →
    l.contains x = false := by
  intro l
  induction l with
  | nil => intro _; rfl
  | cons c cs ih =>
    intro h
    have hc : (x == c) = false := by simp [Ne.symm (h c (by simp))]
    simp only [List.contains_cons, hc, Bool.false_or]
    exact ih (fun d hd => h d (by simp [hd]))

theorem attrChars_safe {a : List (String × String)} (h : ∀ p ∈ a, goodAttr p) :
    ∀ c ∈ attrChars a, c ≠ '>' ∧ c ≠ '/' := by
  induction a with
  | nil => intro c hc; simp [attrChars] at hc
  | cons p ps ih =>
    intro c hc
    rw [show attrChars (p :: ps) = ' ' :: (segChars p ++ attrChars ps) from rfl] at hc
    rcases List.mem_cons.mp hc with rfl | hc
    · exact ⟨by decide, by decide⟩
    rcases List.mem_append.mp hc with hc | hc
    · have hgp := h p (by simp)
      rw [show segChars p = p.1.data ++ '=' :: qmark :: (p.2.data ++ [qmark]) from rfl] at hc
      rcases List.mem_append.mp hc with hc | hc
      · have hn := hgp.2.1 c hc
        constructor
        · intro hx; rw [hx] at hn; exact absurd hn (by decide)
        · intro hx; rw [hx] at hn; exact absurd hn (by decide)
      rcases List.mem_cons.mp hc with rfl | hc
      · exact ⟨by decide, by decide⟩
      rcases List.mem_cons.mp hc with rfl | hc
      · exact ⟨by decide, by decide⟩
      rcases List.mem_append.mp hc with hc | hc
      · exact ⟨(hgp.2.2 c hc).2.2.1, (hgp.2.2 c hc).2.2.2⟩
      · have : c = qmark := by simpa using hc
        subst this
        exact ⟨by decide, by decide⟩
    · exact ih (fun q hq => h q (by simp [hq])) c hc

/-- Whether a node is a text leaf. -/
def nbText : Node → Bool
  | Node.text _ => true
  | _ => false

/-- Whether a node list starts with a text leaf. -/
def headIsTextN : List Node → Bool
  | Node.text _ :: _ => true
  | _ => false

/-- Whether a token list starts with a text token. -/
def headIsTextT : List Tok → Bool
  | Tok.text _ :: _ => true
  | _ => false

/-- No two adjacent text leaves (adjacent text merges into one token when
the serialization is re-lexed). -/
def noAdjText : List Node → Prop
  | [] => True
  | n :: rest => (nbText n = true → headIsTextN rest = false) ∧ noAdjText rest

/-- A tag name surviving the round trip: nonempty, name characters only,
and already lowercase. -/
def goodName (t : String) : Prop :=
  t.data ≠ [] ∧ (∀ c ∈ t.data, isNameChar c = true) ∧ lowerStr t = t

instance (t : String) : Decidable (goodName t) := by
  unfold goodName
  infer_instance

/-- Trees whose serialization re-parses to themselves: text leaves are
nonempty and `<`-free, element names are good, attributes are good, void
elements are childless, and no two adjacent children are text. -/
inductive goodNode : Node → Prop where
  | text (s : String) : s.data ≠ [] → (∀ c ∈ s.data, c ≠ '<') → goodNode (Node.text s)
  | elem (t : String) (a : List (String × String)) (c : List Node) :
      goodName t → goodAttrs a → (t ∈ voidTags → c = []) →
      (∀ n ∈ c, goodNode n) → noAdjText c → goodNode (Node.element t a c)

/-- A forest of good trees with no adjacent text leaves at the top. -/
def goodForest (ns : List Node) : Prop := (∀ n ∈ ns, goodNode n) ∧ noAdjText ns

/-- Push a node list onto the builder state, one `current.push` each. -/
def pushNodes (ns : List Node) (st : BState) : BState :=
  ns.foldl (fun s n => pushNode n s) st

theorem pushNodes_nil (st : BState) : pushNodes [] st = st := rfl

theorem pushNodes_cons (n : Node) (ns : List Node) (st : BState) :
    pushNodes (n :: ns) st = pushNodes ns (pushNode n st) := rfl

theorem pushNodes_nilstack : ∀ (ns root : List Node),
    pushNodes ns ⟨root, []⟩ = ⟨root ++ ns, []⟩ := by
  intro ns
  induction ns with
  | nil => intro root; simp [pushNodes]
  | cons n ns ih =>
    intro root
    rw [pushNodes_cons, pushNode_nilstack, ih]
    simp

theorem pushNodes_consstack : ∀ (ns root : List Node) (fr : Frame) (fs : List Frame),
    pushNodes ns ⟨root, fr :: fs⟩ = ⟨root, ⟨fr.tag, fr.attrs, fr.children ++ ns⟩ :: fs⟩ := by
  intro ns
  induction ns with
  | nil => intro root fr fs; simp [pushNodes]
  | cons n ns ih =>
    intro root fr fs
    rw [pushNodes_cons, pushNode_consstack, ih]
    simp

/-- The token sequence the tokenizer recovers from a serialized forest. -/
def emitF : Nat → List Node → List Tok
  | 0, _ => []
  | _ + 1, [] => []
  | f + 1, Node.text s :: ns => Tok.text s :: emitF f ns
  | f + 1, Node.element t a c :: ns =>
    if t ∈ voidTags then Tok.otag t ⟨attrChars a ++ ['/']⟩ :: emitF f ns
    else Tok.otag t ⟨attrChars a⟩ :: (emitF f c ++ Tok.ctag t "" :: emitF f ns)

theorem emitF_irrel : ∀ (f f' : Nat) (ns : List Node), sizeOf ns ≤ f → sizeOf ns ≤ f' →
    emitF f ns = emitF f' ns := by
  intro f
  induction f using Nat.strong_induction_on with
  | _ f ih =>
    intro f' ns hf hf'
    match f, f', ns with
    | 0, _, ns => exact absurd hf (by cases ns <;> simp)
    | _ + 1, 0, ns => exact absurd hf' (by cases ns <;> simp)
    | fa + 1, fb + 1, [] => rfl
    | fa + 1, fb + 1, Node.text s :: ns =>
      have hsz : 1 + (1 + sizeOf s) + sizeOf ns ≤ fa + 1 := by simpa using hf
      have hsz' : 1 + (1 + sizeOf s) + sizeOf ns ≤ fb + 1 := by simpa using hf'
      simp only [emitF]
      rw [ih fa (by omega) fb ns (by omega) (by omega)]
    | fa + 1, fb + 1, Node.element t a c :: ns =>
      have hsz : 1 + (1 + sizeOf t + sizeOf a + sizeOf c) + sizeOf ns ≤ fa + 1 := by
        simpa using hf
      have hsz' : 1 + (1 + sizeOf t + sizeOf a + sizeOf c) + sizeOf ns ≤ fb + 1 := by
        simpa using hf'
      simp only [emitF]
      by_cases ht : t ∈ voidTags
      · rw [if_pos ht, if_pos ht, ih fa (by omega) fb ns (by omega) (by omega)]
      · rw [if_neg ht, if_neg ht, ih fa (by omega) fb ns (by omega) (by omega),
          ih fa (by omega) fb c (by omega) (by omega)]

theorem htmlF_cons_text (s : String) (rest : List Node) :
    htmlF (sizeOf (Node.text s :: rest)) (Node.text s :: rest) =
      s ++ htmlF (sizeOf rest) rest := by
  have hsz : sizeOf (Node.text s :: rest) = (1 + sizeOf s + sizeOf rest) + 1 := by
    simp
    omega
  rw [hsz]
  simp only [htmlF]
  congr 1
  exact htmlF_irrel _ _ _ (by omega) (Nat.le_refl _)

theorem htmlF_cons_elem (t : String) (a : List (String × String)) (c rest : List Node) :
    htmlF (sizeOf (Node.element t a c :: rest)) (Node.element t a c :: rest) =
      elementHtml t a (htmlF (sizeOf c) c) ++ htmlF (sizeOf rest) rest := by
  have hsz : sizeOf (Node.element t a c :: rest) =
      (1 + sizeOf t + sizeOf a + sizeOf c + sizeOf rest) + 1 := by
    simp
    omega
  rw [hsz]
  simp only [htmlF]
  rw [htmlF_irrel _ (sizeOf c) c (by omega) (Nat.le_refl _),
    htmlF_irrel _ (sizeOf rest) rest (by omega) (Nat.le_refl _)]

theorem emitF_cons_text (s : String) (rest : List Node) :
    emitF (sizeOf (Node.text s :: rest)) (Node.text s :: rest) =
      Tok.text s :: emitF (sizeOf rest) rest := by
  have hsz : sizeOf (Node.text s :: rest) = (1 + sizeOf s + sizeOf rest) + 1 := by
    simp
    omega
  rw [hsz]
  simp only [emitF]
  rw [emitF_irrel _ (sizeOf rest) rest (by omega) (Nat.le_refl _)]

theorem emitF_cons_elem (t : String) (a : List (String × String)) (c rest : List Node) :
    emitF (sizeOf (Node.element t a c :: rest)) (Node.element t a c :: rest) =
      (if t ∈ voidTags then Tok.otag t ⟨attrChars a ++ ['/']⟩ :: emitF (sizeOf rest) rest
       else Tok.otag t ⟨attrChars a⟩ ::
         (emitF (sizeOf c) c ++ Tok.ctag t "" :: emitF (sizeOf rest) rest)) := by
  have hsz : sizeOf (Node.element t a c :: rest) =
      (1 + sizeOf t + sizeOf a + sizeOf c + sizeOf rest) + 1 := by
    simp
    omega
  rw [hsz]
  simp only [emitF]
  by_cases ht : t ∈ voidTags
  · rw [if_pos ht, if_pos ht, emitF_irrel _ (sizeOf rest) rest (by omega) (Nat.le_refl _)]
  · rw [if_neg ht, if_neg ht, emitF_irrel _ (sizeOf rest) rest (by omega) (Nat.le_refl _),
      emitF_irrel _ (sizeOf c) c (by omega) (Nat.le_refl _)]

/-- A serialized forest that does not start with a text leaf is empty or
starts with `<`. -/
theorem htmlF_head (rest : List Node) (h : headIsTextN rest = false) :
    (htmlF (sizeOf rest) rest).data = [] ∨
      (htmlF (sizeOf rest) rest).data.head? = some '<' := by
  match rest with
  | [] => left; rfl
  | Node.text s :: rest2 => simp [headIsTextN] at h
  | Node.element t a c :: rest2 =>
    right
    rw [htmlF_cons_elem]
    by_cases ht : t ∈ voidTags
    · rw [show elementHtml t a (htmlF (sizeOf c) c) = "<" ++ t ++ attrsToHtml a ++ "/>" from by
        unfold elementHtml; rw [if_pos ht]]
      rfl
    · rw [show elementHtml t a (htmlF (sizeOf c) c) =
          "<" ++ t ++ attrsToHtml a ++ ">" ++ htmlF (sizeOf c) c ++ "</" ++ t ++ ">" from by
        unfold elementHtml; rw [if_neg ht]]
      rfl

theorem append_lt_head {H k : List Char} (hH : H = [] ∨ H.head? = some '<')
    (hk : k = [] ∨ k.head? = some '<') :
    (H ++ k) = [] ∨ (H ++ k).head? = some '<' := by
  rcases hH with rfl | hH
  · simpa using hk
  · right
    match H, hH with
    | c :: H2, hH =>
      have : c = '<' := by simpa using hH
      subst this
      rfl

theorem parseAttrs_chars {a : List (String × String)} (h : goodAttrs a) :
    parseAttrs ⟨attrChars a⟩ = a := by
  show attrF (attrChars a).length (attrChars a) [] = a
  have := attrF_render a [] [] (attrChars a).length h.1 h.2 (by simp) (Or.inl rfl) (by simp)
  simpa using this

/-- The general open-tag match: a good name, then raw attribute text free
of `>` whose first character is not a name character, then `>`. -/
theorem matchTagCore_gen (t : String) (h1 : t.data ≠ [])
    (h2 : ∀ c ∈ t.data, isNameChar c = true) (attrText : List Char)
    (hattr : ∀ c ∈ attrText, (fun x => decide (x ≠ '>')) c = true)
    (hhead : ∀ c0, attrText.head? = some c0 → isNameChar c0 = false) (R : List Char) :
    matchTagCore (t.data ++ (attrText ++ '>' :: R)) = some (t.data, attrText, R) := by
  have htw : (t.data ++ (attrText ++ '>' :: R)).takeWhile isNameChar = t.data := by
    match attrText with
    | [] => exact takeWhile_append_sat _ h2 (by decide)
    | a0 :: as =>
      have ha0 : isNameChar a0 = false := hhead a0 rfl
      exact takeWhile_append_sat _ h2 ha0
  have hdw : (t.data ++ (attrText ++ '>' :: R)).dropWhile isNameChar = attrText ++ '>' :: R := by
    match attrText with
    | [] => exact dropWhile_append_sat _ h2 (by decide)
    | a0 :: as =>
      have ha0 : isNameChar a0 = false := hhead a0 rfl
      exact dropWhile_append_sat _ h2 ha0
  have htw2 : (attrText ++ '>' :: R).takeWhile (fun c => c ≠ '>') = attrText :=
    takeWhile_append_sat _ hattr (by decide)
  have hdw2 : (attrText ++ '>' :: R).dropWhile (fun c => c ≠ '>') = '>' :: R :=
    dropWhile_append_sat _ hattr (by decide)
  have htE : t.data.isEmpty = false := by
    cases ht2 : t.data with
    | nil => exact absurd ht2 h1
    | cons x xs => rfl
  simp only [matchTagCore, htw, hdw, htw2, hdw2, htE, Bool.false_eq_true, if_false]

theorem matchTag_open (t : String) (h1 : t.data ≠ [])
    (h2 : ∀ c ∈ t.data, isNameChar c = true) (attrText : List Char)
    (hattr : ∀ c ∈ attrText, (fun x => decide (x ≠ '>')) c = true)
    (hhead : ∀ c0, attrText.head? = some c0 → isNameChar c0 = false) (R : List Char) :
    matchTag (t.data ++ (attrText ++ '>' :: R)) = some (false, t.data, attrText, R) := by
  unfold matchTag
  rw [if_neg ?hne, matchTagCore_gen t h1 h2 attrText hattr hhead R]
  · rfl
  case hne =>
    intro hcontra
    obtain ⟨t0, ts, htd⟩ : ∃ t0 ts, t.data = t0 :: ts := by
      cases hpd : t.data with
      | nil => exact absurd hpd h1
      | cons x xs => exact ⟨x, xs, rfl⟩
    rw [htd] at hcontra
    have ht0 : t0 = '/' := by simpa using hcontra
    have hnm := h2 t0 (by rw [htd]; simp)
    rw [ht0] at hnm
    exact absurd hnm (by decide)

/-- Tokenizing a general well-formed open tag in front of any
continuation. -/
theorem tokenize_open_attrs (t : String) (h1 : t.data ≠ [])
    (h2 : ∀ c ∈ t.data, isNameChar c = true) (attrText : List Char)
    (hattr : ∀ c ∈ attrText, (fun x => decide (x ≠ '>')) c = true)
    (hhead : ∀ c0, attrText.head? = some c0 → isNameChar c0 = false) (R : List Char) :
    tokenize ('<' :: (t.data ++ (attrText ++ '>' :: R))) =
      Tok.otag t ⟨attrText⟩ :: tokenize R := by
  rw [tokenize_lt_some (matchTag_open t h1 h2 attrText hattr hhead R)]
  rfl

theorem attrChars_gt {a : List (String × String)} (h : ∀ p ∈ a, goodAttr p) :
    ∀ c ∈ attrChars a, (fun x => decide (x ≠ '>')) c = true := by
  intro c hc
  simpa using (attrChars_safe h c hc).1

theorem attrChars_slash_gt {a : List (String × String)} (h : ∀ p ∈ a, goodAttr p) :
    ∀ c ∈ attrChars a ++ ['/'], (fun x => decide (x ≠ '>')) c = true := by
  intro c hc
  rcases List.mem_append.mp hc with hc | hc
  · simpa using (attrChars_safe h c hc).1
  · have hc2 : c = '/' := by simpa using hc
    subst hc2
    decide

theorem attrChars_head {a : List (String × String)} :
    ∀ c0, (attrChars a).head? = some c0 → isNameChar c0 = false := by
  match a with
  | [] => intro c0 hc0; simp [attrChars] at hc0
  | p :: ps =>
    intro c0 hc0
    rw [show attrChars (p :: ps) = ' ' :: (segChars p ++ attrChars ps) from rfl] at hc0
    have h2 : ' ' = c0 := by simpa using hc0
    rw [← h2]
    decide

theorem attrChars_slash_head {a : List (String × String)} :
    ∀ c0, (attrChars a ++ ['/']).head? = some c0 → isNameChar c0 = false := by
  match a with
  | [] =>
    intro c0 hc0
    have h2 : '/' = c0 := by simpa [attrChars] using hc0
    rw [← h2]
    decide
  | p :: ps =>
    intro c0 hc0
    rw [show attrChars (p :: ps) = ' ' :: (segChars p ++ attrChars ps) from rfl] at hc0
    have h2 : ' ' = c0 := by simpa using hc0
    rw [← h2]
    decide

theorem takeWhile_lt_split {s2 H : List Char}
    (hs2 : ∀ c ∈ s2, (fun x => decide (x ≠ '<')) c = true)
    (hH : H = [] ∨ H.head? = some '<') :
    (s2 ++ H).takeWhile (fun x => x ≠ '<') = s2 ∧
      (s2 ++ H).dropWhile (fun x => x ≠ '<') = H := by
  rcases hH with rfl | hH
  · rw [List.append_nil]
    exact ⟨takeWhile_all_sat hs2, dropWhile_all_sat hs2⟩
  · match H, hH with
    | ch :: H2, hH =>
      have hch : ch = '<' := by simpa using hH
      subst hch
      exact ⟨takeWhile_append_sat H2 hs2 (by decide), dropWhile_append_sat H2 hs2 (by decide)⟩

/-- Serializing a good forest and re-lexing recovers exactly the emitted
token sequence, in front of any continuation that is empty or starts at a
tag. -/
theorem tokenize_emit :
    ∀ (f : Nat) (ns : List Node), sizeOf ns ≤ f → goodForest ns →
      ∀ k : List Char, (k = [] ∨ k.head? = some '<') →
        tokenize ((htmlF (sizeOf ns) ns).data ++ k) =
          emitF (sizeOf ns) ns ++ tokenize k := by
  intro f
  induction f using Nat.strong_induction_on with
  | _ f ih =>
    intro ns hf hgood k hk
    match ns with
    | [] =>
      rw [show (htmlF (sizeOf ([] : List Node)) []).data = [] from rfl,
        show emitF (sizeOf ([] : List Node)) [] = [] from rfl]
      simp
    | Node.text s :: rest =>
      have hsz : 1 + (1 + sizeOf s) + sizeOf rest ≤ f := by simpa using hf
      have hgs := hgood.1 (Node.text s) (by simp)
      obtain ⟨hs_ne, hs_lt⟩ : s.data ≠ [] ∧ (∀ c ∈ s.data, c ≠ '<') := by
        cases hgs with
        | text _ h1 h2 => exact ⟨h1, h2⟩
      have hadj : headIsTextN rest = false := hgood.2.1 rfl
      have hgrest : goodForest rest := ⟨fun n hn => hgood.1 n (by simp [hn]), hgood.2.2⟩
      obtain ⟨c0, s2, hs⟩ : ∃ c0 s2, s.data = c0 :: s2 := by
        cases hsd : s.data with
        | nil => exact absurd hsd hs_ne
        | cons x xs => exact ⟨x, xs, rfl⟩
      have hc0 : c0 ≠ '<' := hs_lt c0 (by rw [hs]; simp)
      have hH := htmlF_head rest hadj
      have e1 : (htmlF (sizeOf (Node.text s :: rest)) (Node.text s :: rest)).data ++ k =
          c0 :: (s2 ++ ((htmlF (sizeOf rest) rest).data ++ k)) := by
        rw [htmlF_cons_text, String.data_append, hs]
        simp
      rw [e1, tokenize_text hc0]
      have hs2 : ∀ c ∈ s2, (fun x => decide (x ≠ '<')) c = true := by
        intro c hc
        simpa using hs_lt c (by rw [hs]; simp [hc])
      have hsplit := takeWhile_lt_split hs2 (append_lt_head hH hk)
      rw [hsplit.1, hsplit.2]
      rw [ih (sizeOf rest) (by omega) rest (Nat.le_refl _) hgrest k hk]
      rw [emitF_cons_text, ← hs]
      rfl
    | Node.element t a c :: rest =>
      have hsz : 1 + (1 + sizeOf t + sizeOf a + sizeOf c) + sizeOf rest ≤ f := by
        simpa using hf
      have hge := hgood.1 (Node.element t a c) (by simp)
      obtain ⟨hname, hattrs, hvoid, hchild, hadjc⟩ : goodName t ∧ goodAttrs a ∧
          (t ∈ voidTags → c = []) ∧ (∀ n ∈ c, goodNode n) ∧ noAdjText c := by
        cases hge with
        | elem _ _ _ g1 g2 g3 g4 g5 => exact ⟨g1, g2, g3, g4, g5⟩
      have hgrest : goodForest rest := ⟨fun n hn => hgood.1 n (by simp [hn]), hgood.2.2⟩
      have hgc : goodForest c := ⟨hchild, hadjc⟩
      have ht_ne := hname.1
      have ht_nm := hname.2.1
      by_cases ht : t ∈ voidTags
      · have d1 : (elementHtml t a (htmlF (sizeOf c) c)).data =
            '<' :: ((t.data ++ (attrsToHtml a).data) ++ ('/' :: '>' :: [])) := by
          unfold elementHtml
          rw [if_pos ht]
          rfl
        have e1 : (htmlF (sizeOf (Node.element t a c :: rest))
              (Node.element t a c :: rest)).data ++ k =
            '<' :: (t.data ++ ((attrChars a ++ ['/']) ++ '>' ::
              ((htmlF (sizeOf rest) rest).data ++ k))) := by
          rw [htmlF_cons_elem, String.data_append, d1, attrsToHtml_data]
          simp
        rw [e1]
        rw [tokenize_open_attrs t ht_ne ht_nm (attrChars a ++ ['/'])
          (attrChars_slash_gt hattrs.1) attrChars_slash_head _]
        rw [ih (sizeOf rest) (by omega) rest (Nat.le_refl _) hgrest k hk]
        rw [emitF_cons_elem, if_pos ht]
        rfl
      · have d1 : (elementHtml t a (htmlF (sizeOf c) c)).data =
            '<' :: ((((((t.data ++ (attrsToHtml a).data) ++ ('>' :: [])) ++
              (htmlF (sizeOf c) c).data) ++ ('<' :: '/' :: [])) ++ t.data) ++ ('>' :: [])) := by
          unfold elementHtml
          rw [if_neg ht]
          rfl
        have e1 : (htmlF (sizeOf (Node.element t a c :: rest))
              (Node.element t a c :: rest)).data ++ k =
            '<' :: (t.data ++ (attrChars a ++ '>' ::
              ((htmlF (sizeOf c) c).data ++ ('<' :: '/' :: (t.data ++ '>' ::
                ((htmlF (sizeOf rest) rest).data ++ k)))))) := by
          rw [htmlF_cons_elem, String.data_append, d1, attrsToHtml_data]
          simp
        rw [e1]
        rw [tokenize_open_attrs t ht_ne ht_nm (attrChars a) (attrChars_gt hattrs.1)
          attrChars_head _]
        rw [ih (sizeOf c) (by omega) c (Nat.le_refl _) hgc
          ('<' :: '/' :: (t.data ++ '>' :: ((htmlF (sizeOf rest) rest).data ++ k)))
          (Or.inr rfl)]
        rw [tokenize_close_tag t ht_ne (List.all_eq_true.mpr ht_nm)]
        rw [ih (sizeOf rest) (by omega) rest (Nat.le_refl _) hgrest k hk]
        rw [emitF_cons_elem, if_neg ht]
        simp

theorem stepTok_text_ne {st : BState} {s : String} (h : s.data ≠ []) :
    stepTok st (Tok.text s) = pushNode (Node.text s) st := by
  have hne : s.isEmpty = false := by
    rw [Bool.eq_false_iff]
    intro hEmp
    exact h (congrArg String.data ((String.isEmpty_iff _).mp hEmp))
  simp [stepTok, hne]

theorem stepTok_otag_void {st : BState} {t : String} {a : List (String × String)}
    (hl : lowerStr t = t) (ht : t ∈ voidTags) (hgood : goodAttrs a) :
    stepTok st (Tok.otag t ⟨attrChars a ++ ['/']⟩) = pushNode (Node.element t a []) st := by
  simp only [stepTok]
  rw [hl, if_pos (Or.inl ht), parseAttrs_render_slash hgood]

theorem stepTok_otag_open {st : BState} {t : String} {a : List (String × String)}
    (hl : lowerStr t = t) (ht : ¬t ∈ voidTags) (hgood : goodAttrs a) :
    stepTok st (Tok.otag t ⟨attrChars a⟩) = ⟨st.root, ⟨t, a, []⟩ :: st.stack⟩ := by
  have hmem : ¬('/' ∈ attrChars a) := fun hm => absurd rfl ((attrChars_safe hgood.1 '/' hm).2)
  simp only [stepTok]
  rw [hl, if_neg (by simp [ht, hmem]), parseAttrs_chars hgood]

theorem pushNodes_newframe (cns root : List Node) (t : String)
    (a : List (String × String)) (fs : List Frame) :
    pushNodes cns ⟨root, (⟨t, a, []⟩ : Frame) :: fs⟩ = ⟨root, ⟨t, a, cns⟩ :: fs⟩ := by
  rw [pushNodes_consstack]
  rfl

/-- Running the builder over the emitted tokens of a good forest is
exactly pushing the forest's nodes. -/
theorem emit_build :
    ∀ (f : Nat) (ns : List Node), sizeOf ns ≤ f → goodForest ns →
      ∀ st : BState, (emitF (sizeOf ns) ns).foldl stepTok st = pushNodes ns st := by
  intro f
  induction f using Nat.strong_induction_on with
  | _ f ih =>
    intro ns hf hgood st
    match ns with
    | [] =>
      rw [show emitF (sizeOf ([] : List Node)) [] = [] from rfl]
      rfl
    | Node.text s :: rest =>
      have hsz : 1 + (1 + sizeOf s) + sizeOf rest ≤ f := by simpa using hf
      have hgs := hgood.1 (Node.text s) (by simp)
      obtain ⟨hs_ne, hs_lt⟩ : s.data ≠ [] ∧ (∀ c ∈ s.data, c ≠ '<') := by
        cases hgs with
        | text _ h1 h2 => exact ⟨h1, h2⟩
      have hgrest : goodForest rest := ⟨fun n hn => hgood.1 n (by simp [hn]), hgood.2.2⟩
      rw [emitF_cons_text, List.foldl_cons, stepTok_text_ne hs_ne]
      rw [ih (sizeOf rest) (by omega) rest (Nat.le_refl _) hgrest]
      rfl
    | Node.element t a c :: rest =>
      have hsz : 1 + (1 + sizeOf t + sizeOf a + sizeOf c) + sizeOf rest ≤ f := by
        simpa using hf
      have hge := hgood.1 (Node.element t a c) (by simp)
      obtain ⟨hname, hattrs, hvoid, hchild, hadjc⟩ : goodName t ∧ goodAttrs a ∧
          (t ∈ voidTags → c = []) ∧ (∀ n ∈ c, goodNode n) ∧ noAdjText c := by
        cases hge with
        | elem _ _ _ g1 g2 g3 g4 g5 => exact ⟨g1, g2, g3, g4, g5⟩
      have hgrest : goodForest rest := ⟨fun n hn => hgood.1 n (by simp [hn]), hgood.2.2⟩
      have hgc : goodForest c := ⟨hchild, hadjc⟩
      by_cases ht : t ∈ voidTags
      · have hc0 : c = [] := hvoid ht
        subst hc0
        rw [emitF_cons_elem, if_pos ht, List.foldl_cons, stepTok_otag_void hname.2.2 ht hattrs]
        rw [ih (sizeOf rest) (by omega) rest (Nat.le_refl _) hgrest]
        rfl
      · rw [emitF_cons_elem, if_neg ht, List.foldl_cons, stepTok_otag_open hname.2.2 ht hattrs]
        rw [List.foldl_append]
        rw [ih (sizeOf c) (by omega) c (Nat.le_refl _) hgc]
        rw [pushNodes_newframe]
        rw [List.foldl_cons]
        have hpop : stepTok (⟨st.root, (⟨t, a, c⟩ : Frame) :: st.stack⟩ : BState)
            (Tok.ctag t "") = pushNode (Node.element t a c) st := rfl
        rw [hpop]
        rw [ih (sizeOf rest) (by omega) rest (Nat.le_refl _) hgrest]
        rfl

/-- Well-formed token streams: nonempty `<`-free text never followed
directly by more text, void opens, and balanced open/close pairs whose
non-void opens carry no `/` in the raw attribute text; names must
lowercase to good names and the raw attribute text must parse to a good
record.  The close tag's own name is unconstrained, as the builder
ignores it. -/
inductive WfToks : List Tok → Prop where
  | nil : WfToks []
  | text (s : String) (rest : List Tok) : s.data ≠ [] → (∀ c ∈ s.data, c ≠ '<') →
      headIsTextT rest = false → WfToks rest → WfToks (Tok.text s :: rest)
  | void (name attrs : String) (rest : List Tok) : lowerStr name ∈ voidTags →
      goodName (lowerStr name) → goodAttrs (parseAttrs attrs) → WfToks rest →
      WfToks (Tok.otag name attrs :: rest)
  | elem (name attrs cname cattrs : String) (inner rest : List Tok) :
      ¬lowerStr name ∈ voidTags → attrs.data.contains '/' = false →
      goodName (lowerStr name) → goodAttrs (parseAttrs attrs) →
      WfToks inner → WfToks rest →
      WfToks (Tok.otag name attrs :: (inner ++ Tok.ctag cname cattrs :: rest))

theorem stepTok_otag_voidraw {st : BState} {name attrs : String}
    (hv : lowerStr name ∈ voidTags) :
    stepTok st (Tok.otag name attrs) =
      pushNode (Node.element (lowerStr name) (parseAttrs attrs) []) st := by
  simp only [stepTok]
  rw [if_pos (Or.inl hv)]

theorem stepTok_otag_openraw {st : BState} {name attrs : String}
    (hnv : ¬lowerStr name ∈ voidTags) (hsl : attrs.data.contains '/' = false) :
    stepTok st (Tok.otag name attrs) =
      ⟨st.root, ⟨lowerStr name, parseAttrs attrs, []⟩ :: st.stack⟩ := by
  have hmem : ¬('/' ∈ attrs.data) := by
    intro hm
    rw [show attrs.data.contains '/' = true from by
      simpa [List.contains_cons] using List.elem_eq_true_of_mem hm] at hsl
    exact absurd hsl (by simp)
  simp only [stepTok]
  rw [if_neg (by simp [hnv, hmem])]

/-- A well-formed token stream builds, from any state, exactly a push of
one good forest; the forest starts with a text leaf only if the stream
starts with a text token. -/
theorem wf_build {ts : List Tok} (h : WfToks ts) :
    ∃ ns : List Node, goodForest ns ∧ (headIsTextN ns = true → headIsTextT ts = true) ∧
      ∀ st : BState, ts.foldl stepTok st = pushNodes ns st := by
  induction h with
  | nil =>
    refine ⟨[], ⟨by simp, trivial⟩, ?_, fun st => rfl⟩
    intro hh
    exact absurd hh (by decide)
  | text s rest h1 h2 h3 _ ihr =>
    obtain ⟨ns2, hg2, hh2, hfold2⟩ := ihr
    refine ⟨Node.text s :: ns2, ⟨?_, ?_, ?_⟩, fun _ => rfl, ?_⟩
    · intro n hn
      rcases List.mem_cons.mp hn with rfl | hn
      · exact goodNode.text s h1 h2
      · exact hg2.1 n hn
    · intro _
      rw [Bool.eq_false_iff]
      intro hns
      have hcontra := hh2 hns
      rw [h3] at hcontra
      simp at hcontra
    · exact hg2.2
    · intro st
      rw [List.foldl_cons, stepTok_text_ne h1, hfold2]
      rfl
  | void name attrs rest hv hgn hga _ ihr =>
    obtain ⟨ns2, hg2, hh2, hfold2⟩ := ihr
    refine ⟨Node.element (lowerStr name) (parseAttrs attrs) [] :: ns2, ⟨?_, ?_, ?_⟩, ?_, ?_⟩
    · intro n hn
      rcases List.mem_cons.mp hn with rfl | hn
      · exact goodNode.elem _ _ _ hgn hga (fun _ => rfl) (by simp) trivial
      · exact hg2.1 n hn
    · intro hnb
      simp [nbText] at hnb
    · exact hg2.2
    · intro hh
      simp [headIsTextN] at hh
    · intro st
      rw [List.foldl_cons, stepTok_otag_voidraw hv, hfold2]
      rfl
  | elem name attrs cname cattrs inner rest hnv hsl hgn hga _ _ ihi ihr =>
    obtain ⟨cns, hgc, hhc, hfoldc⟩ := ihi
    obtain ⟨ns2, hg2, hh2, hfold2⟩ := ihr
    refine ⟨Node.element (lowerStr name) (parseAttrs attrs) cns :: ns2, ⟨?_, ?_, ?_⟩, ?_, ?_⟩
    · intro n hn
      rcases List.mem_cons.mp hn with rfl | hn
      · exact goodNode.elem _ _ _ hgn hga (fun hmem => absurd hmem hnv) hgc.1 hgc.2
      · exact hg2.1 n hn
    · intro hnb
      simp [nbText] at hnb
    · exact hg2.2
    · intro hh
      simp [headIsTextN] at hh
    · intro st
      rw [List.foldl_cons, stepTok_otag_openraw hnv hsl, List.foldl_append, hfoldc,
        pushNodes_newframe, List.foldl_cons]
      have hpop : stepTok (⟨st.root, (⟨lowerStr name, parseAttrs attrs, cns⟩ : Frame) ::
          st.stack⟩ : BState) (Tok.ctag cname cattrs) =
          pushNode (Node.element (lowerStr name) (parseAttrs attrs) cns) st := rfl
      rw [hpop, hfold2]
      rfl

/-- The tree-level round trip: serializing a good forest and re-parsing
it restores the forest exactly. -/
theorem good_roundtrip {ns : List Node} (h : goodForest ns) :
    htmlToNodes (nodesToHtml ns) = ns := by
  unfold htmlToNodes nodesToHtml
  have hT := tokenize_emit (sizeOf ns) ns (Nat.le_refl _) h [] (Or.inl rfl)
  rw [List.append_nil, show tokenize ([] : List Char) = [] from rfl, List.append_nil] at hT
  rw [hT]
  rw [emit_build (sizeOf ns) ns (Nat.le_refl _) h initState]
  rw [show pushNodes ns initState = ⟨ns, []⟩ from by
    rw [show initState = (⟨[], []⟩ : BState) from rfl, pushNodes_nilstack]
    simp]
  exact unwind_nilstack ns

/-! ### C1: the round-trip claim -/

/-- C1 counterexample: the claim fails as stated.  The markup
`<p><a href="http://u">x</a>y</p>` is well-formed (balanced, quoted
attribute), but the `/` of the URL makes the reparse of the serialized
tree treat the anchor as self-closing, so the round trip does not return
the same tree. -/
theorem C1_roundtrip_counterexample :
    htmlToNodes (nodesToHtml (htmlToNodes "<p><a href=\"http://u\">x</a>y</p>")) ≠
      htmlToNodes "<p><a href=\"http://u\">x</a>y</p>" := by
  decide

/-- C1 (amended): for every markup string whose token stream is
well-formed in the sense of `WfToks` — balanced tags, nonempty `<`-free
non-adjacent text runs, lowercase name-character tag names, and raw
attribute text that is slash-free on non-void opens and parses to a
duplicate-free record of name-character keys and quote-, `>`- and
slash-free values — re-parsing the serialization of the parsed tree
yields the same tree. -/
theorem C1_wellformed_roundtrip (h : String) (hwf : WfToks (tokenize h.data)) :
    htmlToNodes (nodesToHtml (htmlToNodes h)) = htmlToNodes h := by
  obtain ⟨ns, hgood, _, hfold⟩ := wf_build hwf
  have hh : htmlToNodes h = ns := by
    unfold htmlToNodes
    rw [hfold initState]
    rw [show pushNodes ns initState = ⟨ns, []⟩ from by
      rw [show initState = (⟨[], []⟩ : BState) from rfl, pushNodes_nilstack]
      simp]
    exact unwind_nilstack ns
  rw [hh]
  exact good_roundtrip hgood

/-- Closed instance of the amended C1 at a concrete well-formed input,
with the `WfToks` hypothesis discharged by an explicit derivation. -/
theorem C1_wellformed_roundtrip_witness :
    WfToks (tokenize ("<p>Hello <b>world</b>!</p>" : String).data) ∧
    htmlToNodes (nodesToHtml (htmlToNodes "<p>Hello <b>world</b>!</p>")) =
      htmlToNodes "<p>Hello <b>world</b>!</p>" := by
  have htok : tokenize ("<p>Hello <b>world</b>!</p>" : String).data =
      [Tok.otag "p" "", Tok.text "Hello ", Tok.otag "b" "", Tok.text "world",
       Tok.ctag "b" "", Tok.text "!", Tok.ctag "p" ""] := by decide
  have hwf : WfToks (tokenize ("<p>Hello <b>world</b>!</p>" : String).data) := by
    rw [htok]
    exact WfToks.elem "p" "" "p" ""
      [Tok.text "Hello ", Tok.otag "b" "", Tok.text "world", Tok.ctag "b" "", Tok.text "!"] []
      (by decide) (by decide) (by decide) (by decide)
      (WfToks.text "Hello "
        [Tok.otag "b" "", Tok.text "world", Tok.ctag "b" "", Tok.text "!"]
        (by decide) (by decide) (by decide)
        (WfToks.elem "b" "" "b" "" [Tok.text "world"] [Tok.text "!"]
          (by decide) (by decide) (by decide) (by decide)
          (WfToks.text "world" [] (by decide) (by decide) (by decide) WfToks.nil)
          (WfToks.text "!" [] (by decide) (by decide) (by decide) WfToks.nil)))
      WfToks.nil
  exact ⟨hwf, C1_wellformed_roundtrip "<p>Hello <b>world</b>!</p>" hwf⟩

end Telegraph
